import Mathlib

/-! # kacchiOS: heap allocator, cooperative scheduler and process table

A shallow embedding of `memory.c`, `scheduler.c` and `process.c`.

* Machine words are natural numbers; every 32-bit operation of the source is
  written with an explicit reduction modulo `2^32` (`add32`, `sub32`).
* The heap is a typed memory: `mem a` is the block header stored at address
  `a`.  Pointers are addresses, `0` is `NULL`.  The payload bytes live in a
  second map `data`, which only `realloc` touches; a copy that would leave the
  payload of its destination block has no result in the model.  In the reachable states
  the headers of the block list are at least 16 bytes apart
  (`reachable_list_shape`), so they do not share bytes.
* `while` loops that chase `next` pointers take a fuel argument and return
  `none` when the fuel runs out, so that non-termination is visible.
* The scheduler and the process manager are state records with one function
  per C function; a run is a list of calls applied in order.
-/

namespace Kacchi

/-! ## Machine arithmetic -/

/-- The modulus of `uint32_t` and of the 32-bit `size_t`. -/
def U32 : Nat := 4294967296

/-- Unsigned 32-bit addition. -/
def add32 (a b : Nat) : Nat := (a + b) % U32

/-- Unsigned 32-bit subtraction (wraps around below zero). -/
def sub32 (a b : Nat) : Nat := (a % U32 + (U32 - b % U32)) % U32

/-! ## memory.c -/

/-- The macro `HEAP_ALIGN`. -/
def HEAP_ALIGN : Nat := 8

/-- The macro `MIN_ALLOC`. -/
def MIN_ALLOC : Nat := 16

/-- The value of `sizeof(mem_block_t)` on the 32-bit target: four 4-byte fields. -/
def HDR : Nat := 16

/-- The struct `mem_block_t`: `size` includes the header, `free` is a C `int`
used as a truth value, `prev` and `next` are the `list` links. -/
structure mem_block_t where
  size : Nat
  free : Int
  prev : Nat
  next : Nat

/-- Header memory: the `mem_block_t` stored at each address. -/
abbrev Mem := Nat → mem_block_t

/-- The globals of `memory.c` together with the memory they point into. -/
structure Heap where
  heap_start : Nat
  heap_size : Nat
  heap_used : Nat
  free_list : Nat
  mem : Mem
  data : Nat → Nat

/-- The assignment `a->size = v`. -/
def set_size (m : Mem) (a v : Nat) : Mem :=
  fun x => if x = a then { m a with size := v } else m x

/-- The assignment `a->free = v`. -/
def set_free (m : Mem) (a : Nat) (v : Int) : Mem :=
  fun x => if x = a then { m a with free := v } else m x

/-- The assignment `a->list.prev = v`. -/
def set_prev (m : Mem) (a v : Nat) : Mem :=
  fun x => if x = a then { m a with prev := v } else m x

/-- The assignment `a->list.next = v`. -/
def set_next (m : Mem) (a v : Nat) : Mem :=
  fun x => if x = a then { m a with next := v } else m x

/-- The function `mem_init`: one free block covering the whole region. -/
def mem_init (s : Heap) (start size : Nat) : Heap :=
  let first := start
  let m := set_size s.mem first size
  let m := set_free m first 1
  let m := set_prev m first 0
  let m := set_next m first 0
  { s with heap_start := start, heap_size := size, heap_used := 0,
           free_list := first, mem := m }

/-- The function `align_up`: `(sz + HEAP_ALIGN - 1) & ~(HEAP_ALIGN - 1)` on a
32-bit `size_t`; the mask `~7` is `0xFFFFFFF8`. -/
def align_up (sz : Nat) : Nat :=
  Nat.land ((sz + HEAP_ALIGN - 1) % U32) (U32 - 1 - (HEAP_ALIGN - 1))

/-- The first `if` of `coalesce`: absorb the next block when it is free. -/
def merge_next (m : Mem) (blk : Nat) : Mem :=
  let next := (m blk).next
  if next ≠ 0 ∧ (m next).free ≠ 0 then
    let ma := set_size m blk (add32 (m blk).size (m next).size)
    let mb := set_next ma blk (ma next).next
    if (mb next).next ≠ 0 then set_prev mb (mb next).next blk else mb
  else m

/-- The second `if` of `coalesce`: let the previous block absorb `blk` when it
is free. -/
def merge_prev (m : Mem) (blk : Nat) : Mem :=
  let prev := (m blk).prev
  if prev ≠ 0 ∧ (m prev).free ≠ 0 then
    let ma := set_size m prev (add32 (m prev).size (m blk).size)
    let mb := set_next ma prev (ma blk).next
    if (mb blk).next ≠ 0 then set_prev mb (mb blk).next prev else mb
  else m

/-- The function `coalesce`, on the header memory. -/
def coalesce (m : Mem) (blk : Nat) : Mem :=
  if blk = 0 then m
  else merge_prev (merge_next m blk) blk

/-- The body of `if (blk->size > req + MIN_ALLOC)` in `malloc`: carve a new free
block out of the tail of `blk` and link it after `blk`. -/
def split_block (m : Mem) (blk req : Nat) : Mem :=
  let new_blk := add32 blk req
  let ma := set_size m new_blk (sub32 (m blk).size req)
  let mb := set_free ma new_blk 1
  let mc := set_prev mb new_blk blk
  let md := set_next mc new_blk (mc blk).next
  let me := if (md blk).next ≠ 0 then set_prev md (md blk).next new_blk else md
  let mf := set_next me blk new_blk
  set_size mf blk req

/-- The `while` loop of `malloc`: first fit from `blk` on, splitting the chosen
block when it is larger than `req + MIN_ALLOC`.  The result is the returned
pointer (`0` for `NULL`) and the new state; `none` means out of fuel. -/
def malloc_loop (req : Nat) : Nat → Heap → Nat → Option (Nat × Heap)
  | 0, _, _ => none
  | fuel + 1, s, blk =>
    if blk = 0 then some (0, s)
    else if (s.mem blk).free ≠ 0 ∧ (s.mem blk).size ≥ req then
      let m1 :=
        if (s.mem blk).size > add32 req MIN_ALLOC then split_block s.mem blk req
        else s.mem
      let m2 := set_free m1 blk 0
      some (add32 blk HDR, { s with mem := m2, heap_used := add32 s.heap_used req })
    else malloc_loop req fuel s (s.mem blk).next

/-- The required block size `req` that `malloc` computes from the request. -/
def req_of (size : Nat) : Nat :=
  let req := align_up (add32 HDR size)
  if req < MIN_ALLOC then MIN_ALLOC else req

/-- The function `malloc`. -/
def malloc (fuel : Nat) (s : Heap) (size : Nat) : Option (Nat × Heap) :=
  if size = 0 then some (0, s)
  else if s.heap_start = 0 then some (0, s)
  else malloc_loop (req_of size) fuel s s.free_list

/-- The function `free`. -/
def free (s : Heap) (ptr : Nat) : Heap :=
  if ptr = 0 ∨ s.heap_start = 0 then s
  else
    let blk := sub32 ptr HDR
    if (s.mem blk).free ≠ 0 then s
    else
      let m := set_free s.mem blk 1
      let used := sub32 s.heap_used (m blk).size
      { s with heap_used := used, mem := coalesce m blk }

/-- The copy loop of `realloc`: `dst[i] = src[i]` for `i = 0 .. n-1`, in order. -/
def copy_loop (d : Nat → Nat) (src dst : Nat) : Nat → (Nat → Nat)
  | 0 => d
  | i + 1 =>
    let di := copy_loop d src dst i
    fun x => if x = add32 dst i then di (add32 src i) else di x

/-- The function `realloc`.  The result is `none` when `malloc` runs out of
fuel, and also when the copy loop would write past the payload of the new
block (its capacity is below `old_size`, which happens when the request
overflowed in `malloc`): those writes land on block headers, which the typed
header memory cannot express, so the model gives no result there. -/
def realloc (fuel : Nat) (s : Heap) (ptr new_size : Nat) : Option (Nat × Heap) :=
  if ptr = 0 then malloc fuel s new_size
  else if new_size = 0 then some (0, free s ptr)
  else
    let blk := sub32 ptr HDR
    let old_size := sub32 (s.mem blk).size HDR
    if new_size ≤ old_size then some (ptr, s)
    else
      match malloc fuel s new_size with
      | none => none
      | some (new_ptr, s1) =>
        if new_ptr = 0 then some (0, s1)
        else if old_size ≤ sub32 (s1.mem (sub32 new_ptr HDR)).size HDR then
          let s2 := { s1 with data := copy_loop s1.data ptr new_ptr old_size }
          some (new_ptr, free s2 ptr)
        else none

/-- The numbers that `mem_stats` prints, in the order it prints them. -/
structure Stats where
  total : Nat
  used : Nat
  free_total : Nat
  free_count : Nat
  alloc_count : Nat
deriving DecidableEq, Repr

/-- The `while` loop of `mem_stats`, with its three `uint32_t` accumulators. -/
def mem_stats_loop (m : Mem) : Nat → Nat → Nat → Nat → Nat → Option (Nat × Nat × Nat)
  | 0, _, _, _, _ => none
  | fuel + 1, blk, free_total, free_count, alloc_count =>
    if blk = 0 then some (free_total, free_count, alloc_count)
    else if (m blk).free ≠ 0 then
      mem_stats_loop m fuel (m blk).next (add32 free_total (m blk).size)
        (add32 free_count 1) alloc_count
    else
      mem_stats_loop m fuel (m blk).next free_total free_count (add32 alloc_count 1)

/-- The function `mem_stats`, returning what it prints. -/
def mem_stats (fuel : Nat) (s : Heap) : Option Stats :=
  match mem_stats_loop s.mem fuel s.free_list 0 0 0 with
  | none => none
  | some (ft, fc, ac) => some ⟨s.heap_size, s.heap_used, ft, fc, ac⟩

/-- The traversal of `mem_dump`: the addresses of the blocks in list order,
`none` when the fuel runs out before the `NULL` link is reached. -/
def block_list (m : Mem) : Nat → Nat → Option (List Nat)
  | 0, _ => none
  | fuel + 1, blk =>
    if blk = 0 then some []
    else (block_list m fuel (m blk).next).map (fun l => blk :: l)

/-! ## Reachable allocator states -/

/-- Address `blk` is a block of the list: some complete traversal meets it. -/
def InList (s : Heap) (blk : Nat) : Prop :=
  ∃ fuel l, block_list s.mem fuel s.free_list = some l ∧ blk ∈ l

/-- Pointer `p` is the payload pointer of a block of the list that is
currently allocated. -/
def AllocatedPtr (s : Heap) (p : Nat) : Prop :=
  ∃ blk, InList s blk ∧ (s.mem blk).free = 0 ∧ p = add32 blk HDR

/-- The states reachable from `mem_init(start, size)` by `malloc` calls with a
32-bit request and `free` calls on pointers to currently allocated blocks. -/
inductive Reachable (start size : Nat) : Heap → Prop
  | init (s0 : Heap) : Reachable start size (mem_init s0 start size)
  | malloc (s s1 : Heap) (fuel n p : Nat) :
      Reachable start size s → n < U32 → malloc fuel s n = some (p, s1) →
      Reachable start size s1
  | free (s : Heap) (p : Nat) :
      Reachable start size s → AllocatedPtr s p → Reachable start size (free s p)

/-- A heap region that exists in the 32-bit address space and does not start
at the null address. -/
def ValidRegion (start size : Nat) : Prop :=
  0 < start ∧ start < U32 ∧ start + size ≤ U32

/-- A concrete pre-initialisation state: all globals and all memory zero. -/
def zeroHeap : Heap :=
  { heap_start := 0, heap_size := 0, heap_used := 0, free_list := 0,
    mem := fun _ => ⟨0, 0, 0, 0⟩, data := fun _ => 0 }

/-- The state after a `malloc` call (the input state when the fuel runs out). -/
def malloc_state (fuel : Nat) (s : Heap) (n : Nat) : Heap :=
  match malloc fuel s n with
  | some (_, s1) => s1
  | none => s

/-- The pointer a `malloc` call returns (`0` when the fuel runs out). -/
def malloc_ptr (fuel : Nat) (s : Heap) (n : Nat) : Nat :=
  match malloc fuel s n with
  | some (p, _) => p
  | none => 0

/-! ## scheduler.c -/

/-- The macro `MAX_TASKS`. -/
def MAX_TASKS : Nat := 16

/-- The enum `task_state_t`. -/
inductive task_state_t where
  | TASK_FREE
  | TASK_RUNNING
  | TASK_READY
  | TASK_BLOCKED
  | TASK_ZOMBIE
deriving DecidableEq, Repr

open task_state_t

/-- The scheduling fields of the struct `pcb`.  The stack buffer and the saved
stack pointer `esp` are left out: only `context_switch` and the frame set-up of
`create_task` touch them, and no scheduling decision reads them. -/
structure pcb_t where
  pid : Int
  state : task_state_t
  priority : Int
  wake_tick : Nat

/-- The globals of `scheduler.c`: the table `pcbs` (indexed by slot), the index
`current`, the counter `next_pid` and the 32-bit `ticks`.  `current` is an
array index, which the code keeps non-negative, so it is a natural number
here; `next_pid` is a C `int` whose overflow is not modelled. -/
structure Sched where
  pcbs : Nat → pcb_t
  current : Nat
  next_pid : Int
  ticks : Nat

/-- The assignment `pcbs[i] = p`. -/
def set_pcb (s : Sched) (i : Nat) (p : pcb_t) : Sched :=
  { s with pcbs := fun j => if j = i then p else s.pcbs j }

/-- The function `sched_init`; `next_pid` and `ticks` keep the values of their
static initialisers when it is called first. -/
def sched_init (s : Sched) : Sched :=
  let cleared : Nat → pcb_t := fun i =>
    if i < MAX_TASKS then ⟨0, TASK_FREE, 0, 0⟩ else s.pcbs i
  let s1 : Sched := { s with pcbs := cleared }
  let s2 := set_pcb s1 0 { s1.pcbs 0 with pid := 0 }
  let s3 := set_pcb s2 0 { s2.pcbs 0 with state := TASK_RUNNING }
  let s4 := set_pcb s3 0 { s3.pcbs 0 with priority := 0 }
  { s4 with current := 0 }

/-- The scheduler globals before `sched_init`: zeroed table, `next_pid = 1`. -/
def sched_boot : Sched :=
  { pcbs := fun _ => ⟨0, TASK_FREE, 0, 0⟩, current := 0, next_pid := 1, ticks := 0 }

/-- The search loop of `create_task`: the first index from `i` on, below
`MAX_TASKS`, whose slot is free; `MAX_TASKS` when there is none. -/
def find_free (s : Sched) : Nat → Nat → Nat
  | 0, i => i
  | fuel + 1, i =>
    if i < MAX_TASKS then
      if (s.pcbs i).state = TASK_FREE then i else find_free s fuel (i + 1)
    else i

/-- The function `create_task`, without the stack frame it prepares: the
returned id (`-1` when the table is full) and the new state. -/
def create_task (s : Sched) (priority : Int) : Int × Sched :=
  let i := find_free s MAX_TASKS 1
  if i = MAX_TASKS then (-1, s)
  else
    let s1 := set_pcb { s with next_pid := s.next_pid + 1 } i { s.pcbs i with pid := s.next_pid }
    let s2 := set_pcb s1 i { s1.pcbs i with state := TASK_READY }
    let s3 := set_pcb s2 i { s2.pcbs i with priority := priority }
    let s4 := set_pcb s3 i { s3.pcbs i with wake_tick := 0 }
    ((s4.pcbs i).pid, s4)

/-- The test in the loop of `pick_next`: the slot is `TASK_READY` and its
`wake_tick` has been reached. -/
def eligible (s : Sched) (idx : Nat) : Prop :=
  (s.pcbs idx).state = TASK_READY ∧ (s.pcbs idx).wake_tick ≤ s.ticks

instance eligible_decidable (s : Sched) (idx : Nat) : Decidable (eligible s idx) := by
  unfold eligible; infer_instance

/-- The slot visited by iteration `i` of `pick_next`: `(current + 1 + i) % MAX_TASKS`
(for a non-negative `current` the C remainder is the remainder of naturals). -/
def rot (s : Sched) (i : Nat) : Nat := (s.current + 1 + i) % MAX_TASKS

/-- The loop of `pick_next` after `n` iterations: the pair `(best, best_prio)`. -/
def pick_next_loop (s : Sched) : Nat → Int × Int
  | 0 => (-1, -1000000)
  | i + 1 =>
    let st := pick_next_loop s i
    let idx := rot s i
    if eligible s idx then
      if (s.pcbs idx).priority > st.2 then (((idx : Nat) : Int), (s.pcbs idx).priority)
      else st
    else st

/-- The function `pick_next`. -/
def pick_next (s : Sched) : Int := (pick_next_loop s MAX_TASKS).1

/-- The function `yield`; `context_switch` does not touch the table. -/
def yield (s : Sched) : Sched :=
  let s1 := { s with ticks := add32 s.ticks 1 }
  let nxt := pick_next s1
  if nxt < 0 then s1
  else
    let prev := s1.current
    let s2 := { s1 with current := nxt.toNat }
    let s3 := set_pcb s2 s2.current { s2.pcbs s2.current with state := TASK_RUNNING }
    set_pcb s3 prev { s3.pcbs prev with
      state := if (s3.pcbs prev).state = TASK_RUNNING then TASK_READY else (s3.pcbs prev).state }

/-- The function `exit_task`; `context_switch` does not touch the table. -/
def exit_task (s : Sched) : Sched :=
  let s1 := set_pcb s s.current { s.pcbs s.current with state := TASK_ZOMBIE }
  let nxt := pick_next s1
  let nxt := if nxt < 0 then 0 else nxt
  let s2 := { s1 with current := nxt.toNat }
  set_pcb s2 s2.current { s2.pcbs s2.current with state := TASK_RUNNING }

/-- The function `sleep_ticks`; `context_switch` does not touch the table. -/
def sleep_ticks (s : Sched) (t : Nat) : Sched :=
  let s1 := set_pcb s s.current { s.pcbs s.current with wake_tick := add32 s.ticks t }
  let s2 := set_pcb s1 s1.current { s1.pcbs s1.current with state := TASK_BLOCKED }
  let nxt := pick_next s2
  let nxt := if nxt < 0 then 0 else nxt
  let s3 := { s2 with current := nxt.toNat }
  set_pcb s3 s3.current { s3.pcbs s3.current with state := TASK_RUNNING }

/-- The function `sched_get_ticks`. -/
def sched_get_ticks (s : Sched) : Nat := s.ticks

/-! ## Specification-level definitions

The allocator invariant and the names the theorems use.  None of them is part
of the program. -/

/-- The list `l` of addresses is a run of blocks of the memory `m`: the run
starts right after the block at `prev` (`0` for the head of the list), the
blocks are linked both ways, each one ends where the next one starts and the
last one ends at `stop`; every block that is allocated or has a successor is
at least 16 bytes long, and a free block is never followed by a free block. -/
def Seg (m : Mem) (stop : Nat) : Nat → List Nat → Prop
  | _, [] => True
  | prev, a :: rest =>
      prev < a ∧ a < U32 ∧ (m a).prev = prev ∧ (m a).next = rest.headD 0 ∧
      a + (m a).size = rest.headD stop ∧
      (rest ≠ [] → 16 ≤ (m a).size) ∧
      ((m a).free = 0 → 16 ≤ (m a).size) ∧
      ((m a).free ≠ 0 → ∀ b ∈ rest.head?, (m b).free = 0) ∧
      Seg m stop a rest

/-- What `malloc` does to the header memory once it has chosen `blk`. -/
def take_block (m : Mem) (blk req : Nat) : Mem :=
  set_free (if (m blk).size > add32 req MIN_ALLOC then split_block m blk req else m) blk 0

/-- The test of the first-fit walk: the block is free and large enough. -/
def fits (m : Mem) (req a : Nat) : Bool :=
  decide ((m a).free ≠ 0 ∧ (m a).size ≥ req)

/-- The state `malloc` returns when it has chosen block `b`. -/
def alloc_state (s : Heap) (b req : Nat) : Heap :=
  { s with mem := take_block s.mem b req, heap_used := add32 s.heap_used req }

/-- The allocator invariant: the globals are those of `mem_init(start, size)`
and the list hanging off `free_list` tiles the region with well-formed blocks. -/
def Inv (start size : Nat) (s : Heap) : Prop :=
  s.heap_start = start ∧ s.heap_size = size ∧ s.free_list = start ∧
    ∃ l, l.head? = some start ∧ Seg s.mem (start + size) 0 l

/-- No block of the list that is free is followed by a free block. -/
def NoAdjacentFree (s : Heap) : Prop :=
  ∀ a, InList s a → (s.mem a).free ≠ 0 → (s.mem a).next ≠ 0 →
    (s.mem (s.mem a).next).free = 0

/-- The sum of the `size` fields of the blocks at the addresses `l`. -/
def sizes_sum (m : Mem) (l : List Nat) : Nat :=
  (l.map (fun a => (m a).size)).sum

/-- The heap of 1024 bytes at address 4096, right after `mem_init`. -/
def heap0 : Heap := mem_init zeroHeap 4096 1024

/-- The state `heap0` after `malloc(100)`. -/
def heap1 : Heap := malloc_state 2 heap0 100

/-- The state `heap1` after two more `malloc(100)`: three allocated blocks at
4096, 4216 and 4336, and the free remainder at 4456. -/
def heap3 : Heap := malloc_state 4 (malloc_state 4 heap1 100) 100

/-- The state `heap3` after `free` of the first and of the third block: the
block at 4216 is allocated and both its neighbours are free. -/
def heap3b : Heap := free (free heap3 4112) 4352

/-- The loop invariant of `pick_next` after `n` iterations. -/
def PickInv (s : Sched) (n : Nat) (st : Int × Int) : Prop :=
  (st.1 = -1 ∧ st.2 = -1000000 ∧
      ∀ j, j < n → eligible s (rot s j) → (s.pcbs (rot s j)).priority ≤ -1000000) ∨
  (∃ i, i < n ∧ st.1 = ((rot s i : Nat) : Int) ∧ eligible s (rot s i) ∧
      st.2 = (s.pcbs (rot s i)).priority ∧ -1000000 < st.2 ∧
      (∀ j, j < n → eligible s (rot s j) → (s.pcbs (rot s j)).priority ≤ st.2) ∧
      (∀ j, j < i → eligible s (rot s j) → (s.pcbs (rot s j)).priority < st.2))

/-! ## Runs of the scheduler -/

/-- One call of the scheduler interface after `sched_init`. -/
inductive sched_op where
  | create (priority : Int)
  | yield
  | sleep (t : Nat)
  | exit
deriving DecidableEq, Repr

/-- The state after one call (for `create_task` the returned id is dropped). -/
def sched_apply (s : Sched) : sched_op → Sched
  | sched_op.create priority => (create_task s priority).2
  | sched_op.yield => yield s
  | sched_op.sleep t => sleep_ticks s t
  | sched_op.exit => exit_task s

/-- The state after a sequence of calls, first call first. -/
def sched_run (s : Sched) : List sched_op → Sched
  | [] => s
  | op :: ops => sched_run (sched_apply s op) ops

/-- The scheduler states reachable from `sched_init`, called on the freshly
loaded globals, by any sequence of `create_task`, `yield`, `sleep_ticks` and
`exit_task`. -/
def SchedReachable (s : Sched) : Prop :=
  ∃ ops, sched_run (sched_init sched_boot) ops = s

/-- The number of `yield` calls in a sequence of calls. -/
def yield_count : List sched_op → Nat
  | [] => 0
  | sched_op.yield :: ops => yield_count ops + 1
  | _ :: ops => yield_count ops

/-! ## process.c -/

/-- The macro `MAX_PROCESSES`. -/
def MAX_PROCESSES : Nat := 32

/-- The macro `MAX_CHILDREN`. -/
def MAX_CHILDREN : Nat := 8

/-- The macro `MAX_SIGNALS`. -/
def MAX_SIGNALS : Nat := 16

/-- The macro `PROC_STACK_SIZE`. -/
def PROC_STACK_SIZE : Nat := 2048

/-- The enum `proc_state_t`. -/
inductive proc_state_t where
  | PROC_FREE
  | PROC_CREATED
  | PROC_RUNNING
  | PROC_BLOCKED
  | PROC_ZOMBIE
deriving DecidableEq, Repr

open proc_state_t

/-- The struct `process_t`.  The arrays `children` and `signal_handlers` are
maps from the index; a handler is the address of the function, `0` for `NULL`;
`child_count` is a C `int` that the code keeps between 0 and `MAX_CHILDREN`. -/
structure process_t where
  pid : Int
  ppid : Int
  state : proc_state_t
  exit_code : Int
  children : Nat → Int
  child_count : Nat
  signal_handlers : Nat → Nat
  esp : Nat
  stack : Nat
  cpu_ticks : Nat

/-- The globals of `process.c`, the heap that `proc_create` and `proc_exit` use,
and the log of the handler calls made by `proc_signal_send` (handler address
and argument), oldest first.  `current_pid` is used by the code only as an
index into `procs`, so it is a natural number here; the overflow of the C
`int next_pid` is not modelled. -/
structure Procs where
  procs : Nat → process_t
  next_pid : Int
  current_pid : Nat
  heap : Heap
  calls : List (Nat × Int)

/-- The assignment `procs[i] = p`. -/
def set_proc (s : Procs) (i : Nat) (p : process_t) : Procs :=
  { s with procs := fun j => if j = i then p else s.procs j }

/-- The globals of `process.c` as loaded: a zeroed table, `next_pid = 1`,
`current_pid = 0`; the heap is whatever the allocator holds at that time. -/
def proc_boot (h : Heap) : Procs :=
  { procs := fun _ =>
      { pid := 0, ppid := 0, state := PROC_FREE, exit_code := 0, children := fun _ => 0,
        child_count := 0, signal_handlers := fun _ => 0, esp := 0, stack := 0, cpu_ticks := 0 },
    next_pid := 1, current_pid := 0, heap := h, calls := [] }

/-- The function `proc_init`. -/
def proc_init (s : Procs) : Procs :=
  let cleared : Nat → process_t := fun i =>
    if i < MAX_PROCESSES then
      { pid := -1, ppid := -1, state := PROC_FREE, exit_code := 0,
        children := fun j => if j < MAX_CHILDREN then -1 else (s.procs i).children j,
        child_count := 0,
        signal_handlers := fun j => if j < MAX_SIGNALS then 0 else (s.procs i).signal_handlers j,
        esp := 0, stack := 0, cpu_ticks := (0 : Nat) }
    else s.procs i
  let s1 : Procs := { s with procs := cleared }
  let s2 := set_proc s1 0 { s1.procs 0 with pid := 0 }
  let s3 := set_proc s2 0 { s2.procs 0 with ppid := -1 }
  let s4 := set_proc s3 0 { s3.procs 0 with state := PROC_RUNNING }
  { s4 with current_pid := 0 }

/-- The search loop of `proc_create`: the first index from `i` on, below
`MAX_PROCESSES`, whose slot is free; `MAX_PROCESSES` when there is none. -/
def proc_find_free (s : Procs) : Nat → Nat → Nat
  | 0, i => i
  | fuel + 1, i =>
    if i < MAX_PROCESSES then
      if (s.procs i).state = PROC_FREE then i else proc_find_free s fuel (i + 1)
    else i

/-- The search loop of `proc_wait`, `proc_signal_send` and `proc_get`: the
first index from `i` on, below `MAX_PROCESSES`, whose slot holds `pid`;
`MAX_PROCESSES` when there is none. -/
def proc_find_pid (s : Procs) (pid : Int) : Nat → Nat → Nat
  | 0, i => i
  | fuel + 1, i =>
    if i < MAX_PROCESSES then
      if (s.procs i).pid = pid then i else proc_find_pid s pid fuel (i + 1)
    else i

/-- The function `proc_create`: the returned value and the new state; `none`
when the `malloc` call runs out of fuel. -/
def proc_create (fuel : Nat) (s : Procs) (ppid : Int) : Option (Int × Procs) :=
  let i := proc_find_free s MAX_PROCESSES 1
  if i = MAX_PROCESSES then some (-1, s)
  else
    let pid := s.next_pid
    let s1 : Procs := { s with next_pid := s.next_pid + 1 }
    let s2 := set_proc s1 i { s1.procs i with pid := pid }
    let s3 := set_proc s2 i { s2.procs i with ppid := ppid }
    let s4 := set_proc s3 i { s3.procs i with state := PROC_CREATED }
    let s5 := set_proc s4 i { s4.procs i with exit_code := 0 }
    let s6 := set_proc s5 i { s5.procs i with child_count := 0 }
    let s7 := set_proc s6 i { s6.procs i with cpu_ticks := 0 }
    match malloc fuel s7.heap PROC_STACK_SIZE with
    | none => none
    | some (stk, h1) =>
      let s8 := set_proc { s7 with heap := h1 } i { s7.procs i with stack := stk }
      if stk = 0 then some (-1, s8)
      else
        let s9 := set_proc s8 i { s8.procs i with esp := add32 stk PROC_STACK_SIZE }
        let s10 :=
          if ppid ≥ 0 ∧ ppid < MAX_PROCESSES ∧ (s9.procs ppid.toNat).pid = ppid then
            let parent := ppid.toNat
            if (s9.procs parent).child_count < MAX_CHILDREN then
              let n := (s9.procs parent).child_count
              let sa := set_proc s9 parent { s9.procs parent with child_count := n + 1 }
              set_proc sa parent { sa.procs parent with
                children := fun j => if j = n then pid else (sa.procs parent).children j }
            else s9
          else s9
        some (pid, s10)

/-- The function `proc_wait`: the returned value, the value stored through
`exit_code` (when something is stored and the pointer is not `NULL`), and the
new state. -/
def proc_wait (s : Procs) (pid : Int) : Int × Option Int × Procs :=
  let i := proc_find_pid s pid MAX_PROCESSES 0
  if i = MAX_PROCESSES then (-1, none, s)
  else if (s.procs i).state = PROC_ZOMBIE then
    let code := (s.procs i).exit_code
    let s1 := set_proc s i { s.procs i with state := PROC_FREE }
    let s2 := set_proc s1 i { s1.procs i with pid := -1 }
    (0, some code, s2)
  else (-1, none, s)

/-- The function `proc_signal_register`. -/
def proc_signal_register (s : Procs) (sig : Int) (handler : Nat) : Procs :=
  if sig < 0 ∨ sig ≥ MAX_SIGNALS then s
  else
    let c := s.current_pid
    set_proc s c { s.procs c with
      signal_handlers := fun j => if j = sig.toNat then handler
                                  else (s.procs c).signal_handlers j }

/-- The function `proc_signal_send`: the returned value and the new state, whose
log has one more entry when the handler was called. -/
def proc_signal_send (s : Procs) (pid sig : Int) : Int × Procs :=
  let i := proc_find_pid s pid MAX_PROCESSES 0
  if i = MAX_PROCESSES then (-1, s)
  else if sig < 0 ∨ sig ≥ MAX_SIGNALS then (-1, s)
  else if (s.procs i).signal_handlers sig.toNat ≠ 0 then
    (0, { s with calls := s.calls ++ [((s.procs i).signal_handlers sig.toNat, sig)] })
  else (-1, s)

/-- The function `proc_exit`. -/
def proc_exit (s : Procs) (code : Int) : Procs :=
  let c := s.current_pid
  let s1 := set_proc s c { s.procs c with exit_code := code }
  let s2 := set_proc s1 c { s1.procs c with state := PROC_ZOMBIE }
  if (s2.procs c).stack ≠ 0 then
    let s3 : Procs := { s2 with heap := free s2.heap (s2.procs c).stack }
    set_proc s3 c { s3.procs c with stack := 0 }
  else s2

/-- The function `proc_getpid`. -/
def proc_getpid (s : Procs) : Int := (s.procs s.current_pid).pid

/-- The function `proc_getppid`. -/
def proc_getppid (s : Procs) : Int := (s.procs s.current_pid).ppid

/-! ## Runs of the process manager -/

/-- One step of a run of the process manager: a call of its interface, or the
environment step `switch`, which sets `current_pid` to another slot.  No
function of `process.c` does that (`current_pid` is assigned only by its
initialiser and by `proc_init`, both times 0), so the runs of the code itself
are the runs without `switch`. -/
inductive proc_op where
  | create (fuel : Nat) (ppid : Int)
  | exit (code : Int)
  | wait (pid : Int)
  | register (sig : Int) (handler : Nat)
  | send (pid : Int) (sig : Int)
  | switch (k : Nat)

/-- The state after one step; `none` when `malloc` runs out of fuel, or when
`current_pid` is switched to something that is not a slot in use. -/
def proc_apply (s : Procs) : proc_op → Option Procs
  | proc_op.create fuel ppid => (proc_create fuel s ppid).map (fun r => r.2)
  | proc_op.exit code => some (proc_exit s code)
  | proc_op.wait pid => some (proc_wait s pid).2.2
  | proc_op.register sig handler => some (proc_signal_register s sig handler)
  | proc_op.send pid sig => some (proc_signal_send s pid sig).2
  | proc_op.switch k =>
    if k < MAX_PROCESSES ∧ (s.procs k).state ≠ PROC_FREE then some { s with current_pid := k }
    else none

/-- The state after a sequence of steps, first step first. -/
def proc_run (s : Procs) : List proc_op → Option Procs
  | [] => some s
  | op :: ops =>
    match proc_apply s op with
    | none => none
    | some s1 => proc_run s1 ops

/-- The process-table states reachable from `proc_init`, called on the freshly
loaded globals with any heap, by the calls of the interface and by switching
`current_pid` to a slot in use.  This is more than the code reaches on its own;
it is used only for a statement that lets `current_pid` designate any
process. -/
def ProcReachable (s : Procs) : Prop :=
  ∃ h ops, proc_run (proc_init (proc_boot h)) ops = some s

/-- The heap of `kmain`: `mem_init(0x00100000, 65536)`. -/
def kheap : Heap := mem_init zeroHeap 1048576 65536

/-- The invariant of the scheduler table: `current` is a slot and the only one
that is `TASK_RUNNING`; the slots `1 .. MAX_TASKS-1` have been handed out in
index order, slot `i` being in use exactly when `i < next_pid`; slot 0 is in
use; `ticks` is a 32-bit value. -/
def SchedInv (s : Sched) : Prop :=
  s.current < MAX_TASKS ∧
  (s.pcbs s.current).state = TASK_RUNNING ∧
  (∀ i, (s.pcbs i).state = TASK_RUNNING → i = s.current) ∧
  (1 ≤ s.next_pid ∧ s.next_pid ≤ 16) ∧
  (∀ i : Nat, 1 ≤ i → i < MAX_TASKS → ((s.pcbs i).state = TASK_FREE ↔ s.next_pid ≤ (i : Int))) ∧
  (s.pcbs 0).state ≠ TASK_FREE ∧
  s.ticks < U32

/-- The slot that `exit_task` and `sleep_ticks` switch to: the result of
`pick_next`, or slot 0 when it is negative. -/
def next_slot (s : Sched) : Nat := (if pick_next s < 0 then (0 : Int) else pick_next s).toNat

/-- The table after the first statement of `exit_task`. -/
def exit_mark (s : Sched) : Sched :=
  set_pcb s s.current { s.pcbs s.current with state := TASK_ZOMBIE }

/-- The table after the first two statements of `sleep_ticks`. -/
def sleep_mark (s : Sched) (t : Nat) : Sched :=
  set_pcb (set_pcb s s.current { s.pcbs s.current with wake_tick := add32 s.ticks t }) s.current
    { (set_pcb s s.current { s.pcbs s.current with wake_tick := add32 s.ticks t }).pcbs s.current
      with state := TASK_BLOCKED }

/-- A slot other than slot 0 that is `TASK_BLOCKED` and not the current one. -/
def Parked (s : Sched) (k : Nat) : Prop :=
  k ≠ 0 ∧ (s.pcbs k).state = TASK_BLOCKED ∧ s.current ≠ k

/-- The table after `proc_create` has filled in slot `i` with the new pid, the
parent argument, `PROC_CREATED` and the zeroed counters, before the stack is
allocated. -/
def create_fill (s : Procs) (i : Nat) (ppid : Int) : Procs :=
  let s1 : Procs := { s with next_pid := s.next_pid + 1 }
  let s2 := set_proc s1 i { s1.procs i with pid := s.next_pid }
  let s3 := set_proc s2 i { s2.procs i with ppid := ppid }
  let s4 := set_proc s3 i { s3.procs i with state := PROC_CREATED }
  let s5 := set_proc s4 i { s4.procs i with exit_code := 0 }
  let s6 := set_proc s5 i { s5.procs i with child_count := 0 }
  set_proc s6 i { s6.procs i with cpu_ticks := 0 }

/-- The table after the stack of slot `i` has been stored (`stk`, with the heap
`h` left by `malloc`). -/
def create_stack (s : Procs) (i : Nat) (stk : Nat) (h : Heap) : Procs :=
  set_proc { s with heap := h } i { s.procs i with stack := stk }

/-- The table after `esp` of slot `i` has been set. -/
def create_esp (s : Procs) (i : Nat) (stk : Nat) : Procs :=
  set_proc s i { s.procs i with esp := add32 stk PROC_STACK_SIZE }

/-- The last part of `proc_create`: the registration of `pid` in the slot
`procs[ppid]`. -/
def create_register (s : Procs) (ppid pid : Int) : Procs :=
  if ppid ≥ 0 ∧ ppid < MAX_PROCESSES ∧ (s.procs ppid.toNat).pid = ppid then
    let parent := ppid.toNat
    if (s.procs parent).child_count < MAX_CHILDREN then
      let n := (s.procs parent).child_count
      let sa := set_proc s parent { s.procs parent with child_count := n + 1 }
      set_proc sa parent { sa.procs parent with
        children := fun j => if j = n then pid else (sa.procs parent).children j }
    else s
  else s

/-- A slot of the table holds a live process: it is not `PROC_FREE` and its
pid is not the free marker -1. -/
def Live (s : Procs) (i : Nat) : Prop :=
  i < MAX_PROCESSES ∧ (s.procs i).state ≠ PROC_FREE ∧ (s.procs i).pid ≠ -1

/-- The invariant of the process table: `current_pid` is a slot, `next_pid` is
positive and above every pid in the table, and no two slots hold the same pid
other than the free marker -1. -/
def ProcInv (s : Procs) : Prop :=
  s.current_pid < MAX_PROCESSES ∧ 1 ≤ s.next_pid ∧
  (∀ i, i < MAX_PROCESSES → (s.procs i).pid < s.next_pid) ∧
  (∀ i j, i < MAX_PROCESSES → j < MAX_PROCESSES →
    (s.procs i).pid = (s.procs j).pid → (s.procs i).pid ≠ -1 → i = j)

/-- The parent relation on live processes: `parent_of s a b` when some live
slot holds pid `a` with parent pid `b`. -/
def parent_of (s : Procs) (a b : Int) : Prop :=
  ∃ i, Live s i ∧ (s.procs i).pid = a ∧ (s.procs i).ppid = b

/-- The parent argument of a `proc_create` call is below the pid the call
assigns: it is a pid assigned earlier, 0 or negative.  Other calls carry no
condition. -/
def parent_known (s : Procs) : proc_op → Prop
  | proc_op.create _ ppid => ppid < s.next_pid
  | _ => True

/-- Every `proc_create` of the run is given a parent argument below the pid it
assigns. -/
def proc_run_known (s : Procs) : List proc_op → Prop
  | [] => True
  | op :: ops =>
    parent_known s op ∧
    match proc_apply s op with
    | none => True
    | some s1 => proc_run_known s1 ops

/-- The ordering behind the forest shape: in every slot that holds a pid, the
parent pid is smaller than the pid, and the pid is smaller than every recorded
child. -/
def ProcForest (s : Procs) : Prop :=
  (∀ i, i < MAX_PROCESSES → (s.procs i).pid ≠ -1 → (s.procs i).ppid < (s.procs i).pid) ∧
  (∀ i, i < MAX_PROCESSES → (s.procs i).pid ≠ -1 →
    ∀ k, k < (s.procs i).child_count → (s.procs i).pid < (s.procs i).children k)

/-! ## The first-fit reference -/

/-- A block as the specification sees it: its address, its size (header
included) and whether it is free. -/
structure Block where
  addr : Nat
  size : Nat
  free : Bool
deriving DecidableEq, Repr

/-- The blocks at the addresses `l` of the header memory `m`, in that order. -/
def blocks (m : Mem) (l : List Nat) : List Block :=
  l.map (fun a => ⟨a, (m a).size, decide ((m a).free ≠ 0)⟩)

/-- The required total of the specification, over the natural numbers: header
plus request, rounded up to a multiple of 8 and clamped to at least 16. -/
def ref_req (n : Nat) : Nat := max 16 ((16 + n + 7) / 8 * 8)

/-- The first-fit walk with the split policy of the specification: the first
free block of size at least `r` is chosen; when its size exceeds `r + 16` it is
shrunk to `r` and a free block with the rest is put right after it, else it is
taken whole; the chosen block becomes allocated.  The result is the payload
pointer and the new list, `none` when no block fits. -/
def first_fit_split (r : Nat) : List Block → Option (Nat × List Block)
  | [] => none
  | b :: rest =>
    if b.free = true ∧ b.size ≥ r then
      if b.size > r + 16 then
        some (b.addr + 16, ⟨b.addr, r, false⟩ :: ⟨b.addr + r, b.size - r, true⟩ :: rest)
      else some (b.addr + 16, ⟨b.addr, b.size, false⟩ :: rest)
    else (first_fit_split r rest).map (fun q => (q.1, b :: q.2))

/-- The reference for `malloc(n)` with `n > 0`: the pointer (0 for null) and
the list of blocks afterwards. -/
def malloc_ref (n : Nat) (bl : List Block) : Nat × List Block :=
  match first_fit_split (ref_req n) bl with
  | none => (0, bl)
  | some q => q

/-- The blocks that replace the chosen block `b`. -/
def taken (m : Mem) (b r : Nat) : List Block :=
  if (m b).size > r + 16 then [⟨b, r, false⟩, ⟨b + r, (m b).size - r, true⟩]
  else [⟨b, (m b).size, false⟩]

/-! ## Runs of the functions of process.c -/

/-- A scheduler state with a low-priority task in slot 1 and a high-priority
task in slot 2, both ready. -/
def sched2 : Sched := (create_task (create_task (sched_init sched_boot) 1).2 5).2

/-- A scheduler state whose only task was created with priority `-1000000`. -/
def sched_low : Sched := (create_task (sched_init sched_boot) (-1000000)).2

/-- The scheduler after `sched_init(); create_task(fn, 1); yield();`: the new
task runs in slot 1. -/
def sched_one : Sched :=
  sched_run (sched_init sched_boot) [sched_op.create 1, sched_op.yield]

/-- The scheduler after `sched_init(); create_task(fn, 1); yield();` and
`sleep_ticks(1)` called by the new task: slot 0 runs, slot 1 sleeps until
tick 2, and `ticks` is 1. -/
def sched_sleeper : Sched :=
  sched_run (sched_init sched_boot) [sched_op.create 1, sched_op.yield, sched_op.sleep 1]

/-- The process table after `proc_init()`, on the heap of `kmain`. -/
def procs0 : Procs := proc_init (proc_boot kheap)

/-- The process table after `proc_init()`, on a heap of 1024 bytes, which
cannot hold a stack of `PROC_STACK_SIZE` bytes. -/
def procs_small : Procs := proc_init (proc_boot heap0)

/-- The process table after `proc_init(); proc_create(1)`. -/
def procs_self_parent : Procs := (proc_run procs0 [proc_op.create 4 1]).getD procs0

/-- The process table after `proc_init(); proc_signal_register(3, h);
proc_exit(0); proc_wait(0, &code)`, where the handler `h` is the address 7777. -/
def procs_stale : Procs :=
  (proc_run procs0 [proc_op.register 3 7777, proc_op.exit 0, proc_op.wait 0]).getD procs0

/-- The process table after `proc_init(); proc_create(0); proc_create(1);
proc_exit(7); proc_wait(0, &code)`. -/
def procs_family : Procs :=
  (proc_run procs0 [proc_op.create 4 0, proc_op.create 4 1, proc_op.exit 7,
    proc_op.wait 0]).getD procs0

/-- The process table after `proc_init(); proc_create(0)`, with the new
process (pid 1, slot 1) as the current one. -/
def procs_child : Procs :=
  (proc_run procs0 [proc_op.create 4 0, proc_op.switch 1]).getD procs0

theorem add32_eq {a b : Nat} (h : a + b < U32) : add32 a b = a + b := by
  unfold add32; exact Nat.mod_eq_of_lt h

theorem sub32_eq {a b : Nat} (ha : a < U32) (h : b ≤ a) : sub32 a b = a - b := by
  unfold sub32
  have hb : b < U32 := lt_of_le_of_lt h ha
  rw [Nat.mod_eq_of_lt ha, Nat.mod_eq_of_lt hb]
  have : a + (U32 - b) = (a - b) + U32 := by omega
  rw [this, Nat.add_mod_right]
  exact Nat.mod_eq_of_lt (by omega)

theorem sub32_add32 {a b : Nat} (ha : a < U32) (hb : b < U32) : sub32 (add32 a b) b = a := by
  unfold sub32 add32
  rw [Nat.mod_mod, Nat.mod_eq_of_lt hb]
  have h1 : (a + b) % U32 + (U32 - b) = (a + b) % U32 + U32 - b := by omega
  by_cases h : a + b < U32
  · rw [Nat.mod_eq_of_lt h]
    have : a + b + (U32 - b) = a + U32 := by omega
    rw [this, Nat.add_mod_right]; exact Nat.mod_eq_of_lt ha
  · have h2 : (a + b) % U32 = a + b - U32 := by
      rw [Nat.mod_eq_sub_mod (by omega)]; exact Nat.mod_eq_of_lt (by omega)
    rw [h2]
    have : a + b - U32 + (U32 - b) = a := by omega
    rw [this]; exact Nat.mod_eq_of_lt ha

@[simp] theorem set_size_same (m : Mem) (a v : Nat) : set_size m a v a = { m a with size := v } := by
  simp [set_size]

@[simp] theorem set_free_same (m : Mem) (a : Nat) (v : Int) : set_free m a v a = { m a with free := v } := by
  simp [set_free]

@[simp] theorem set_prev_same (m : Mem) (a v : Nat) : set_prev m a v a = { m a with prev := v } := by
  simp [set_prev]

@[simp] theorem set_next_same (m : Mem) (a v : Nat) : set_next m a v a = { m a with next := v } := by
  simp [set_next]

theorem set_size_other (m : Mem) {a x : Nat} (v : Nat) (h : x ≠ a) : set_size m a v x = m x := by
  simp [set_size, h]

theorem set_free_other (m : Mem) {a x : Nat} (v : Int) (h : x ≠ a) : set_free m a v x = m x := by
  simp [set_free, h]

theorem set_prev_other (m : Mem) {a x : Nat} (v : Nat) (h : x ≠ a) : set_prev m a v x = m x := by
  simp [set_prev, h]

theorem set_next_other (m : Mem) {a x : Nat} (v : Nat) (h : x ≠ a) : set_next m a v x = m x := by
  simp [set_next, h]

theorem Seg_frame {m m1 : Mem} {stop : Nat} : ∀ (l : List Nat) (prev : Nat),
    (∀ a ∈ l, m1 a = m a) → Seg m stop prev l → Seg m1 stop prev l := by
  intro l
  induction l with
  | nil => intro _ _ _; trivial
  | cons a rest ih =>
    intro prev hm h
    obtain ⟨h1, h2, h3, h4, h5, h6, h7, h8, h9⟩ := h
    have ha : m1 a = m a := hm a (List.mem_cons_self _ _)
    refine ⟨h1, h2, ?_, ?_, ?_, ?_, ?_, ?_, ?_⟩
    · rw [ha]; exact h3
    · rw [ha]; exact h4
    · rw [ha]; exact h5
    · rw [ha]; exact h6
    · rw [ha]; exact h7
    · rw [ha]; intro hf b hb
      have hbm : b ∈ rest := List.mem_of_mem_head? hb
      rw [hm b (List.mem_cons_of_mem _ hbm)]
      exact h8 hf b hb
    · exact ih a (fun x hx => hm x (List.mem_cons_of_mem _ hx)) h9

theorem Seg_lt {m : Mem} {stop : Nat} : ∀ (l : List Nat) (prev : Nat),
    Seg m stop prev l → ∀ x ∈ l, prev < x := by
  intro l
  induction l with
  | nil => intro _ _ x hx; simp at hx
  | cons a rest ih =>
    intro prev h x hx
    rcases List.mem_cons.mp hx with rfl | hx
    · exact h.1
    · exact lt_trans h.1 (ih a h.2.2.2.2.2.2.2.2 x hx)

theorem Seg_end_le {m : Mem} {stop : Nat} : ∀ (l : List Nat) (prev : Nat),
    Seg m stop prev l → ∀ x ∈ l, x + (m x).size ≤ stop := by
  intro l
  induction l with
  | nil => intro _ _ x hx; simp at hx
  | cons a rest ih =>
    intro prev h x hx
    obtain ⟨h1, h2, h3, h4, h5, h6, h7, h8, h9⟩ := h
    rcases List.mem_cons.mp hx with rfl | hx
    · cases rest with
      | nil => simp at h5; omega
      | cons b r =>
        simp at h5
        have := ih x h9 b (List.mem_cons_self _ _)
        omega
    · exact ih a h9 x hx

theorem Seg_lt_U32 {m : Mem} {stop : Nat} : ∀ (l : List Nat) (prev : Nat),
    Seg m stop prev l → ∀ x ∈ l, x < U32 := by
  intro l
  induction l with
  | nil => intro _ _ x hx; simp at hx
  | cons a rest ih =>
    intro prev h x hx
    rcases List.mem_cons.mp hx with rfl | hx
    · exact h.2.1
    · exact ih a h.2.2.2.2.2.2.2.2 x hx

/-- Re-pointing the `prev` link of the first block of a run. -/
theorem Seg_set_prev {m : Mem} {stop p q c : Nat} {tl : List Nat}
    (h : Seg m stop p (c :: tl)) (hq : q < c) :
    Seg (set_prev m c q) stop q (c :: tl) := by
  obtain ⟨h1, h2, h3, h4, h5, h6, h7, h8, h9⟩ := h
  have hlt := Seg_lt tl c h9
  refine ⟨hq, h2, by simp, by simpa using h4, by simpa using h5, by simpa using h6,
    by simpa using h7, ?_, ?_⟩
  · intro hf b hb
    have hbm : b ∈ tl := List.mem_of_mem_head? hb
    have hne : b ≠ c := Nat.ne_of_gt (hlt b hbm)
    rw [set_prev_other _ _ hne]
    exact h8 (by simpa using hf) b hb
  · exact Seg_frame tl c (fun x hx => set_prev_other _ _ (Nat.ne_of_gt (hlt x hx))) h9

/-! ### Cutting a run and replacing its tail -/

theorem Seg_split_at {m : Mem} {stop : Nat} {mid : List Nat} : ∀ (pre : List Nat) (prev : Nat),
    Seg m stop prev (pre ++ mid) → Seg m stop (pre.getLastD prev) mid := by
  intro pre
  induction pre with
  | nil => intro prev h; simpa using h
  | cons a pre ih =>
    intro prev h
    rw [List.cons_append] at h
    have := ih a h.2.2.2.2.2.2.2.2
    cases pre with
    | nil => simpa using this
    | cons b pre => simpa [List.getLastD] using this

theorem Seg_splice {m m1 : Mem} {stop : Nat} {mid mid1 : List Nat} :
    ∀ (pre : List Nat) (prev : Nat),
    Seg m stop prev (pre ++ mid) → Seg m1 stop (pre.getLastD prev) mid1 →
    mid1.head? = mid.head? → (∀ x ∈ pre, m1 x = m x) →
    (∀ b ∈ mid.head?, (m1 b).free ≠ 0 → (m b).free ≠ 0) →
    Seg m1 stop prev (pre ++ mid1) := by
  intro pre
  induction pre with
  | nil => intro prev _ h1 _ _ _; simpa using h1
  | cons a pre ih =>
    intro prev h h1 hh hm hf
    rw [List.cons_append] at h
    obtain ⟨g1, g2, g3, g4, g5, g6, g7, g8, g9⟩ := h
    have ha : m1 a = m a := hm a (List.mem_cons_self _ _)
    have h1' : Seg m1 stop (pre.getLastD a) mid1 := by
      cases pre with
      | nil => simpa using h1
      | cons b pre => simpa [List.getLastD] using h1
    have hrec := ih a g9 h1' hh (fun x hx => hm x (List.mem_cons_of_mem _ hx)) hf
    have hhead : (pre ++ mid1).head? = (pre ++ mid).head? := by
      cases pre with
      | nil => simpa using hh
      | cons b pre => simp
    have hD : ∀ d, (pre ++ mid1).headD d = (pre ++ mid).headD d := by
      intro d; rw [List.headD_eq_head?_getD, List.headD_eq_head?_getD, hhead]
    have hnil : (pre ++ mid1 ≠ []) → (pre ++ mid ≠ []) := by
      intro hne hn; rw [hn] at hhead; simp at hhead; exact hne (by simpa using hhead)
    rw [List.cons_append]
    refine ⟨g1, g2, ?_, ?_, ?_, ?_, ?_, ?_, hrec⟩
    · rw [ha]; exact g3
    · rw [ha, hD]; exact g4
    · rw [ha, hD]; exact g5
    · rw [ha]; intro hne; exact g6 (hnil hne)
    · rw [ha]; exact g7
    · rw [ha]; intro hfa b hb
      rw [hhead] at hb
      have hb0 := g8 hfa b hb
      cases pre with
      | nil =>
        simp at hb
        by_contra hc
        exact (hf b hb hc) hb0
      | cons c pre =>
        simp at hb; subst hb
        rw [hm _ (by simp)]; exact hb0

/-! ### The fields of every header after an update -/

theorem mem_block_ext {x y : mem_block_t} (h1 : x.size = y.size) (h2 : x.free = y.free)
    (h3 : x.prev = y.prev) (h4 : x.next = y.next) : x = y := by
  cases x; cases y; simp_all

@[simp] theorem set_size_size (m : Mem) (a v x : Nat) :
    (set_size m a v x).size = if x = a then v else (m x).size := by
  unfold set_size; split_ifs with h <;> simp [h]

@[simp] theorem set_size_free (m : Mem) (a v x : Nat) : (set_size m a v x).free = (m x).free := by
  unfold set_size; split_ifs with h <;> simp [h]

@[simp] theorem set_size_prev (m : Mem) (a v x : Nat) : (set_size m a v x).prev = (m x).prev := by
  unfold set_size; split_ifs with h <;> simp [h]

@[simp] theorem set_size_next (m : Mem) (a v x : Nat) : (set_size m a v x).next = (m x).next := by
  unfold set_size; split_ifs with h <;> simp [h]

@[simp] theorem set_free_free (m : Mem) (a : Nat) (v : Int) (x : Nat) :
    (set_free m a v x).free = if x = a then v else (m x).free := by
  unfold set_free; split_ifs with h <;> simp [h]

@[simp] theorem set_free_size (m : Mem) (a : Nat) (v : Int) (x : Nat) :
    (set_free m a v x).size = (m x).size := by
  unfold set_free; split_ifs with h <;> simp [h]

@[simp] theorem set_free_prev (m : Mem) (a : Nat) (v : Int) (x : Nat) :
    (set_free m a v x).prev = (m x).prev := by
  unfold set_free; split_ifs with h <;> simp [h]

@[simp] theorem set_free_next (m : Mem) (a : Nat) (v : Int) (x : Nat) :
    (set_free m a v x).next = (m x).next := by
  unfold set_free; split_ifs with h <;> simp [h]

@[simp] theorem set_prev_prev (m : Mem) (a v x : Nat) :
    (set_prev m a v x).prev = if x = a then v else (m x).prev := by
  unfold set_prev; split_ifs with h <;> simp [h]

@[simp] theorem set_prev_size (m : Mem) (a v x : Nat) : (set_prev m a v x).size = (m x).size := by
  unfold set_prev; split_ifs with h <;> simp [h]

@[simp] theorem set_prev_free (m : Mem) (a v x : Nat) : (set_prev m a v x).free = (m x).free := by
  unfold set_prev; split_ifs with h <;> simp [h]

@[simp] theorem set_prev_next (m : Mem) (a v x : Nat) : (set_prev m a v x).next = (m x).next := by
  unfold set_prev; split_ifs with h <;> simp [h]

@[simp] theorem set_next_next (m : Mem) (a v x : Nat) :
    (set_next m a v x).next = if x = a then v else (m x).next := by
  unfold set_next; split_ifs with h <;> simp [h]

@[simp] theorem set_next_size (m : Mem) (a v x : Nat) : (set_next m a v x).size = (m x).size := by
  unfold set_next; split_ifs with h <;> simp [h]

@[simp] theorem set_next_free (m : Mem) (a v x : Nat) : (set_next m a v x).free = (m x).free := by
  unfold set_next; split_ifs with h <;> simp [h]

@[simp] theorem set_next_prev (m : Mem) (a v x : Nat) : (set_next m a v x).prev = (m x).prev := by
  unfold set_next; split_ifs with h <;> simp [h]

/-- The four fields of every header after `split_block`. -/
theorem split_block_size (m : Mem) (a req x : Nat) :
    (split_block m a req x).size =
      if x = a then req else if x = add32 a req then sub32 (m a).size req else (m x).size := by
  unfold split_block
  by_cases h1 : x = a <;> by_cases h2 : x = add32 a req <;> split_ifs <;> simp [h1, h2]
  all_goals (intro e; exact absurd (h2.trans e) h1)

theorem split_block_free (m : Mem) (a req x : Nat) :
    (split_block m a req x).free = if x = add32 a req then 1 else (m x).free := by
  unfold split_block
  by_cases h2 : x = add32 a req <;> split_ifs <;> simp [h2]

theorem split_block_next (m : Mem) (a req x : Nat) :
    (split_block m a req x).next =
      if x = a then add32 a req
      else if x = add32 a req then (m a).next else (m x).next := by
  unfold split_block
  by_cases h1 : x = a <;> by_cases h2 : x = add32 a req <;> split_ifs <;> simp [h1, h2]
  all_goals (intro e; exact absurd (h2.trans e) h1)

theorem split_block_prev (m : Mem) (a req x : Nat) (h : add32 a req ≠ a) :
    (split_block m a req x).prev =
      if x = (m a).next ∧ (m a).next ≠ 0 then add32 a req
      else if x = add32 a req then a else (m x).prev := by
  have h' : a ≠ add32 a req := fun e => h e.symm
  unfold split_block
  by_cases h2 : x = add32 a req <;> by_cases h3 : x = (m a).next <;> by_cases h4 : (m a).next = 0 <;>
    simp [h2, h3, h4, h, h']

/-! ### Taking a block: `malloc` on the chosen block -/

theorem Seg_cons {m : Mem} {stop prev a : Nat} {rest : List Nat} :
    Seg m stop prev (a :: rest) ↔
      (prev < a ∧ a < U32 ∧ (m a).prev = prev ∧ (m a).next = rest.headD 0 ∧
      a + (m a).size = rest.headD stop ∧
      (rest ≠ [] → 16 ≤ (m a).size) ∧
      ((m a).free = 0 → 16 ≤ (m a).size) ∧
      ((m a).free ≠ 0 → ∀ b ∈ rest.head?, (m b).free = 0) ∧
      Seg m stop a rest) := Iff.rfl

theorem take_block_other (m : Mem) {a req x : Nat} (hne : add32 a req ≠ a) (hx : x ≠ a)
    (hxn : x ≠ add32 a req) (hx2 : x ≠ (m a).next) : take_block m a req x = m x := by
  unfold take_block
  split_ifs
  · apply mem_block_ext <;>
      simp [split_block_size, split_block_free, split_block_next,
        split_block_prev _ _ _ _ hne, hx, hxn, hx2]
  · exact set_free_other _ _ hx

theorem take_seg {m : Mem} {stop prev a req : Nat} {rest : List Nat}
    (h : Seg m stop prev (a :: rest)) (hstop : stop ≤ U32) (hf : (m a).free ≠ 0)
    (hr : req ≤ (m a).size) (h16 : 16 ≤ req) :
    ∃ l1, Seg (take_block m a req) stop prev (a :: l1) ∧
      (∀ x, 0 < x → x < a → take_block m a req x = m x) ∧
      (take_block m a req a).free = 0 := by
  have hend := Seg_end_le _ _ h a (List.mem_cons_self _ _)
  obtain ⟨g1, g2, g3, g4, g5, g6, g7, g8, g9⟩ := h
  have hgt := Seg_lt rest a g9
  have hMIN : MIN_ALLOC = 16 := rfl
  have hU : U32 = 4294967296 := rfl
  by_cases hs : (m a).size > add32 req MIN_ALLOC
  · have hsz : (m a).size < U32 := by omega
    have hreq0 : req ≠ 0 := by omega
    have htb : take_block m a req = set_free (split_block m a req) a 0 := by
      unfold take_block; rw [if_pos hs]
    by_cases hw : a + req < U32
    · have hnb : add32 a req = a + req := add32_eq hw
      have hne : add32 a req ≠ a := by rw [hnb]; omega
      have hsub : sub32 (m a).size req = (m a).size - req := sub32_eq hsz hr
      cases rest with
      | nil =>
        simp at g4 g5
        refine ⟨[a + req], ?_, ?_, ?_⟩
        · rw [htb, Seg_cons, Seg_cons]
          simp [split_block_size, split_block_free, split_block_next,
            split_block_prev _ _ _ _ hne, hnb, hsub, g4, hreq0, Seg]
          and_intros <;> omega
        · intro x hx0 hxa
          exact take_block_other m hne (by omega) (by omega) (by omega)
        · rw [htb]; simp
      | cons b r =>
        simp at g4 g5
        have hb0 : (m b).free = 0 := g8 hf b (by simp)
        have hbseg := g9
        rw [Seg_cons] at hbseg
        obtain ⟨b1, b2, b3, b4, b5, b6, b7, b8, b9⟩ := hbseg
        have hbend := Seg_end_le _ _ g9 b (List.mem_cons_self _ _)
        have hb16 := b7 hb0
        have hlt : req + 16 < (m a).size := by
          by_cases hov : req + 16 < U32
          · have : add32 req MIN_ALLOC = req + 16 := by rw [hMIN]; exact add32_eq hov
            omega
          · omega
        have hgtb := Seg_lt r b b9
        have hba : b ≠ a := by omega
        have hbn : b ≠ a + req := by omega
        have hab : a ≠ b := by omega
        refine ⟨(a + req) :: b :: r, ?_, ?_, ?_⟩
        · rw [htb]
          have htail : Seg (set_free (split_block m a req) a 0) stop (a + req) (b :: r) := by
            have hsp := Seg_set_prev g9 (show a + req < b by omega)
            refine Seg_frame _ _ ?_ hsp
            intro x hx
            rcases List.mem_cons.mp hx with hx | hx
            · subst hx
              apply mem_block_ext <;>
                simp [split_block_size, split_block_free, split_block_next,
                  split_block_prev _ _ _ _ hne, hnb, hsub, g4, hreq0, hba, hbn]
              omega
            · have hxb := hgtb x hx
              rw [← htb, take_block_other m hne (by omega) (by omega) (by omega)]
              exact (set_prev_other _ _ (by omega)).symm
          have hmid : Seg (set_free (split_block m a req) a 0) stop a ((a + req) :: b :: r) := by
            rw [Seg_cons]
            refine ⟨?_, ?_, ?_, ?_, ?_, ?_, ?_, ?_, htail⟩
            all_goals try simp [split_block_size, split_block_free, split_block_next,
                  split_block_prev _ _ _ _ hne, hnb, hsub, g4, hreq0, hba, hbn, hb0, hab]
            all_goals omega
          rw [Seg_cons]
          refine ⟨?_, ?_, ?_, ?_, ?_, ?_, ?_, ?_, hmid⟩
          all_goals try simp [split_block_size, split_block_free, split_block_next,
                  split_block_prev _ _ _ _ hne, hnb, hsub, g4, hreq0, hba, hbn, hb0, hab]
          all_goals omega
        · intro x hx0 hxa
          exact take_block_other m hne (by omega) (by omega) (by omega)
        · rw [htb]; simp
    · -- `blk + req` is exactly `2^32`: the new header lands on the null address
      have hsum : a + req = U32 := by omega
      have hnb : add32 a req = 0 := by
        unfold add32; rw [hsum]; exact Nat.mod_self _
      have hne : add32 a req ≠ a := by rw [hnb]; omega
      have ha0 : a ≠ 0 := by omega
      cases rest with
      | cons b r =>
        exfalso
        simp at g5
        have := g9.2.1
        omega
      | nil =>
        simp at g4 g5
        refine ⟨[], ?_, ?_, ?_⟩
        · rw [htb, Seg_cons]
          simp [split_block_size, split_block_free, split_block_next,
            split_block_prev _ _ _ _ hne, hnb, g4, hreq0, ha0, Seg]
          and_intros <;> omega
        · intro x hx0 hxa
          exact take_block_other m hne (by omega) (by omega) (by omega)
        · rw [htb]; simp
  · -- the block is taken whole
    have htb : take_block m a req = set_free m a 0 := by
      unfold take_block; rw [if_neg hs]
    refine ⟨rest, ?_, ?_, ?_⟩
    · rw [htb, Seg_cons]
      refine ⟨g1, g2, by simpa using g3, by simpa using g4, by simpa using g5,
        by simpa using g6, ?_, ?_, ?_⟩
      · intro _; simp; omega
      · intro hc; simp at hc
      · exact Seg_frame rest a (fun x hx => set_free_other _ _ (Nat.ne_of_gt (hgt x hx))) g9
    · intro x _ hx; rw [htb]; exact set_free_other _ _ (Nat.ne_of_lt hx)
    · rw [htb]; simp

/-! ### The first-fit walk and the invariant under `malloc` -/

theorem malloc_loop_mono (req : Nat) : ∀ (fuel : Nat) (s : Heap) (blk : Nat) (r : Nat × Heap),
    malloc_loop req fuel s blk = some r → ∀ k, malloc_loop req (fuel + k) s blk = some r := by
  intro fuel
  induction fuel with
  | zero => intro s blk r h; simp [malloc_loop] at h
  | succ f ih =>
    intro s blk r h k
    have e : f + 1 + k = (f + k) + 1 := by omega
    rw [e]
    unfold malloc_loop at h ⊢
    by_cases h1 : blk = 0
    · rw [if_pos h1] at h ⊢; exact h
    · rw [if_neg h1] at h ⊢
      by_cases h2 : (s.mem blk).free ≠ 0 ∧ (s.mem blk).size ≥ req
      · rw [if_pos h2] at h ⊢; exact h
      · rw [if_neg h2] at h ⊢; exact ih s _ r h k

theorem malloc_loop_eq {req stop : Nat} (s : Heap) : ∀ (l : List Nat) (prev fuel : Nat),
    Seg s.mem stop prev l → l.length < fuel →
    malloc_loop req fuel s (l.headD 0) =
      some (match l.find? (fits s.mem req) with
        | none => (0, s)
        | some b => (add32 b HDR, alloc_state s b req)) := by
  intro l
  induction l with
  | nil =>
    intro prev fuel _ hfuel
    obtain ⟨f, rfl⟩ : ∃ f, fuel = f + 1 := ⟨fuel - 1, by simp at hfuel; omega⟩
    simp [malloc_loop]
  | cons a rest ih =>
    intro prev fuel h hfuel
    obtain ⟨f, rfl⟩ : ∃ f, fuel = f + 1 := ⟨fuel - 1, by simp at hfuel; omega⟩
    have ha0 : a ≠ 0 := by have := h.1; omega
    have hnext : (s.mem a).next = rest.headD 0 := h.2.2.2.1
    simp only [List.headD_cons]
    unfold malloc_loop
    rw [if_neg ha0]
    by_cases hfit : (s.mem a).free ≠ 0 ∧ (s.mem a).size ≥ req
    · rw [if_pos hfit]
      have : fits s.mem req a = true := by simp [fits, hfit]
      rw [List.find?_cons_of_pos _ this]
      rfl
    · rw [if_neg hfit]
      have : ¬ (fits s.mem req a = true) := by simp [fits]; simpa using hfit
      rw [List.find?_cons_of_neg _ this, hnext]
      exact ih a f h.2.2.2.2.2.2.2.2 (by simp at hfuel; omega)

theorem Seg_pre_lt {m : Mem} {stop : Nat} {mid : List Nat} : ∀ (pre : List Nat) (prev : Nat),
    Seg m stop prev (pre ++ mid) → ∀ x ∈ pre, ∀ y ∈ mid, x < y := by
  intro pre
  induction pre with
  | nil => intro _ _ x hx; simp at hx
  | cons a pre ih =>
    intro prev h x hx y hy
    rw [List.cons_append] at h
    have h9 := h.2.2.2.2.2.2.2.2
    rcases List.mem_cons.mp hx with rfl | hx
    · exact Seg_lt _ _ h9 y (List.mem_append_right _ hy)
    · exact ih a h9 x hx y hy

theorem req_of_ge (n : Nat) : 16 ≤ req_of n := by
  unfold req_of
  simp only [MIN_ALLOC]
  split_ifs with h <;> omega

theorem alloc_state_inv {start size : Nat} {s : Heap} {l pre post : List Nat} {b req : Nat}
    (hstop : start + size ≤ U32)
    (hl : Seg s.mem (start + size) 0 l) (hh : l.head? = some start)
    (hdec : l = pre ++ b :: post) (hfit : fits s.mem req b = true) (h16 : 16 ≤ req) :
    ∃ l1, Seg (take_block s.mem b req) (start + size) 0 (pre ++ b :: l1) ∧
      (pre ++ b :: l1).head? = some start := by
  subst hdec
  have hmid := Seg_split_at pre 0 hl
  simp [fits] at hfit
  obtain ⟨l1, h1, h2, h3⟩ := take_seg hmid hstop hfit.1 hfit.2 h16
  refine ⟨l1, ?_, ?_⟩
  · refine Seg_splice pre 0 hl h1 (by simp) ?_ ?_
    · intro x hx
      have hxb := Seg_pre_lt pre 0 hl x hx b (List.mem_cons_self _ _)
      have hx0 := Seg_lt _ _ hl x (List.mem_append_left _ hx)
      exact h2 x hx0 hxb
    · intro c hc hcf
      simp at hc; subst hc
      exact absurd h3 hcf
  · cases pre with
    | nil => simpa using hh
    | cons c pre => simpa using hh

theorem malloc_inv {start size : Nat} {s s1 : Heap} {fuel n p : Nat}
    (hs : Inv start size s) (hstop : start + size ≤ U32)
    (h : malloc fuel s n = some (p, s1)) : Inv start size s1 := by
  unfold malloc at h
  split_ifs at h with h1 h2
  · simp at h; rw [← h.2]; exact hs
  · simp at h; rw [← h.2]; exact hs
  · obtain ⟨e1, e2, e3, l, hh, hl⟩ := hs
    have hmono := malloc_loop_mono _ _ _ _ _ h (l.length + 1)
    have hhead : l.headD 0 = s.free_list := by
      rw [List.headD_eq_head?_getD, hh, e3]; rfl
    have heq := @malloc_loop_eq (req_of n) _ s l 0 (fuel + (l.length + 1)) hl (by omega)
    rw [hhead, hmono] at heq
    cases hfind : l.find? (fits s.mem (req_of n)) with
    | none =>
      rw [hfind] at heq
      simp at heq
      rw [heq.2]
      exact ⟨e1, e2, e3, l, hh, hl⟩
    | some b =>
      rw [hfind] at heq
      simp at heq
      obtain ⟨hfit, pre, post, hdec, _⟩ := List.find?_eq_some.mp hfind
      obtain ⟨l1, g1, g2⟩ := alloc_state_inv hstop hl hh hdec hfit
        (req_of_ge n)
      rw [heq.2]
      exact ⟨e1, e2, e3, _, g2, g1⟩

/-! ### The fields of every header after `coalesce` -/

theorem merge_next_size (m : Mem) (b x : Nat) :
    (merge_next m b x).size =
      if x = b ∧ (m b).next ≠ 0 ∧ (m (m b).next).free ≠ 0
      then add32 (m b).size (m (m b).next).size else (m x).size := by
  unfold merge_next
  by_cases h1 : x = b <;> by_cases h2 : (m b).next ≠ 0 ∧ (m (m b).next).free ≠ 0 <;>
    simp [h1, h2] <;> split_ifs <;> simp [h1]

theorem merge_next_free (m : Mem) (b x : Nat) : (merge_next m b x).free = (m x).free := by
  unfold merge_next
  by_cases h2 : (m b).next ≠ 0 ∧ (m (m b).next).free ≠ 0
  · simp [h2]; split_ifs <;> simp
  · simp [h2]

theorem merge_next_next (m : Mem) (b x : Nat) :
    (merge_next m b x).next =
      if x = b ∧ (m b).next ≠ 0 ∧ (m (m b).next).free ≠ 0
      then (m (m b).next).next else (m x).next := by
  unfold merge_next
  by_cases h1 : x = b <;> by_cases h2 : (m b).next ≠ 0 ∧ (m (m b).next).free ≠ 0 <;>
    simp [h1, h2] <;> split_ifs <;> simp [h1]

theorem merge_next_prev (m : Mem) (b x : Nat) :
    (merge_next m b x).prev =
      if ((m b).next ≠ 0 ∧ (m (m b).next).free ≠ 0) ∧
          (m (m b).next).next ≠ 0 ∧ x = (m (m b).next).next
      then b else (m x).prev := by
  unfold merge_next
  by_cases h2 : (m b).next ≠ 0 ∧ (m (m b).next).free ≠ 0 <;>
    by_cases h3 : (m (m b).next).next = 0 <;> by_cases h4 : x = (m (m b).next).next <;>
    simp [h2, h3, h4]

theorem merge_prev_size (m : Mem) (b x : Nat) :
    (merge_prev m b x).size =
      if x = (m b).prev ∧ (m b).prev ≠ 0 ∧ (m (m b).prev).free ≠ 0
      then add32 (m (m b).prev).size (m b).size else (m x).size := by
  unfold merge_prev
  by_cases h1 : x = (m b).prev <;> by_cases h2 : (m b).prev ≠ 0 ∧ (m (m b).prev).free ≠ 0 <;>
    simp [h1, h2] <;> split_ifs <;> simp [h1]

theorem merge_prev_free (m : Mem) (b x : Nat) : (merge_prev m b x).free = (m x).free := by
  unfold merge_prev
  by_cases h2 : (m b).prev ≠ 0 ∧ (m (m b).prev).free ≠ 0
  · simp [h2]; split_ifs <;> simp
  · simp [h2]

theorem merge_prev_next (m : Mem) (b x : Nat) :
    (merge_prev m b x).next =
      if x = (m b).prev ∧ (m b).prev ≠ 0 ∧ (m (m b).prev).free ≠ 0
      then (m b).next else (m x).next := by
  unfold merge_prev
  by_cases h1 : x = (m b).prev <;> by_cases h2 : (m b).prev ≠ 0 ∧ (m (m b).prev).free ≠ 0 <;>
    simp [h1, h2] <;> split_ifs <;> simp [h1]

theorem merge_prev_prev (m : Mem) (b x : Nat) :
    (merge_prev m b x).prev =
      if ((m b).prev ≠ 0 ∧ (m (m b).prev).free ≠ 0) ∧ (m b).next ≠ 0 ∧ x = (m b).next
      then (m b).prev else (m x).prev := by
  unfold merge_prev
  by_cases h2 : (m b).prev ≠ 0 ∧ (m (m b).prev).free ≠ 0 <;>
    by_cases h3 : (m b).next = 0 <;> by_cases h4 : x = (m b).next <;>
    simp [h2, h3, h4]

/-! ### Merging with the next block -/

theorem merge_next_other (m : Mem) {b x : Nat} (hx : x ≠ b)
    (hx2 : (m b).next ≠ 0 → (m (m b).next).next ≠ 0 → x ≠ (m (m b).next).next) :
    merge_next m b x = m x := by
  apply mem_block_ext <;>
    simp [merge_next_size, merge_next_free, merge_next_next, merge_next_prev, hx]
  intro h1 _ h3 h4
  exact absurd h4 (hx2 h1 h3)

theorem merge_prev_other (m : Mem) {b x : Nat} (hx : x ≠ (m b).prev)
    (hx2 : (m b).prev ≠ 0 → (m b).next ≠ 0 → x ≠ (m b).next) : merge_prev m b x = m x := by
  apply mem_block_ext <;>
    simp [merge_prev_size, merge_prev_free, merge_prev_next, merge_prev_prev, hx]
  intro h1 _ h3 h4
  exact absurd h4 (hx2 h1 h3)

theorem merge_next_seg {m : Mem} {stop q blk : Nat} {post : List Nat}
    (h : Seg m stop q (blk :: post)) (hstop : stop ≤ U32) :
    ∃ post1, Seg (merge_next (set_free m blk 1) blk) stop q (blk :: post1) ∧
      (∀ x, x < blk → merge_next (set_free m blk 1) blk x = m x) ∧
      (merge_next (set_free m blk 1) blk blk).free = 1 := by
  have hend := Seg_end_le _ _ h
  obtain ⟨g1, g2, g3, g4, g5, g6, g7, g8, g9⟩ := h
  have hgt := Seg_lt post blk g9
  have hfree : (merge_next (set_free m blk 1) blk blk).free = 1 := by
    simp [merge_next_free]
  cases post with
  | nil =>
    simp at g4 g5
    have hM : ∀ x, merge_next (set_free m blk 1) blk x = set_free m blk 1 x := by
      intro x
      apply mem_block_ext <;>
        simp [merge_next_size, merge_next_free, merge_next_next, merge_next_prev, g4]
    refine ⟨[], ?_, ?_, hfree⟩
    · rw [Seg_cons]
      simp [hM, g4, Seg]
      and_intros <;> omega
    · intro x hx
      rw [hM, set_free_other _ _ (by omega)]
  | cons n r =>
    simp at g4 g5
    have g6b : 16 ≤ (m blk).size := g6 (by simp)
    have hn := g9
    rw [Seg_cons] at hn
    obtain ⟨n1, n2, n3, n4, n5, n6, n7, n8, n9⟩ := hn
    have hnb : n ≠ blk := by omega
    have hn0 : n ≠ 0 := by omega
    have hgtn := Seg_lt r n n9
    have hendn := hend n (by simp)
    have hendb := hend blk (by simp)
    by_cases hnf : (m n).free = 0
    · -- the next block is allocated: nothing to merge
      have hM : ∀ x, merge_next (set_free m blk 1) blk x = set_free m blk 1 x := by
        intro x
        apply mem_block_ext <;>
          simp [merge_next_size, merge_next_free, merge_next_next, merge_next_prev, g4, hnb, hnf]
      refine ⟨n :: r, ?_, ?_, hfree⟩
      · rw [Seg_cons]
        refine ⟨?_, ?_, ?_, ?_, ?_, ?_, ?_, ?_, ?_⟩
        all_goals try simp [hM, g4, hnb, hnf]
        all_goals try omega
        refine Seg_frame _ _ ?_ g9
        intro x hx
        rw [hM, set_free_other _ _ (by have := hgt x hx; omega)]
      · intro x hx
        rw [hM, set_free_other _ _ (by omega)]
    · -- the next block is free: absorb it
      have hsum : add32 (m blk).size (m n).size = (m blk).size + (m n).size :=
        add32_eq (by omega)
      cases r with
      | nil =>
        simp at n4 n5
        refine ⟨[], ?_, ?_, hfree⟩
        · rw [Seg_cons]
          simp [merge_next_size, merge_next_free, merge_next_next, merge_next_prev, g4, hnb, hnf,
            hn0, hsum, n4, Seg]
          and_intros <;> omega
        · intro x hx
          have hxb : x ≠ blk := by omega
          rw [merge_next_other _ hxb (by simp [g4, hnb, n4]; try omega)]
          exact set_free_other _ _ hxb
      | cons nn r1 =>
        simp at n4 n5
        have n6b : 16 ≤ (m n).size := n6 (by simp)
        have hnn := n9
        rw [Seg_cons] at hnn
        obtain ⟨k1, k2, k3, k4, k5, k6, k7, k8, k9⟩ := hnn
        have hnn0 : (m nn).free = 0 := n8 hnf nn (by simp)
        have hgtnn := Seg_lt r1 nn k9
        have hnnb : nn ≠ blk := by omega
        have hnnn : nn ≠ n := by omega
        have hnn00 : nn ≠ 0 := by omega
        refine ⟨nn :: r1, ?_, ?_, hfree⟩
        · have htail : Seg (merge_next (set_free m blk 1) blk) stop blk (nn :: r1) := by
            have hsp := Seg_set_prev n9 (show blk < nn by omega)
            refine Seg_frame _ _ ?_ hsp
            intro x hx
            rcases List.mem_cons.mp hx with hx | hx
            · subst hx
              apply mem_block_ext <;>
                simp [merge_next_size, merge_next_free, merge_next_next, merge_next_prev, g4, hnb,
                  hnf, hn0, hsum, n4, hnnb, hnnn, hnn00]
            · have hxnn := hgtnn x hx
              rw [set_prev_other _ _ (by omega)]
              have hxb : x ≠ blk := by omega
              rw [merge_next_other _ hxb (by simp [g4, hnb, n4]; omega)]
              exact set_free_other _ _ (by omega)
          rw [Seg_cons]
          refine ⟨?_, ?_, ?_, ?_, ?_, ?_, ?_, ?_, htail⟩
          all_goals try simp [merge_next_size, merge_next_free, merge_next_next, merge_next_prev,
            g4, hnb, hnf, hn0, hsum, n4, hnnb, hnnn, hnn00, hnn0, hnnb.symm]
          all_goals try omega
        · intro x hx
          have hxb : x ≠ blk := by omega
          rw [merge_next_other _ hxb (by simp [g4, hnb, n4]; try omega)]
          exact set_free_other _ _ hxb

/-! ### Merging into the previous block -/

theorem merge_prev_seg {m1 : Mem} {stop q pv blk : Nat} {post1 : List Nat}
    (p1 : q < pv) (p2 : pv < U32) (p3 : (m1 pv).prev = q) (p4 : (m1 pv).next = blk)
    (p5 : pv + (m1 pv).size = blk) (p6 : 16 ≤ (m1 pv).size)
    (hb : Seg m1 stop pv (blk :: post1)) (hbf : (m1 blk).free ≠ 0) (hstop : stop ≤ U32) :
    ∃ l1, Seg (merge_prev m1 blk) stop q (pv :: l1) ∧
      (∀ x, x < pv → merge_prev m1 blk x = m1 x) ∧
      (merge_prev m1 blk pv).free = (m1 pv).free := by
  have hend := Seg_end_le _ _ hb
  have hb' := hb
  obtain ⟨g1, g2, g3, g4, g5, g6, g7, g8, g9⟩ := hb'
  have hgt := Seg_lt post1 blk g9
  have hpv0 : pv ≠ 0 := by omega
  have hbpv : blk ≠ pv := by omega
  have hfree : (merge_prev m1 blk pv).free = (m1 pv).free := by simp [merge_prev_free]
  by_cases hpf : (m1 pv).free = 0
  · -- the previous block is allocated: nothing to merge
    have hM : ∀ x, merge_prev m1 blk x = m1 x := by
      intro x
      apply mem_block_ext <;>
        simp [merge_prev_size, merge_prev_free, merge_prev_next, merge_prev_prev, g3, hpf]
    refine ⟨blk :: post1, ?_, fun x _ => hM x, hfree⟩
    have htail : Seg (merge_prev m1 blk) stop pv (blk :: post1) :=
      Seg_frame _ _ (fun x _ => hM x) hb
    rw [Seg_cons]
    refine ⟨?_, ?_, ?_, ?_, ?_, ?_, ?_, ?_, htail⟩
    all_goals try simp [hM, hpf, p3, p4, p5]
    all_goals omega
  · -- the previous block is free: it absorbs `blk`
    have hendb := hend blk (by simp)
    have hsum : add32 (m1 pv).size (m1 blk).size = (m1 pv).size + (m1 blk).size :=
      add32_eq (by omega)
    cases post1 with
    | nil =>
      simp at g4 g5
      refine ⟨[], ?_, ?_, hfree⟩
      · rw [Seg_cons]
        simp [merge_prev_size, merge_prev_free, merge_prev_next, merge_prev_prev, g3, hpf, hpv0,
          hsum, g4, Seg, p3]
        and_intros <;> omega
      · intro x hx
        have hxp : x ≠ (m1 blk).prev := by rw [g3]; omega
        exact merge_prev_other _ hxp (by simp [g4])
    | cons nn r =>
      simp at g4 g5
      have g6b : 16 ≤ (m1 blk).size := g6 (by simp)
      have hnn := g9
      rw [Seg_cons] at hnn
      obtain ⟨k1, k2, k3, k4, k5, k6, k7, k8, k9⟩ := hnn
      have hnn0 : (m1 nn).free = 0 := g8 hbf nn (by simp)
      have hgtnn := Seg_lt r nn k9
      have hnnb : nn ≠ blk := by omega
      have hnnp : nn ≠ pv := by omega
      have hnn00 : nn ≠ 0 := by omega
      refine ⟨nn :: r, ?_, ?_, hfree⟩
      · have htail : Seg (merge_prev m1 blk) stop pv (nn :: r) := by
          have hsp := Seg_set_prev g9 (show pv < nn by omega)
          refine Seg_frame _ _ ?_ hsp
          intro x hx
          rcases List.mem_cons.mp hx with hx | hx
          · subst hx
            apply mem_block_ext <;>
              simp [merge_prev_size, merge_prev_free, merge_prev_next, merge_prev_prev, g3, hpf,
                hpv0, hsum, g4, hnnb, hnnp, hnn00]
          · have hxnn := hgtnn x hx
            rw [set_prev_other _ _ (by omega)]
            have hxp : x ≠ (m1 blk).prev := by rw [g3]; omega
            exact merge_prev_other _ hxp (by simp [g4]; omega)
        rw [Seg_cons]
        refine ⟨?_, ?_, ?_, ?_, ?_, ?_, ?_, ?_, htail⟩
        all_goals try simp [merge_prev_size, merge_prev_free, merge_prev_next, merge_prev_prev,
          g3, hpf, hpv0, hsum, g4, hnnb, hnnp, hnn00, hnn0, hnnp.symm, p3]
        all_goals try omega
      · intro x hx
        have hxp : x ≠ (m1 blk).prev := by rw [g3]; omega
        exact merge_prev_other _ hxp (by simp [g4]; omega)

/-! ### Traversals, the invariant under `free`, reachable states -/

theorem block_list_mono (m : Mem) : ∀ (fuel blk : Nat) (l : List Nat),
    block_list m fuel blk = some l → ∀ k, block_list m (fuel + k) blk = some l := by
  intro fuel
  induction fuel with
  | zero => intro blk l h; simp [block_list] at h
  | succ f ih =>
    intro blk l h k
    have e : f + 1 + k = (f + k) + 1 := by omega
    rw [e]
    unfold block_list at h ⊢
    by_cases h1 : blk = 0
    · rw [if_pos h1] at h ⊢; exact h
    · rw [if_neg h1] at h ⊢
      cases hrec : block_list m f (m blk).next with
      | none => rw [hrec] at h; simp at h
      | some l0 =>
        rw [hrec] at h
        rw [ih _ _ hrec k]
        exact h

theorem block_list_of_seg {m : Mem} {stop : Nat} : ∀ (l : List Nat) (prev fuel : Nat),
    Seg m stop prev l → l.length < fuel → block_list m fuel (l.headD 0) = some l := by
  intro l
  induction l with
  | nil =>
    intro prev fuel _ hfuel
    obtain ⟨f, rfl⟩ : ∃ f, fuel = f + 1 := ⟨fuel - 1, by simp at hfuel; omega⟩
    simp [block_list]
  | cons a rest ih =>
    intro prev fuel h hfuel
    obtain ⟨f, rfl⟩ : ∃ f, fuel = f + 1 := ⟨fuel - 1, by simp at hfuel; omega⟩
    have ha0 : a ≠ 0 := by have := h.1; omega
    have hnext : (m a).next = rest.headD 0 := h.2.2.2.1
    simp only [List.headD_cons]
    unfold block_list
    rw [if_neg ha0, hnext, ih a f h.2.2.2.2.2.2.2.2 (by simp at hfuel; omega)]
    rfl

/-- Every complete traversal of the list returns the list of the invariant. -/
theorem block_list_unique {m : Mem} {stop prev fuel : Nat} {l l1 : List Nat}
    (h : Seg m stop prev l) (h1 : block_list m fuel (l.headD 0) = some l1) : l1 = l := by
  have a := block_list_mono m _ _ _ h1 (l.length + 1)
  have b := block_list_of_seg l prev (fuel + (l.length + 1)) h (by omega)
  rw [a] at b
  exact Option.some.inj b

theorem Inv_head {start : Nat} {s : Heap} {l : List Nat}
    (e3 : s.free_list = start) (hh : l.head? = some start) : l.headD 0 = s.free_list := by
  rw [List.headD_eq_head?_getD, hh, e3]; rfl

theorem InList_iff {start size : Nat} {s : Heap} {l : List Nat}
    (e3 : s.free_list = start) (hh : l.head? = some start)
    (hl : Seg s.mem (start + size) 0 l) (b : Nat) : InList s b ↔ b ∈ l := by
  have hhd := Inv_head e3 hh
  constructor
  · rintro ⟨fuel, l1, h1, hb⟩
    rw [← hhd] at h1
    rw [block_list_unique hl h1] at hb
    exact hb
  · intro hb
    refine ⟨l.length + 1, l, ?_, hb⟩
    rw [← hhd]
    exact block_list_of_seg l 0 _ hl (by omega)

theorem coalesce_seg {m : Mem} {stop b : Nat} {l : List Nat}
    (hl : Seg m stop 0 l) (hstop : stop ≤ U32) (hb : b ∈ l) :
    ∃ l1, Seg (coalesce (set_free m b 1) b) stop 0 l1 ∧ l1.head? = l.head? := by
  have hb0 : b ≠ 0 := by have := Seg_lt _ _ hl b hb; omega
  have hco : coalesce (set_free m b 1) b = merge_prev (merge_next (set_free m b 1) b) b := by
    unfold coalesce; rw [if_neg hb0]
  rw [hco]
  obtain ⟨pre, post, rfl⟩ := List.append_of_mem hb
  rcases List.eq_nil_or_concat pre with hp | ⟨pre1, pv, hp⟩
  · subst hp
    simp only [List.nil_append] at hl ⊢
    obtain ⟨post1, h1, h2, h3⟩ := merge_next_seg hl hstop
    have hprev : (merge_next (set_free m b 1) b b).prev = 0 := h1.2.2.1
    have hM : ∀ x, merge_prev (merge_next (set_free m b 1) b) b x =
        merge_next (set_free m b 1) b x := by
      intro x
      apply mem_block_ext <;>
        simp [merge_prev_size, merge_prev_free, merge_prev_next, merge_prev_prev, hprev]
    exact ⟨b :: post1, Seg_frame _ _ (fun x _ => hM x) h1, by simp⟩
  · subst hp
    have hl' : Seg m stop 0 (pre1 ++ pv :: b :: post) := by simpa using hl
    have hmid := Seg_split_at pre1 0 hl'
    have hmid' := hmid
    rw [Seg_cons] at hmid'
    obtain ⟨p1, p2, p3, p4, p5, p6, p7, p8, p9⟩ := hmid'
    simp at p4 p5 p6
    obtain ⟨post1, h1, h2, h3⟩ := merge_next_seg p9 hstop
    have hpvb : pv < b := p9.1
    have hpv := h2 pv hpvb
    obtain ⟨l1, k1, k2, k3⟩ := @merge_prev_seg (merge_next (set_free m b 1) b) _ _ _ _ _
      p1 p2 (by rw [hpv]; exact p3) (by rw [hpv]; exact p4) (by rw [hpv]; exact p5)
      (by rw [hpv]; exact p6) h1 (by rw [h3]; decide) hstop
    refine ⟨pre1 ++ pv :: l1, ?_, ?_⟩
    · refine Seg_splice pre1 0 hl' k1 (by simp) ?_ ?_
      · intro x hx
        have hxpv := Seg_pre_lt pre1 0 hl' x hx pv (List.mem_cons_self _ _)
        rw [k2 x hxpv, h2 x (by omega)]
      · intro c hc hcf
        simp at hc; subst hc
        rw [k3, hpv] at hcf
        exact hcf
    · cases pre1 with
      | nil => simp
      | cons c pre1 => simp

theorem free_eq (s : Heap) (p : Nat) :
    free s p =
      if p = 0 ∨ s.heap_start = 0 then s
      else if (s.mem (sub32 p HDR)).free ≠ 0 then s
      else { s with heap_used := sub32 s.heap_used (s.mem (sub32 p HDR)).size,
                    mem := coalesce (set_free s.mem (sub32 p HDR) 1) (sub32 p HDR) } := by
  unfold free
  simp

theorem free_inv {start size : Nat} {s : Heap} {p : Nat}
    (hs : Inv start size s) (hstop : start + size ≤ U32)
    (hp : AllocatedPtr s p) : Inv start size (free s p) := by
  obtain ⟨e1, e2, e3, l, hh, hl⟩ := hs
  obtain ⟨b, hin, hbf, hpb⟩ := hp
  have hbl : b ∈ l := (InList_iff e3 hh hl b).mp hin
  have hbU := Seg_lt_U32 _ _ hl b hbl
  rw [free_eq]
  by_cases h1 : p = 0 ∨ s.heap_start = 0
  · rw [if_pos h1]; exact ⟨e1, e2, e3, l, hh, hl⟩
  · rw [if_neg h1]
    have hblk : sub32 p HDR = b := by
      rw [hpb]; exact sub32_add32 hbU (by decide)
    rw [hblk, if_neg (by simp [hbf])]
    obtain ⟨l1, g1, g2⟩ := coalesce_seg hl hstop hbl
    exact ⟨e1, e2, e3, l1, by rw [g2]; exact hh, g1⟩

theorem mem_init_inv (s0 : Heap) {start size : Nat} (hv : ValidRegion start size) :
    Inv start size (mem_init s0 start size) := by
  obtain ⟨v1, v2, v3⟩ := hv
  refine ⟨rfl, rfl, rfl, [start], rfl, ?_⟩
  rw [Seg_cons]
  simp [mem_init, Seg]
  omega

theorem reachable_inv {start size : Nat} (hv : ValidRegion start size) {s : Heap}
    (h : Reachable start size s) : Inv start size s := by
  induction h with
  | init s0 => exact mem_init_inv s0 hv
  | malloc s s1 fuel n p _ _ hm ih => exact malloc_inv ih hv.2.2 hm
  | free s p _ hp ih => exact free_inv ih hv.2.2 hp

/-! ### Consequences of the invariant -/

theorem Seg_sum {m : Mem} {stop : Nat} : ∀ (l : List Nat) (prev : Nat),
    Seg m stop prev l → l.headD stop + sizes_sum m l = stop := by
  intro l
  induction l with
  | nil => intro _ _; simp [sizes_sum]
  | cons a rest ih =>
    intro prev h
    have h5 := h.2.2.2.2.1
    have h9 := ih a h.2.2.2.2.2.2.2.2
    unfold sizes_sum at h9 ⊢
    rw [List.map_cons, List.sum_cons, List.headD_cons]
    cases rest with
    | nil => simp at h5 h9 ⊢; omega
    | cons b r => simp at h5 h9 ⊢; omega

theorem Seg_no_adjacent {m : Mem} {stop : Nat} : ∀ (l : List Nat) (prev : Nat),
    Seg m stop prev l → ∀ a ∈ l, (m a).free ≠ 0 → (m a).next ≠ 0 →
      (m (m a).next).free = 0 := by
  intro l
  induction l with
  | nil => intro _ _ a ha; simp at ha
  | cons c rest ih =>
    intro prev h a ha hf hn
    obtain ⟨g1, g2, g3, g4, g5, g6, g7, g8, g9⟩ := h
    rcases List.mem_cons.mp ha with rfl | ha
    · cases rest with
      | nil => simp at g4; exact absurd g4 hn
      | cons b r =>
        simp at g4
        rw [g4]
        exact g8 hf b (by simp)
    · exact ih _ g9 a ha hf hn

/-- Two blocks of a run are equal or do not overlap. -/
theorem Seg_disjoint {m : Mem} {stop : Nat} : ∀ (l : List Nat) (prev : Nat),
    Seg m stop prev l → ∀ a ∈ l, ∀ b ∈ l, a ≠ b →
      a + (m a).size ≤ b ∨ b + (m b).size ≤ a := by
  intro l
  induction l with
  | nil => intro _ _ a ha; simp at ha
  | cons c rest ih =>
    intro prev h a ha b hb hab
    obtain ⟨g1, g2, g3, g4, g5, g6, g7, g8, g9⟩ := h
    have hfirst : ∀ y ∈ rest, c + (m c).size ≤ y := by
      intro y hy
      cases rest with
      | nil => simp at hy
      | cons d r =>
        simp at g5
        rcases List.mem_cons.mp hy with rfl | hy
        · omega
        · have := Seg_lt r d g9.2.2.2.2.2.2.2.2 y hy
          omega
    rcases List.mem_cons.mp ha with ha | ha
    · rcases List.mem_cons.mp hb with hb | hb
      · exact absurd (ha.trans hb.symm) hab
      · rw [ha]; exact Or.inl (hfirst b hb)
    · rcases List.mem_cons.mp hb with hb | hb
      · rw [hb]; exact Or.inr (hfirst a ha)
      · exact ih c g9 a ha b hb hab

/-- The headers of two distinct blocks of a run are at least 16 bytes apart. -/
theorem Seg_headers_apart {m : Mem} {stop : Nat} : ∀ (l : List Nat) (prev : Nat),
    Seg m stop prev l → ∀ a ∈ l, ∀ b ∈ l, a ≠ b → a + 16 ≤ b ∨ b + 16 ≤ a := by
  intro l
  induction l with
  | nil => intro _ _ a ha; simp at ha
  | cons c rest ih =>
    intro prev h a ha b hb hab
    obtain ⟨g1, g2, g3, g4, g5, g6, g7, g8, g9⟩ := h
    have hfirst : ∀ y ∈ rest, c + 16 ≤ y := by
      intro y hy
      have h16 : 16 ≤ (m c).size := g6 (List.ne_nil_of_mem hy)
      cases rest with
      | nil => simp at hy
      | cons d r =>
        simp at g5
        rcases List.mem_cons.mp hy with rfl | hy
        · omega
        · have := Seg_lt r d g9.2.2.2.2.2.2.2.2 y hy
          omega
    rcases List.mem_cons.mp ha with ha | ha
    · rcases List.mem_cons.mp hb with hb | hb
      · exact absurd (ha.trans hb.symm) hab
      · rw [ha]; exact Or.inl (hfirst b hb)
    · rcases List.mem_cons.mp hb with hb | hb
      · rw [hb]; exact Or.inr (hfirst a ha)
      · exact ih c g9 a ha b hb hab

theorem Seg_alloc_size {m : Mem} {stop : Nat} : ∀ (l : List Nat) (prev : Nat),
    Seg m stop prev l → ∀ a ∈ l, (m a).free = 0 → 16 ≤ (m a).size := by
  intro l
  induction l with
  | nil => intro _ _ a ha; simp at ha
  | cons c rest ih =>
    intro prev h a ha hf
    rcases List.mem_cons.mp ha with rfl | ha
    · exact h.2.2.2.2.2.2.1 hf
    · exact ih _ h.2.2.2.2.2.2.2.2 a ha hf

theorem Seg_ge_head {m : Mem} {stop : Nat} {l : List Nat} {start : Nat}
    (h : Seg m stop 0 l) (hh : l.head? = some start) : ∀ a ∈ l, start ≤ a := by
  cases l with
  | nil => simp at hh
  | cons c rest =>
    simp at hh; subst hh
    intro a ha
    rcases List.mem_cons.mp ha with rfl | ha
    · exact le_refl _
    · exact le_of_lt (Seg_lt rest c h.2.2.2.2.2.2.2.2 a ha)

theorem coalesce_free (m : Mem) (b x : Nat) : (coalesce m b x).free = (m x).free := by
  unfold coalesce
  split_ifs
  · rfl
  · simp [merge_prev_free, merge_next_free]

theorem free_free (s : Heap) (p : Nat) : free (free s p) p = free s p := by
  by_cases h1 : p = 0 ∨ s.heap_start = 0
  · have e : free s p = s := by rw [free_eq, if_pos h1]
    rw [e, e]
  · by_cases h2 : (s.mem (sub32 p HDR)).free ≠ 0
    · have e : free s p = s := by rw [free_eq, if_neg h1, if_pos h2]
      rw [e, e]
    · have e : free s p = { s with
          heap_used := sub32 s.heap_used (s.mem (sub32 p HDR)).size,
          mem := coalesce (set_free s.mem (sub32 p HDR) 1) (sub32 p HDR) } := by
        rw [free_eq, if_neg h1, if_neg h2]
      rw [e, free_eq]
      have hf : (coalesce (set_free s.mem (sub32 p HDR) 1) (sub32 p HDR) (sub32 p HDR)).free ≠ 0 := by
        rw [coalesce_free, set_free_free, if_pos rfl]; decide
      rw [if_neg h1, if_pos hf]

/-- What a `malloc` call does in a state that satisfies the invariant: either
nothing, or it takes the first block of the list that fits. -/
theorem malloc_first_fit {start size : Nat} {s s1 : Heap} {fuel n p : Nat} {l : List Nat}
    (e3 : s.free_list = start) (hh : l.head? = some start)
    (hl : Seg s.mem (start + size) 0 l)
    (h : malloc fuel s n = some (p, s1)) :
    (p = 0 ∧ s1 = s ∧ (n = 0 ∨ s.heap_start = 0 ∨ ∀ a ∈ l, fits s.mem (req_of n) a = false)) ∨
      ∃ b pre post, l = pre ++ b :: post ∧ (∀ a ∈ pre, fits s.mem (req_of n) a = false) ∧
        fits s.mem (req_of n) b = true ∧ p = add32 b HDR ∧
        s1 = alloc_state s b (req_of n) := by
  unfold malloc at h
  split_ifs at h with h1 h2
  · simp at h; exact Or.inl ⟨h.1.symm, h.2.symm, Or.inl h1⟩
  · simp at h; exact Or.inl ⟨h.1.symm, h.2.symm, Or.inr (Or.inl h2)⟩
  · have hmono := malloc_loop_mono _ _ _ _ _ h (l.length + 1)
    have heq := @malloc_loop_eq (req_of n) _ s l 0 (fuel + (l.length + 1)) hl (by omega)
    rw [Inv_head e3 hh, hmono] at heq
    cases hfind : l.find? (fits s.mem (req_of n)) with
    | none =>
      rw [hfind] at heq
      simp at heq
      refine Or.inl ⟨heq.1, heq.2, Or.inr (Or.inr ?_)⟩
      intro a ha
      have := List.find?_eq_none.mp hfind a ha
      simpa using this
    | some b =>
      rw [hfind] at heq
      simp at heq
      obtain ⟨hfit, pre, post, hdec, hpre⟩ := List.find?_eq_some.mp hfind
      refine Or.inr ⟨b, pre, post, hdec, ?_, hfit, heq.1, heq.2⟩
      intro a ha
      simpa using hpre a ha

theorem malloc_spec {start size : Nat} {s s1 : Heap} {fuel n p : Nat} {l : List Nat}
    (e3 : s.free_list = start) (hh : l.head? = some start)
    (hl : Seg s.mem (start + size) 0 l)
    (h : malloc fuel s n = some (p, s1)) :
    (p = 0 ∧ s1 = s) ∨
      ∃ b, b ∈ l ∧ fits s.mem (req_of n) b = true ∧ p = add32 b HDR ∧
        s1 = alloc_state s b (req_of n) := by
  unfold malloc at h
  split_ifs at h with h1 h2
  · simp at h; exact Or.inl ⟨h.1.symm, h.2.symm⟩
  · simp at h; exact Or.inl ⟨h.1.symm, h.2.symm⟩
  · have hmono := malloc_loop_mono _ _ _ _ _ h (l.length + 1)
    have heq := @malloc_loop_eq (req_of n) _ s l 0 (fuel + (l.length + 1)) hl (by omega)
    rw [Inv_head e3 hh, hmono] at heq
    cases hfind : l.find? (fits s.mem (req_of n)) with
    | none =>
      rw [hfind] at heq
      simp at heq
      exact Or.inl heq
    | some b =>
      rw [hfind] at heq
      simp at heq
      obtain ⟨hfit, pre, post, hdec, _⟩ := List.find?_eq_some.mp hfind
      exact Or.inr ⟨b, by rw [hdec]; simp, hfit, heq.1, heq.2⟩

/-- In a state that satisfies the invariant `malloc` returns, given enough fuel. -/
theorem malloc_total {start size : Nat} {s : Heap} (hs : Inv start size s) (n : Nat) :
    ∃ fuel p s1, malloc fuel s n = some (p, s1) := by
  obtain ⟨e1, e2, e3, l, hh, hl⟩ := hs
  refine ⟨l.length + 1, ?_⟩
  unfold malloc
  split_ifs
  · exact ⟨_, _, rfl⟩
  · exact ⟨_, _, rfl⟩
  · have heq := @malloc_loop_eq (req_of n) _ s l 0 (l.length + 1) hl (by omega)
    rw [Inv_head e3 hh] at heq
    exact ⟨_, _, heq⟩

theorem take_block_size_le (m : Mem) (b req : Nat) (h : req ≤ (m b).size) :
    (take_block m b req b).size ≤ (m b).size := by
  unfold take_block
  split_ifs
  · simp [split_block_size]; exact h
  · simp

/-! ### Concrete allocator states -/

theorem valid_4096_1024 : ValidRegion 4096 1024 := by
  unfold ValidRegion U32; omega

theorem heap0_reachable : Reachable 4096 1024 heap0 := Reachable.init zeroHeap

theorem heap1_reachable : Reachable 4096 1024 heap1 :=
  Reachable.malloc heap0 heap1 2 100 4112 heap0_reachable (by decide) rfl

theorem heap1_allocated : AllocatedPtr heap1 4112 :=
  ⟨4096, ⟨3, [4096, 4216], rfl, by simp⟩, rfl, rfl⟩

theorem heap3_reachable : Reachable 4096 1024 heap3 :=
  Reachable.malloc (malloc_state 4 heap1 100) heap3 4 100 4352
    (Reachable.malloc heap1 (malloc_state 4 heap1 100) 4 100 4232 heap1_reachable
      (by decide) rfl)
    (by decide) rfl

theorem heap3b_reachable : Reachable 4096 1024 heap3b :=
  Reachable.free (free heap3 4112) 4352
    (Reachable.free heap3 4112 heap3_reachable
      ⟨4096, ⟨5, [4096, 4216, 4336, 4456], rfl, by simp⟩, rfl, rfl⟩)
    ⟨4336, ⟨5, [4096, 4216, 4336, 4456], rfl, by simp⟩, rfl, rfl⟩

theorem heap3b_allocated : AllocatedPtr heap3b 4232 :=
  ⟨4216, ⟨4, [4096, 4216, 4336], rfl, by simp⟩, rfl, rfl⟩

/-- In `heap3b` both neighbours of the allocated block at 4216 are free, and
freeing it leaves the single block of 1024 bytes at 4096. -/
theorem heap3b_three_way_merge :
    (heap3b.mem 4096).free = 1 ∧ (heap3b.mem 4216).free = 0 ∧ (heap3b.mem 4336).free = 1 ∧
    block_list (free heap3b 4232).mem 2 (free heap3b 4232).free_list = some [4096] ∧
    ((free heap3b 4232).mem 4096).size = 1024 ∧ ((free heap3b 4232).mem 4096).free = 1 :=
  ⟨rfl, rfl, rfl, rfl, rfl, rfl⟩

/-! ### What `malloc` guarantees for requests that do not overflow -/

/-- Masking a 32-bit value with `0xFFFFFFF8` clears its three low bits. -/
theorem land_mask_eq (y : Nat) (hy : y < U32) : Nat.land y (U32 - 1 - (HEAP_ALIGN - 1)) = y - y % 8 := by
  have hM : U32 - 1 - (HEAP_ALIGN - 1) = (2 ^ 29 - 1) <<< 3 := by decide
  have hR : y - y % 8 = (y >>> 3) <<< 3 := by
    rw [Nat.shiftLeft_eq, Nat.shiftRight_eq_div_pow]
    have : (2 : Nat) ^ 3 = 8 := by norm_num
    rw [this]
    omega
  rw [hM, hR]
  show y &&& (2 ^ 29 - 1) <<< 3 = (y >>> 3) <<< 3
  apply Nat.eq_of_testBit_eq
  intro i
  rw [Nat.testBit_and, Nat.testBit_shiftLeft, Nat.testBit_shiftLeft, Nat.testBit_shiftRight,
    Nat.testBit_two_pow_sub_one]
  by_cases h3 : i ≥ 3
  · have e : 3 + (i - 3) = i := by omega
    rw [e]
    by_cases h32 : i - 3 < 29
    · simp [h3, h32]
    · have hlt : y < 2 ^ i := by
        have h1 : (2 : Nat) ^ 32 ≤ 2 ^ i := Nat.pow_le_pow_right (by norm_num) (by omega)
        have h2 : U32 = 2 ^ 32 := by decide
        omega
      simp [h3, h32, Nat.testBit_lt_two_pow hlt]
  · simp [h3]

/-- Without overflow `align_up` rounds up to a multiple of 8. -/
theorem align_up_eq (x : Nat) (hx : x + 7 < U32) : align_up x = x + 7 - (x + 7) % 8 := by
  unfold align_up
  have e : x + HEAP_ALIGN - 1 = x + 7 := by unfold HEAP_ALIGN; omega
  rw [e, Nat.mod_eq_of_lt hx]
  exact land_mask_eq _ hx

/-- For a request of at most `2^32 - 24` bytes the required size covers the
header and the payload. -/
theorem req_of_ge_request (n : Nat) (hn : n + 24 ≤ U32) : n + 16 ≤ req_of n := by
  unfold req_of
  have hU : U32 = 4294967296 := rfl
  have h1 : add32 HDR n = 16 + n := by
    unfold HDR; exact add32_eq (by omega)
  have h2 := align_up_eq (16 + n) (by omega)
  simp only [h1, MIN_ALLOC]
  split_ifs with h <;> omega

/-- The size of the chosen block after `malloc` has taken it is at least `req`. -/
theorem take_block_size_ge (m : Mem) (b req : Nat) (h : req ≤ (m b).size) :
    req ≤ (take_block m b req b).size := by
  unfold take_block
  split_ifs
  · simp [split_block_size]
  · simpa using h

/-- The counterpart of claim C3 that the code satisfies: in a reachable state a
request of `n ≤ 2^32 - 24` bytes that `malloc` answers with a non-null pointer
gets a block whose payload capacity is at least `n`. -/
theorem malloc_capacity (start size : Nat) (hv : ValidRegion start size) (s : Heap)
    (h : Reachable start size s) (fuel n p : Nat) (s1 : Heap) (hn : n + 24 ≤ U32)
    (hm : malloc fuel s n = some (p, s1)) (hp : p ≠ 0) :
    n + HDR ≤ (s1.mem (sub32 p HDR)).size := by
  obtain ⟨e1, e2, e3, l, hh, hl⟩ := reachable_inv hv h
  rcases malloc_spec e3 hh hl hm with ⟨h0, _⟩ | ⟨b, hbl, hfit, hpb, hs1⟩
  · exact absurd h0 hp
  · simp [fits] at hfit
    have hbU := Seg_lt_U32 l 0 hl b hbl
    have hblk : sub32 p HDR = b := by rw [hpb]; exact sub32_add32 hbU (by decide)
    have hsz : req_of n ≤ (s1.mem b).size := by
      rw [hs1]; exact take_block_size_ge s.mem b (req_of n) hfit.2
    have := req_of_ge_request n hn
    have hH : HDR = 16 := rfl
    rw [hblk]
    omega

/-! ### Termination of the list walks in reachable states -/

theorem mem_stats_loop_of_seg {m : Mem} {stop : Nat} : ∀ (l : List Nat) (prev fuel ft fc ac : Nat),
    Seg m stop prev l → l.length < fuel →
    ∃ r, mem_stats_loop m fuel (l.headD 0) ft fc ac = some r := by
  intro l
  induction l with
  | nil =>
    intro prev fuel ft fc ac _ hfuel
    obtain ⟨f, rfl⟩ : ∃ f, fuel = f + 1 := ⟨fuel - 1, by simp at hfuel; omega⟩
    exact ⟨(ft, fc, ac), by simp [mem_stats_loop]⟩
  | cons a rest ih =>
    intro prev fuel ft fc ac h hfuel
    obtain ⟨f, rfl⟩ : ∃ f, fuel = f + 1 := ⟨fuel - 1, by simp at hfuel; omega⟩
    have ha0 : a ≠ 0 := by have := h.1; omega
    have hnext : (m a).next = rest.headD 0 := h.2.2.2.1
    have hlen : rest.length < f := by simp at hfuel; omega
    simp only [List.headD_cons]
    unfold mem_stats_loop
    rw [if_neg ha0, hnext]
    split_ifs
    · exact ih a f _ _ _ h.2.2.2.2.2.2.2.2 hlen
    · exact ih a f _ _ _ h.2.2.2.2.2.2.2.2 hlen

/-- In every reachable state `malloc` and `mem_stats` return, given enough fuel. -/
theorem reachable_total (start size : Nat) (hv : ValidRegion start size) (s : Heap)
    (h : Reachable start size s) :
    (∀ n, ∃ fuel p s1, malloc fuel s n = some (p, s1)) ∧
    (∃ fuel st, mem_stats fuel s = some st) := by
  have hinv := reachable_inv hv h
  refine ⟨fun n => malloc_total hinv n, ?_⟩
  obtain ⟨e1, e2, e3, l, hh, hl⟩ := hinv
  obtain ⟨r, hr⟩ := mem_stats_loop_of_seg l 0 (l.length + 1) 0 0 0 hl (by omega)
  rw [Inv_head e3 hh] at hr
  refine ⟨l.length + 1, ⟨s.heap_size, s.heap_used, r.1, r.2.1, r.2.2⟩, ?_⟩
  unfold mem_stats
  rw [hr]

/-- In every reachable state no free block of the list is followed by a free
block, and the headers of distinct blocks are at least 16 bytes apart. -/
theorem reachable_list_shape (start size : Nat) (hv : ValidRegion start size) (s : Heap)
    (h : Reachable start size s) :
    NoAdjacentFree s ∧
    (∀ a b, InList s a → InList s b → a ≠ b → a + 16 ≤ b ∨ b + 16 ≤ a) := by
  obtain ⟨e1, e2, e3, l, hh, hl⟩ := reachable_inv hv h
  refine ⟨?_, ?_⟩
  · intro a ha hf hn
    exact Seg_no_adjacent l 0 hl a ((InList_iff e3 hh hl a).mp ha) hf hn
  · intro a b ha hb hab
    exact Seg_headers_apart l 0 hl a ((InList_iff e3 hh hl a).mp ha) b
      ((InList_iff e3 hh hl b).mp hb) hab

/-! ### The loop of `pick_next` -/

theorem pick_next_loop_inv (s : Sched) : ∀ n, PickInv s n (pick_next_loop s n) := by
  intro n
  induction n with
  | zero =>
    left
    exact ⟨rfl, rfl, fun j hj => absurd hj (Nat.not_lt_zero _)⟩
  | succ n ih =>
    unfold pick_next_loop
    simp only []
    by_cases he : eligible s (rot s n)
    · rw [if_pos he]
      by_cases hp : (s.pcbs (rot s n)).priority > (pick_next_loop s n).2
      · rw [if_pos hp]
        right
        refine ⟨n, Nat.lt_succ_self _, rfl, he, rfl, ?_, ?_, ?_⟩
        · rcases ih with ⟨_, h2, _⟩ | ⟨i, _, _, _, _, h5, _, _⟩
          · simp only []; rw [h2] at hp; exact hp
          · simp only []; exact lt_trans h5 hp
        · intro j hj hej
          simp only []
          rcases Nat.lt_succ_iff_lt_or_eq.mp hj with hj | hj
          · rcases ih with ⟨_, h2, h3⟩ | ⟨i, _, _, _, _, _, h6, _⟩
            · have := h3 j hj hej; rw [h2] at hp; exact le_of_lt (lt_of_le_of_lt this hp)
            · exact le_of_lt (lt_of_le_of_lt (h6 j hj hej) hp)
          · rw [hj]
        · intro j hj hej
          simp only []
          rcases ih with ⟨_, h2, h3⟩ | ⟨i, _, _, _, _, _, h6, _⟩
          · have := h3 j hj hej; rw [h2] at hp; exact lt_of_le_of_lt this hp
          · exact lt_of_le_of_lt (h6 j hj hej) hp
      · rw [if_neg hp]
        have hp' : (s.pcbs (rot s n)).priority ≤ (pick_next_loop s n).2 := not_lt.mp hp
        rcases ih with ⟨h1, h2, h3⟩ | ⟨i, h1, h2, h3, h4, h5, h6, h7⟩
        · left
          refine ⟨h1, h2, ?_⟩
          intro j hj hej
          rcases Nat.lt_succ_iff_lt_or_eq.mp hj with hj | hj
          · exact h3 j hj hej
          · rw [hj, ← h2]; exact hp'
        · right
          refine ⟨i, Nat.lt_succ_of_lt h1, h2, h3, h4, h5, ?_, h7⟩
          intro j hj hej
          rcases Nat.lt_succ_iff_lt_or_eq.mp hj with hj | hj
          · exact h6 j hj hej
          · rw [hj]; exact hp'
    · rw [if_neg he]
      rcases ih with ⟨h1, h2, h3⟩ | ⟨i, h1, h2, h3, h4, h5, h6, h7⟩
      · left
        refine ⟨h1, h2, ?_⟩
        intro j hj hej
        rcases Nat.lt_succ_iff_lt_or_eq.mp hj with hj | hj
        · exact h3 j hj hej
        · rw [hj] at hej; exact absurd hej he
      · right
        refine ⟨i, Nat.lt_succ_of_lt h1, h2, h3, h4, h5, ?_, h7⟩
        intro j hj hej
        rcases Nat.lt_succ_iff_lt_or_eq.mp hj with hj | hj
        · exact h6 j hj hej
        · rw [hj] at hej; exact absurd hej he

/-- Every slot index below `MAX_TASKS` is visited by the rotated scan. -/
theorem rot_surj (s : Sched) (x : Nat) (hx : x < MAX_TASKS) :
    ∃ j, j < MAX_TASKS ∧ rot s j = x := by
  refine ⟨(x + MAX_TASKS - (s.current + 1) % MAX_TASKS) % MAX_TASKS, Nat.mod_lt _ (by decide), ?_⟩
  unfold rot MAX_TASKS at *
  omega

/-! ### When `pick_next` returns -1 -/

/-- The counterpart of claim C10 that the code satisfies: `pick_next` returns
`-1` exactly when no eligible slot has a priority above `-1000000`. -/
theorem pick_next_none_iff (s : Sched) :
    pick_next s = -1 ↔
      ∀ x, x < MAX_TASKS → eligible s x → (s.pcbs x).priority ≤ -1000000 := by
  unfold pick_next
  rcases pick_next_loop_inv s MAX_TASKS with ⟨h1, _, h3⟩ | ⟨i, h1, h2, h3, h4, h5, _, _⟩
  · constructor
    · intro _ x hx hex
      obtain ⟨j, hj, rfl⟩ := rot_surj s x hx
      exact h3 j hj hex
    · intro _; exact h1
  · constructor
    · intro hneg
      rw [h2] at hneg
      have : (0 : Int) ≤ ((rot s i : Nat) : Int) := Int.ofNat_nonneg _
      omega
    · intro hall
      have hi : rot s i < MAX_TASKS := Nat.mod_lt _ (by decide)
      have := hall (rot s i) hi h3
      rw [← h4] at this
      omega

/-- Every result of `pick_next` is `-1` or a slot index below `MAX_TASKS`. -/
theorem pick_next_range (s : Sched) :
    pick_next s = -1 ∨ ∃ k, k < MAX_TASKS ∧ pick_next s = ((k : Nat) : Int) := by
  unfold pick_next
  rcases pick_next_loop_inv s MAX_TASKS with ⟨h1, _, _⟩ | ⟨i, _, h2, _, _, _, _, _⟩
  · exact Or.inl h1
  · exact Or.inr ⟨rot s i, Nat.mod_lt _ (by decide), h2⟩

/-! ### The scheduler invariant -/

@[simp] theorem set_pcb_pcbs (s : Sched) (i : Nat) (p : pcb_t) (j : Nat) :
    (set_pcb s i p).pcbs j = if j = i then p else s.pcbs j := rfl

@[simp] theorem set_pcb_current (s : Sched) (i : Nat) (p : pcb_t) :
    (set_pcb s i p).current = s.current := rfl

@[simp] theorem set_pcb_ticks (s : Sched) (i : Nat) (p : pcb_t) :
    (set_pcb s i p).ticks = s.ticks := rfl

@[simp] theorem set_pcb_next_pid (s : Sched) (i : Nat) (p : pcb_t) :
    (set_pcb s i p).next_pid = s.next_pid := rfl

/-- A non-negative result of `pick_next` is a slot that is `TASK_READY`. -/
theorem pick_next_ready (s : Sched) (h : ¬ pick_next s < 0) :
    ∃ k, k < MAX_TASKS ∧ pick_next s = ((k : Nat) : Int) ∧ (s.pcbs k).state = TASK_READY := by
  unfold pick_next at h ⊢
  rcases pick_next_loop_inv s MAX_TASKS with ⟨h1, _, _⟩ | ⟨i, _, h2, h3, _, _, _, _⟩
  · rw [h1] at h; exact absurd (by decide) h
  · exact ⟨rot s i, Nat.mod_lt _ (by decide), h2, h3.1⟩

/-- The slot that `exit_task` and `sleep_ticks` switch to is slot 0 or a slot
that is `TASK_READY`. -/
theorem next_slot_spec (s : Sched) :
    next_slot s < MAX_TASKS ∧ (next_slot s = 0 ∨ (s.pcbs (next_slot s)).state = TASK_READY) := by
  unfold next_slot
  by_cases h : pick_next s < 0
  · rw [if_pos h]; exact ⟨by decide, Or.inl rfl⟩
  · rw [if_neg h]
    obtain ⟨k, hk, e, hr⟩ := pick_next_ready s h
    rw [e, Int.toNat_ofNat]
    exact ⟨hk, Or.inr hr⟩

/-- The function `pick_next` reads the table and `ticks` only through
`eligible`, `priority` and `current`. -/
theorem pick_next_congr (s s1 : Sched) (hc : s1.current = s.current)
    (he : ∀ i, eligible s1 i ↔ eligible s i)
    (hp : ∀ i, (s1.pcbs i).priority = (s.pcbs i).priority) : pick_next s1 = pick_next s := by
  unfold pick_next
  have : ∀ n, pick_next_loop s1 n = pick_next_loop s n := by
    intro n
    induction n with
    | zero => rfl
    | succ n ih =>
      unfold pick_next_loop
      have hr : rot s1 n = rot s n := by unfold rot; rw [hc]
      simp only [ih, hr, hp]
      by_cases h : eligible s (rot s n)
      · rw [if_pos h, if_pos ((he _).mpr h)]
      · rw [if_neg h, if_neg (fun h1 => h ((he _).mp h1))]
  rw [this]

/-- The search of `create_task` returns `MAX_TASKS` or a free slot at or after
its start, before which no slot is free. -/
theorem find_free_spec (s : Sched) (fuel i : Nat) (h : MAX_TASKS ≤ i + fuel) :
    (find_free s fuel i = MAX_TASKS ∨ i ≥ MAX_TASKS ∨
      (find_free s fuel i < MAX_TASKS ∧ (s.pcbs (find_free s fuel i)).state = TASK_FREE)) ∧
    i ≤ find_free s fuel i ∧
    ∀ j, i ≤ j → j < find_free s fuel i → j < MAX_TASKS → (s.pcbs j).state ≠ TASK_FREE := by
  induction fuel generalizing i with
  | zero =>
    unfold find_free
    exact ⟨Or.inr (Or.inl (by omega)), le_refl _, fun j h1 h2 => absurd h2 (by omega)⟩
  | succ n ih =>
    unfold find_free
    by_cases h1 : i < MAX_TASKS
    · rw [if_pos h1]
      by_cases h2 : (s.pcbs i).state = TASK_FREE
      · rw [if_pos h2]
        exact ⟨Or.inr (Or.inr ⟨h1, h2⟩), le_refl _, fun j h3 h4 => absurd h4 (by omega)⟩
      · rw [if_neg h2]
        obtain ⟨a, b, c⟩ := ih (i + 1) (by omega)
        refine ⟨?_, by omega, ?_⟩
        · rcases a with a | a | a
          · exact Or.inl a
          · left
            have : i + 1 = MAX_TASKS := by omega
            rw [← this]
            cases n with
            | zero => rfl
            | succ m => unfold find_free; rw [if_neg (by omega)]
          · exact Or.inr (Or.inr a)
        · intro j h3 h4 h5
          by_cases h6 : j = i
          · rw [h6]; exact h2
          · exact c j (by omega) h4 h5
    · rw [if_neg h1]
      exact ⟨Or.inr (Or.inl (by omega)), le_refl _, fun j h3 h4 => absurd h4 (by omega)⟩

/-- The slot chosen by `create_task`: `MAX_TASKS`, or the lowest free slot among
`1 .. MAX_TASKS-1`. -/
theorem find_free_one (s : Sched) :
    (find_free s MAX_TASKS 1 = MAX_TASKS ∧
      ∀ j, 1 ≤ j → j < MAX_TASKS → (s.pcbs j).state ≠ TASK_FREE) ∨
    (1 ≤ find_free s MAX_TASKS 1 ∧ find_free s MAX_TASKS 1 < MAX_TASKS ∧
      (s.pcbs (find_free s MAX_TASKS 1)).state = TASK_FREE ∧
      ∀ j, 1 ≤ j → j < find_free s MAX_TASKS 1 → (s.pcbs j).state ≠ TASK_FREE) := by
  obtain ⟨a, b, c⟩ := find_free_spec s MAX_TASKS 1 (by omega)
  rcases a with a | a | a
  · left
    refine ⟨a, fun j h1 h2 => c j h1 (by omega) h2⟩
  · exact absurd a (by decide)
  · right
    exact ⟨b, a.1, a.2, fun j h1 h2 => c j h1 h2 (by omega)⟩

theorem create_task_full (s : Sched) (priority : Int) (h : find_free s MAX_TASKS 1 = MAX_TASKS) :
    create_task s priority = (-1, s) := by
  unfold create_task
  simp [h]

theorem create_task_found (s : Sched) (priority : Int) (h : find_free s MAX_TASKS 1 ≠ MAX_TASKS) :
    create_task s priority =
      (s.next_pid,
        { pcbs := fun j => if j = find_free s MAX_TASKS 1 then ⟨s.next_pid, TASK_READY, priority, 0⟩
                           else s.pcbs j,
          current := s.current, next_pid := s.next_pid + 1, ticks := s.ticks }) := by
  unfold create_task
  simp only [h, if_false, set_pcb]
  simp
  funext j
  by_cases hj : j = find_free s MAX_TASKS 1
  · simp [hj]
  · simp [hj]

theorem yield_none (s : Sched) (h : pick_next { s with ticks := add32 s.ticks 1 } < 0) :
    yield s = { s with ticks := add32 s.ticks 1 } := by
  unfold yield
  simp [h]

theorem yield_some (s : Sched) (k : Nat) (h : ¬ pick_next { s with ticks := add32 s.ticks 1 } < 0)
    (hk : pick_next { s with ticks := add32 s.ticks 1 } = ((k : Nat) : Int))
    (hne : k ≠ s.current) :
    yield s =
      { pcbs := fun j =>
          if j = s.current then
            { s.pcbs s.current with
              state := if (s.pcbs s.current).state = TASK_RUNNING then TASK_READY
                       else (s.pcbs s.current).state }
          else if j = k then { s.pcbs k with state := TASK_RUNNING }
          else s.pcbs j,
        current := k, next_pid := s.next_pid, ticks := add32 s.ticks 1 } := by
  unfold yield
  rw [hk] at h
  simp only [hk, h, if_false, set_pcb, Int.toNat_ofNat, if_neg (Ne.symm hne)]

theorem exit_task_eq (s : Sched) :
    exit_task s =
      set_pcb { exit_mark s with current := next_slot (exit_mark s) } (next_slot (exit_mark s))
        { (exit_mark s).pcbs (next_slot (exit_mark s)) with state := TASK_RUNNING } := rfl

theorem sleep_ticks_eq (s : Sched) (t : Nat) :
    sleep_ticks s t =
      set_pcb { sleep_mark s t with current := next_slot (sleep_mark s t) }
        (next_slot (sleep_mark s t))
        { (sleep_mark s t).pcbs (next_slot (sleep_mark s t)) with state := TASK_RUNNING } := rfl

theorem exit_mark_state (s : Sched) (j : Nat) :
    ((exit_mark s).pcbs j).state = if j = s.current then TASK_ZOMBIE else (s.pcbs j).state := by
  unfold exit_mark
  by_cases h : j = s.current <;> simp [h]

theorem sleep_mark_state (s : Sched) (t j : Nat) :
    ((sleep_mark s t).pcbs j).state = if j = s.current then TASK_BLOCKED else (s.pcbs j).state := by
  unfold sleep_mark
  by_cases h : j = s.current <;> simp [h]

theorem add32_lt (a b : Nat) : add32 a b < U32 := by
  unfold add32
  exact Nat.mod_lt _ (by decide)

theorem sched_init_inv : SchedInv (sched_init sched_boot) := by
  have hs : ∀ i, ((sched_init sched_boot).pcbs i).state = if i = 0 then TASK_RUNNING else TASK_FREE := by
    intro i
    unfold sched_init sched_boot
    by_cases h : i = 0 <;> simp [h]
  refine ⟨by decide, by rw [hs]; rfl, ?_, by decide, ?_, by rw [hs]; simp, by decide⟩
  · intro i h
    rw [hs] at h
    by_cases h0 : i = 0
    · rw [h0]; rfl
    · rw [if_neg h0] at h; exact absurd h (by decide)
  · intro i h1 h2
    rw [hs, if_neg (by omega)]
    have : (sched_init sched_boot).next_pid = 1 := rfl
    rw [this]
    simp
    omega

theorem create_task_inv (s : Sched) (priority : Int) (h : SchedInv s) :
    SchedInv (create_task s priority).2 ∧
    (find_free s MAX_TASKS 1 ≠ MAX_TASKS → ((find_free s MAX_TASKS 1 : Nat) : Int) = s.next_pid) := by
  obtain ⟨i1, i2, i3, i4, i5, i6, i7⟩ := h
  rcases find_free_one s with ⟨e, _⟩ | ⟨f1, f2, f3, f4⟩
  · rw [create_task_full s priority e]
    exact ⟨⟨i1, i2, i3, i4, i5, i6, i7⟩, fun h => absurd e h⟩
  · have hne : find_free s MAX_TASKS 1 ≠ MAX_TASKS := by omega
    rw [create_task_found s priority hne]
    generalize find_free s MAX_TASKS 1 = i at *
    have hle : s.next_pid ≤ (i : Int) := (i5 i f1 f2).mp f3
    have heq : (i : Int) = s.next_pid := by
      by_contra hc
      have hlt : s.next_pid < (i : Int) := by omega
      have h1 := f4 s.next_pid.toNat (by omega) (by omega)
      have h2 := (i5 s.next_pid.toNat (by omega) (by unfold MAX_TASKS at *; omega)).mpr (by omega)
      exact h1 h2
    have hic : s.current ≠ i := by
      intro e
      rw [e, f3] at i2
      exact absurd i2 (by decide)
    refine ⟨⟨i1, ?_, ?_, ?_, ?_, ?_, i7⟩, fun _ => heq⟩
    · simp only [if_neg hic]; exact i2
    · intro j hj
      simp only at hj
      by_cases e : j = i
      · rw [if_pos e] at hj; simp at hj
      · rw [if_neg e] at hj; exact i3 j hj
    · simp only
      unfold MAX_TASKS at f2
      omega
    · intro j h1 h2
      simp only
      by_cases e : j = i
      · rw [if_pos e]
        simp
        omega
      · rw [if_neg e, i5 j h1 h2]
        omega
    · simp only
      rw [if_neg (by omega)]
      exact i6

theorem yield_inv (s : Sched) (h : SchedInv s) : SchedInv (yield s) := by
  obtain ⟨i1, i2, i3, i4, i5, i6, i7⟩ := h
  by_cases hp : pick_next { s with ticks := add32 s.ticks 1 } < 0
  · rw [yield_none s hp]
    exact ⟨i1, i2, i3, i4, i5, i6, add32_lt _ _⟩
  · obtain ⟨k, hk, e, hr⟩ := pick_next_ready _ hp
    have hr1 : (s.pcbs k).state = TASK_READY := hr
    have hne : k ≠ s.current := by
      intro e1
      rw [e1, i2] at hr1
      exact absurd hr1 (by decide)
    rw [yield_some s k hp e hne]
    refine ⟨hk, ?_, ?_, i4, ?_, ?_, add32_lt _ _⟩
    · simp [hne]
    · intro j hj
      simp only at hj
      by_cases e1 : j = s.current
      · rw [if_pos e1, i2] at hj; simp at hj
      · rw [if_neg e1] at hj
        by_cases e2 : j = k
        · exact e2
        · rw [if_neg e2] at hj
          exact absurd (i3 j hj) e1
    · intro j h1 h2
      rw [← i5 j h1 h2]
      simp only
      by_cases e1 : j = s.current
      · rw [if_pos e1, e1, i2]; simp
      · rw [if_neg e1]
        by_cases e2 : j = k
        · rw [if_pos e2, e2, hr1]; simp
        · rw [if_neg e2]
    · simp only
      by_cases e1 : 0 = s.current
      · rw [if_pos e1, i2]; simp
      · rw [if_neg e1]
        by_cases e2 : 0 = k
        · rw [if_pos e2]; simp
        · rw [if_neg e2]; exact i6

theorem switch_inv (s m : Sched) (X : task_state_t)
    (hX : X ≠ TASK_RUNNING ∧ X ≠ TASK_FREE ∧ X ≠ TASK_READY)
    (hm : ∀ j, (m.pcbs j).state = if j = s.current then X else (s.pcbs j).state)
    (hn : m.next_pid = s.next_pid) (ht : m.ticks = s.ticks) (h : SchedInv s) :
    SchedInv (set_pcb { m with current := next_slot m } (next_slot m)
        { m.pcbs (next_slot m) with state := TASK_RUNNING }) := by
  obtain ⟨i1, i2, i3, i4, i5, i6, i7⟩ := h
  obtain ⟨n1, n2⟩ := next_slot_spec m
  generalize next_slot m = n at *
  have hst : ∀ j, ((set_pcb { m with current := n } n
      { m.pcbs n with state := TASK_RUNNING }).pcbs j).state =
      if j = n then TASK_RUNNING else if j = s.current then X else (s.pcbs j).state := by
    intro j
    by_cases e : j = n
    · simp [e]
    · simp [e, hm]
  have hn0 : n = 0 ∨ (n ≠ s.current ∧ (s.pcbs n).state = TASK_READY) := by
    rcases n2 with n2 | n2
    · exact Or.inl n2
    · right
      rw [hm] at n2
      by_cases e : n = s.current
      · rw [if_pos e] at n2; exact absurd n2 hX.2.2
      · rw [if_neg e] at n2; exact ⟨e, n2⟩
  refine ⟨n1, ?_, ?_, ?_, ?_, ?_, ?_⟩
  · rw [hst]; simp
  · intro j hj
    rw [hst] at hj
    by_cases e : j = n
    · exact e
    · rw [if_neg e] at hj
      by_cases e1 : j = s.current
      · rw [if_pos e1] at hj; exact absurd hj hX.1
      · rw [if_neg e1] at hj; exact absurd (i3 j hj) e1
  · show 1 ≤ m.next_pid ∧ m.next_pid ≤ 16
    rw [hn]; exact i4
  · intro j h1 h2
    rw [hst]
    show _ ↔ m.next_pid ≤ (j : Int)
    rw [hn, ← i5 j h1 h2]
    by_cases e : j = n
    · rw [if_pos e]
      rcases hn0 with h0 | ⟨_, h0⟩
      · omega
      · rw [e, h0]; simp
    · rw [if_neg e]
      by_cases e1 : j = s.current
      · rw [if_pos e1, e1, i2]
        constructor
        · intro hh; exact absurd hh hX.2.1
        · intro hh; exact absurd hh (by decide)
      · rw [if_neg e1]
  · rw [hst]
    by_cases e : 0 = n
    · rw [if_pos e]; decide
    · rw [if_neg e]
      by_cases e1 : 0 = s.current
      · rw [if_pos e1]; exact hX.2.1
      · rw [if_neg e1]; exact i6
  · show m.ticks < U32
    rw [ht]; exact i7

theorem exit_task_inv (s : Sched) (h : SchedInv s) : SchedInv (exit_task s) := by
  rw [exit_task_eq]
  exact switch_inv s (exit_mark s) TASK_ZOMBIE (by decide) (exit_mark_state s) rfl rfl h

theorem sleep_ticks_inv (s : Sched) (t : Nat) (h : SchedInv s) : SchedInv (sleep_ticks s t) := by
  rw [sleep_ticks_eq]
  exact switch_inv s (sleep_mark s t) TASK_BLOCKED (by decide) (sleep_mark_state s t) rfl rfl h

theorem sched_apply_inv (s : Sched) (op : sched_op) (h : SchedInv s) :
    SchedInv (sched_apply s op) := by
  cases op with
  | create priority => exact (create_task_inv s priority h).1
  | yield => exact yield_inv s h
  | sleep t => exact sleep_ticks_inv s t h
  | exit => exact exit_task_inv s h

theorem sched_run_inv (ops : List sched_op) (s : Sched) (h : SchedInv s) :
    SchedInv (sched_run s ops) := by
  induction ops generalizing s with
  | nil => exact h
  | cons op ops ih => exact ih _ (sched_apply_inv s op h)

/-- Every scheduler state reachable from `sched_init` satisfies the invariant. -/
theorem sched_reachable_inv (s : Sched) (h : SchedReachable s) : SchedInv s := by
  obtain ⟨ops, e⟩ := h
  rw [← e]
  exact sched_run_inv ops _ sched_init_inv

theorem sched_run_append (s : Sched) (a b : List sched_op) :
    sched_run s (a ++ b) = sched_run (sched_run s a) b := by
  induction a generalizing s with
  | nil => rfl
  | cons op a ih => exact ih _

theorem sched_reachable_run (s : Sched) (ops : List sched_op) (h : SchedReachable s) :
    SchedReachable (sched_run s ops) := by
  obtain ⟨o, e⟩ := h
  exact ⟨o ++ ops, by rw [sched_run_append, e]⟩

/-! ### Sleeping slots, the tick counter and the id counter along a run -/

theorem switch_parked (m : Sched) (k : Nat) (hk : k ≠ 0)
    (hmk : (m.pcbs k).state = TASK_BLOCKED) :
    Parked (set_pcb { m with current := next_slot m } (next_slot m)
        { m.pcbs (next_slot m) with state := TASK_RUNNING }) k := by
  obtain ⟨_, n2⟩ := next_slot_spec m
  generalize next_slot m = n at *
  have hnk : n ≠ k := by
    rcases n2 with n2 | n2
    · omega
    · intro e
      rw [e, hmk] at n2
      exact absurd n2 (by decide)
  refine ⟨hk, ?_, hnk⟩
  simp [Ne.symm hnk, hmk]

/-- After `sleep_ticks` from a slot other than slot 0, that slot is parked. -/
theorem sleep_ticks_parks (s : Sched) (t : Nat) (h0 : s.current ≠ 0) :
    Parked (sleep_ticks s t) s.current := by
  rw [sleep_ticks_eq]
  exact switch_parked _ _ h0 (by rw [sleep_mark_state, if_pos rfl])

/-- A parked slot stays parked under every call of the scheduler interface. -/
theorem sched_apply_parked (s : Sched) (op : sched_op) (k : Nat) (hi : SchedInv s)
    (h : Parked s k) : Parked (sched_apply s op) k := by
  obtain ⟨hk, hb, hc⟩ := h
  cases op with
  | create priority =>
    show Parked (create_task s priority).2 k
    rcases find_free_one s with ⟨e, _⟩ | ⟨f1, f2, f3, f4⟩
    · rw [create_task_full s priority e]; exact ⟨hk, hb, hc⟩
    · rw [create_task_found s priority (by omega)]
      have hne : k ≠ find_free s MAX_TASKS 1 := by
        intro e
        rw [← e, hb] at f3
        exact absurd f3 (by decide)
      exact ⟨hk, by simp only [if_neg hne]; exact hb, hc⟩
  | yield =>
    show Parked (yield s) k
    by_cases hp : pick_next { s with ticks := add32 s.ticks 1 } < 0
    · rw [yield_none s hp]; exact ⟨hk, hb, hc⟩
    · obtain ⟨n, _, e, hr⟩ := pick_next_ready _ hp
      have hr1 : (s.pcbs n).state = TASK_READY := hr
      have hne : n ≠ s.current := by
        intro e1
        rw [e1, hi.2.1] at hr1
        exact absurd hr1 (by decide)
      have hnk : k ≠ n := by
        intro e1
        rw [← e1, hb] at hr1
        exact absurd hr1 (by decide)
      rw [yield_some s n hp e hne]
      exact ⟨hk, by simp only [if_neg (Ne.symm hc), if_neg hnk]; exact hb, Ne.symm hnk⟩
  | sleep t =>
    show Parked (sleep_ticks s t) k
    rw [sleep_ticks_eq]
    exact switch_parked _ _ hk (by rw [sleep_mark_state, if_neg (Ne.symm hc)]; exact hb)
  | exit =>
    show Parked (exit_task s) k
    rw [exit_task_eq]
    exact switch_parked _ _ hk (by rw [exit_mark_state, if_neg (Ne.symm hc)]; exact hb)

theorem sched_run_parked (ops : List sched_op) (s : Sched) (k : Nat) (hi : SchedInv s)
    (h : Parked s k) : Parked (sched_run s ops) k := by
  induction ops generalizing s with
  | nil => exact h
  | cons op ops ih => exact ih _ (sched_apply_inv s op hi) (sched_apply_parked s op k hi h)

theorem yield_ticks (s : Sched) : (yield s).ticks = add32 s.ticks 1 := by
  unfold yield
  simp only
  split_ifs <;> rfl

theorem create_task_ticks (s : Sched) (priority : Int) :
    (create_task s priority).2.ticks = s.ticks := by
  unfold create_task
  simp only
  split_ifs <;> rfl

theorem sched_run_ticks (ops : List sched_op) (s : Sched) (h : s.ticks < U32) :
    (sched_run s ops).ticks = (s.ticks + yield_count ops) % U32 := by
  induction ops generalizing s with
  | nil =>
    show s.ticks = (s.ticks + 0) % U32
    rw [Nat.add_zero, Nat.mod_eq_of_lt h]
  | cons op ops ih =>
    cases op with
    | create priority =>
      show (sched_run (create_task s priority).2 ops).ticks = (s.ticks + yield_count ops) % U32
      rw [ih _ (by rw [create_task_ticks]; exact h), create_task_ticks]
    | yield =>
      show (sched_run (yield s) ops).ticks = (s.ticks + (yield_count ops + 1)) % U32
      rw [ih _ (by rw [yield_ticks]; exact add32_lt _ _), yield_ticks]
      unfold add32
      rw [Nat.mod_add_mod]
      congr 1
      omega
    | sleep t =>
      show (sched_run (sleep_ticks s t) ops).ticks = (s.ticks + yield_count ops) % U32
      rw [ih _ (show (sleep_ticks s t).ticks < U32 from h)]
      rfl
    | exit =>
      show (sched_run (exit_task s) ops).ticks = (s.ticks + yield_count ops) % U32
      rw [ih _ (show (exit_task s).ticks < U32 from h)]
      rfl

theorem yield_count_replicate (n : Nat) : yield_count (List.replicate n sched_op.yield) = n := by
  induction n with
  | zero => rfl
  | succ n ih =>
    rw [List.replicate_succ]
    show yield_count (List.replicate n sched_op.yield) + 1 = n + 1
    rw [ih]

theorem create_task_ret (s : Sched) (priority : Int) :
    ((create_task s priority).1 = -1 ∧ (create_task s priority).2 = s ∧
      find_free s MAX_TASKS 1 = MAX_TASKS) ∨
    ((create_task s priority).1 = s.next_pid ∧
      (create_task s priority).2.next_pid = s.next_pid + 1 ∧
      find_free s MAX_TASKS 1 ≠ MAX_TASKS) := by
  by_cases h : find_free s MAX_TASKS 1 = MAX_TASKS
  · left; rw [create_task_full s priority h]; exact ⟨rfl, rfl, h⟩
  · right; rw [create_task_found s priority h]; exact ⟨rfl, rfl, h⟩

/-- The id counter never decreases along a run. -/
theorem sched_run_next_pid (ops : List sched_op) (s : Sched) :
    s.next_pid ≤ (sched_run s ops).next_pid := by
  induction ops generalizing s with
  | nil => exact le_refl _
  | cons op ops ih =>
    refine le_trans ?_ (ih _)
    cases op with
    | create priority =>
      show s.next_pid ≤ (create_task s priority).2.next_pid
      rcases create_task_ret s priority with ⟨_, e, _⟩ | ⟨_, e, _⟩
      · rw [e]
      · rw [e]; omega
    | yield =>
      show s.next_pid ≤ (yield s).next_pid
      unfold yield
      simp only
      split_ifs <;> exact le_refl _
    | sleep t => exact le_refl _
    | exit => exact le_refl _

/-- The tick counter after `n` calls of `yield` from `sched_init`, and after
one more, when `n` is 4294967295 modulo 2^32. -/
theorem yields_wrap (n : Nat) (h : n % U32 = 4294967295) :
    SchedReachable (sched_run (sched_init sched_boot) (List.replicate n sched_op.yield)) ∧
    sched_get_ticks (sched_run (sched_init sched_boot) (List.replicate n sched_op.yield))
      = 4294967295 ∧
    sched_get_ticks
      (yield (sched_run (sched_init sched_boot) (List.replicate n sched_op.yield))) = 0 := by
  have e : (sched_run (sched_init sched_boot) (List.replicate n sched_op.yield)).ticks
      = 4294967295 := by
    rw [sched_run_ticks _ _ sched_init_inv.2.2.2.2.2.2, yield_count_replicate]
    show (0 + n) % U32 = 4294967295
    rw [Nat.zero_add, h]
  refine ⟨⟨List.replicate n sched_op.yield, rfl⟩, e, ?_⟩
  generalize sched_run (sched_init sched_boot) (List.replicate n sched_op.yield) = s at *
  show (yield s).ticks = 0
  rw [yield_ticks, e]
  rfl

/-! ### The process table -/

@[simp] theorem set_proc_procs (s : Procs) (i : Nat) (p : process_t) (j : Nat) :
    (set_proc s i p).procs j = if j = i then p else s.procs j := rfl

@[simp] theorem set_proc_next_pid (s : Procs) (i : Nat) (p : process_t) :
    (set_proc s i p).next_pid = s.next_pid := rfl

@[simp] theorem set_proc_current_pid (s : Procs) (i : Nat) (p : process_t) :
    (set_proc s i p).current_pid = s.current_pid := rfl

@[simp] theorem set_proc_heap (s : Procs) (i : Nat) (p : process_t) :
    (set_proc s i p).heap = s.heap := rfl

@[simp] theorem set_proc_calls (s : Procs) (i : Nat) (p : process_t) :
    (set_proc s i p).calls = s.calls := rfl

theorem set_proc_set_proc (s : Procs) (i : Nat) (p q : process_t) :
    set_proc (set_proc s i p) i q = set_proc s i q := by
  unfold set_proc
  simp only
  congr 1
  funext j
  by_cases h : j = i <;> simp [h]

theorem proc_create_eq (fuel : Nat) (s : Procs) (ppid : Int) :
    proc_create fuel s ppid =
      if proc_find_free s MAX_PROCESSES 1 = MAX_PROCESSES then some (-1, s)
      else
        match malloc fuel s.heap PROC_STACK_SIZE with
        | none => none
        | some (stk, h1) =>
          if stk = 0 then
            some (-1, create_stack (create_fill s (proc_find_free s MAX_PROCESSES 1) ppid)
              (proc_find_free s MAX_PROCESSES 1) stk h1)
          else
            some (s.next_pid,
              create_register
                (create_esp
                  (create_stack (create_fill s (proc_find_free s MAX_PROCESSES 1) ppid)
                    (proc_find_free s MAX_PROCESSES 1) stk h1)
                  (proc_find_free s MAX_PROCESSES 1) stk)
                ppid s.next_pid) := rfl

theorem create_fill_procs (s : Procs) (i : Nat) (ppid : Int) (j : Nat) :
    (create_fill s i ppid).procs j =
      if j = i then
        { s.procs i with pid := s.next_pid, ppid := ppid, state := PROC_CREATED, exit_code := 0,
                         child_count := 0, cpu_ticks := 0 }
      else s.procs j := by
  unfold create_fill
  by_cases h : j = i <;> simp [h]

/-- The slots of the table just before the registration step of `proc_create`. -/
theorem create_esp_procs (s : Procs) (i : Nat) (ppid : Int) (stk : Nat) (h1 : Heap) (j : Nat) :
    (create_esp (create_stack (create_fill s i ppid) i stk h1) i stk).procs j =
      if j = i then
        { s.procs i with pid := s.next_pid, ppid := ppid, state := PROC_CREATED, exit_code := 0,
                         child_count := 0, cpu_ticks := 0, stack := stk,
                         esp := add32 stk PROC_STACK_SIZE }
      else s.procs j := by
  unfold create_esp create_stack
  by_cases h : j = i <;> simp [h, create_fill_procs]

theorem create_stack_procs (s : Procs) (i : Nat) (ppid : Int) (stk : Nat) (h1 : Heap) (j : Nat) :
    (create_stack (create_fill s i ppid) i stk h1).procs j =
      if j = i then
        { s.procs i with pid := s.next_pid, ppid := ppid, state := PROC_CREATED, exit_code := 0,
                         child_count := 0, cpu_ticks := 0, stack := stk }
      else s.procs j := by
  unfold create_stack
  by_cases h : j = i <;> simp [h, create_fill_procs]

theorem create_register_procs (s : Procs) (ppid pid : Int) (j : Nat) :
    (create_register s ppid pid).procs j =
      if (ppid ≥ 0 ∧ ppid < MAX_PROCESSES ∧ (s.procs ppid.toNat).pid = ppid) ∧
          (s.procs ppid.toNat).child_count < MAX_CHILDREN ∧ j = ppid.toNat then
        { s.procs j with
          child_count := (s.procs j).child_count + 1,
          children := fun k => if k = (s.procs j).child_count then pid
                               else (s.procs j).children k }
      else s.procs j := by
  unfold create_register
  by_cases h1 : ppid ≥ 0 ∧ ppid < MAX_PROCESSES ∧ (s.procs ppid.toNat).pid = ppid
  · by_cases h2 : (s.procs ppid.toNat).child_count < MAX_CHILDREN
    · by_cases h3 : j = ppid.toNat
      · subst h3
        simp [h1, h2]
      · simp [h1, h2, h3]
    · simp [h1, h2]
  · simp [h1]

theorem create_register_globals (s : Procs) (ppid pid : Int) :
    (create_register s ppid pid).next_pid = s.next_pid ∧
    (create_register s ppid pid).current_pid = s.current_pid ∧
    (create_register s ppid pid).calls = s.calls ∧
    (create_register s ppid pid).heap = s.heap := by
  unfold create_register
  by_cases h1 : ppid ≥ 0 ∧ ppid < MAX_PROCESSES ∧ (s.procs ppid.toNat).pid = ppid
  · by_cases h2 : (s.procs ppid.toNat).child_count < MAX_CHILDREN
    · rw [if_pos h1]
      simp only [if_pos h2]
      exact ⟨rfl, rfl, rfl, rfl⟩
    · rw [if_pos h1]
      simp only [if_neg h2]
      exact ⟨trivial, trivial, trivial, trivial⟩
  · rw [if_neg h1]
    exact ⟨rfl, rfl, rfl, rfl⟩

/-- The effect of a `proc_create` that returns: either no slot is free and
nothing changes, or the first free slot `i` is filled, `next_pid` is
incremented, and, when the stack was allocated, the child is registered. -/
theorem proc_create_cases (fuel : Nat) (s : Procs) (ppid : Int) (r : Int) (s1 : Procs)
    (h : proc_create fuel s ppid = some (r, s1)) :
    (proc_find_free s MAX_PROCESSES 1 = MAX_PROCESSES ∧ r = -1 ∧ s1 = s) ∨
    (proc_find_free s MAX_PROCESSES 1 ≠ MAX_PROCESSES ∧
      ∃ stk h1, malloc fuel s.heap PROC_STACK_SIZE = some (stk, h1) ∧
        ((stk = 0 ∧ r = -1 ∧
            s1 = create_stack (create_fill s (proc_find_free s MAX_PROCESSES 1) ppid)
                  (proc_find_free s MAX_PROCESSES 1) stk h1) ∨
         (stk ≠ 0 ∧ r = s.next_pid ∧
            s1 = create_register
                  (create_esp
                    (create_stack (create_fill s (proc_find_free s MAX_PROCESSES 1) ppid)
                      (proc_find_free s MAX_PROCESSES 1) stk h1)
                    (proc_find_free s MAX_PROCESSES 1) stk)
                  ppid s.next_pid))) := by
  rw [proc_create_eq] at h
  by_cases hi : proc_find_free s MAX_PROCESSES 1 = MAX_PROCESSES
  · rw [if_pos hi] at h
    injection h with h
    injection h with h1 h2
    exact Or.inl ⟨hi, h1.symm, h2.symm⟩
  · rw [if_neg hi] at h
    right
    refine ⟨hi, ?_⟩
    cases hm : malloc fuel s.heap PROC_STACK_SIZE with
    | none => rw [hm] at h; exact absurd h (by simp)
    | some p =>
      obtain ⟨stk, h1⟩ := p
      rw [hm] at h
      refine ⟨stk, h1, rfl, ?_⟩
      by_cases hz : stk = 0
      · simp only [if_pos hz] at h
        injection h with h
        injection h with e1 e2
        exact Or.inl ⟨hz, e1.symm, e2.symm⟩
      · simp only [if_neg hz] at h
        injection h with h
        injection h with e1 e2
        exact Or.inr ⟨hz, e1.symm, e2.symm⟩

/-- The search loop of `proc_wait` and `proc_signal_send` returns the first
slot holding `pid`, or `MAX_PROCESSES` when no slot does. -/
theorem proc_find_pid_spec (s : Procs) (pid : Int) (fuel i : Nat) (h : MAX_PROCESSES ≤ i + fuel)
    (hi : i ≤ MAX_PROCESSES) :
    (proc_find_pid s pid fuel i = MAX_PROCESSES ∨
      (proc_find_pid s pid fuel i < MAX_PROCESSES ∧
        (s.procs (proc_find_pid s pid fuel i)).pid = pid)) ∧
    i ≤ proc_find_pid s pid fuel i ∧
    ∀ j, i ≤ j → j < proc_find_pid s pid fuel i → (s.procs j).pid ≠ pid := by
  induction fuel generalizing i with
  | zero =>
    unfold proc_find_pid
    exact ⟨Or.inl (by omega), le_refl _, fun j h1 h2 => absurd h2 (by omega)⟩
  | succ n ih =>
    unfold proc_find_pid
    by_cases h1 : i < MAX_PROCESSES
    · rw [if_pos h1]
      by_cases h2 : (s.procs i).pid = pid
      · rw [if_pos h2]
        exact ⟨Or.inr ⟨h1, h2⟩, le_refl _, fun j h3 h4 => absurd h4 (by omega)⟩
      · rw [if_neg h2]
        obtain ⟨a, b, c⟩ := ih (i + 1) (by omega) (by omega)
        refine ⟨a, by omega, ?_⟩
        intro j h3 h4
        by_cases h6 : j = i
        · rw [h6]; exact h2
        · exact c j (by omega) h4
    · rw [if_neg h1]
      exact ⟨Or.inl (by omega), le_refl _, fun j h3 h4 => absurd h4 (by omega)⟩

theorem proc_find_pid_cases (s : Procs) (pid : Int) :
    (proc_find_pid s pid MAX_PROCESSES 0 = MAX_PROCESSES ∧
      ∀ j, j < MAX_PROCESSES → (s.procs j).pid ≠ pid) ∨
    (proc_find_pid s pid MAX_PROCESSES 0 < MAX_PROCESSES ∧
      (s.procs (proc_find_pid s pid MAX_PROCESSES 0)).pid = pid ∧
      ∀ j, j < proc_find_pid s pid MAX_PROCESSES 0 → (s.procs j).pid ≠ pid) := by
  obtain ⟨a, _, c⟩ := proc_find_pid_spec s pid MAX_PROCESSES 0 (by omega) (by omega)
  rcases a with a | a
  · left
    exact ⟨a, fun j hj => c j (by omega) (by omega)⟩
  · right
    exact ⟨a.1, a.2, fun j hj => c j (by omega) hj⟩

theorem proc_wait_eq (s : Procs) (pid : Int) :
    proc_wait s pid =
      if proc_find_pid s pid MAX_PROCESSES 0 = MAX_PROCESSES then (-1, none, s)
      else if (s.procs (proc_find_pid s pid MAX_PROCESSES 0)).state = PROC_ZOMBIE then
        (0, some (s.procs (proc_find_pid s pid MAX_PROCESSES 0)).exit_code,
          set_proc s (proc_find_pid s pid MAX_PROCESSES 0)
            { s.procs (proc_find_pid s pid MAX_PROCESSES 0) with state := PROC_FREE, pid := -1 })
      else (-1, none, s) := by
  unfold proc_wait
  simp only
  split_ifs
  · rfl
  · rw [set_proc_set_proc]
    simp
  · rfl

theorem proc_exit_procs (s : Procs) (code : Int) (j : Nat) :
    (proc_exit s code).procs j =
      if j = s.current_pid then
        { s.procs j with exit_code := code, state := PROC_ZOMBIE, stack := 0 }
      else s.procs j := by
  unfold proc_exit
  by_cases h : j = s.current_pid
  · subst h
    by_cases hs : (s.procs s.current_pid).stack = 0
    · simp [hs]
    · simp [hs]
  · by_cases hs : (s.procs s.current_pid).stack = 0
    · simp [hs, h]
    · simp [hs, h]

theorem proc_exit_globals (s : Procs) (code : Int) :
    (proc_exit s code).next_pid = s.next_pid ∧
    (proc_exit s code).current_pid = s.current_pid ∧
    (proc_exit s code).calls = s.calls := by
  unfold proc_exit
  by_cases hs : (s.procs s.current_pid).stack = 0
  · simp [hs]
  · simp [hs]

theorem proc_signal_register_procs (s : Procs) (sig : Int) (handler : Nat) (j : Nat) :
    ((proc_signal_register s sig handler).procs j).pid = (s.procs j).pid ∧
    ((proc_signal_register s sig handler).procs j).ppid = (s.procs j).ppid ∧
    ((proc_signal_register s sig handler).procs j).state = (s.procs j).state ∧
    ((proc_signal_register s sig handler).procs j).child_count = (s.procs j).child_count ∧
    ((proc_signal_register s sig handler).procs j).children = (s.procs j).children ∧
    (proc_signal_register s sig handler).next_pid = s.next_pid ∧
    (proc_signal_register s sig handler).current_pid = s.current_pid := by
  unfold proc_signal_register
  by_cases h : sig < 0 ∨ sig ≥ MAX_SIGNALS
  · simp [h]
  · by_cases hj : j = s.current_pid
    · simp [h, hj]
    · simp [h, hj]

theorem proc_signal_send_procs (s : Procs) (pid sig : Int) :
    (proc_signal_send s pid sig).2.procs = s.procs ∧
    (proc_signal_send s pid sig).2.next_pid = s.next_pid ∧
    (proc_signal_send s pid sig).2.current_pid = s.current_pid := by
  unfold proc_signal_send
  simp only
  split_ifs <;> exact ⟨rfl, rfl, rfl⟩

theorem proc_inv_same (s s1 : Procs) (hp : ∀ j, (s1.procs j).pid = (s.procs j).pid)
    (hn : s1.next_pid = s.next_pid) (hc : s1.current_pid < MAX_PROCESSES) (h : ProcInv s) :
    ProcInv s1 := by
  obtain ⟨_, h2, h3, h4⟩ := h
  refine ⟨hc, by rw [hn]; exact h2, fun i hi => by rw [hp, hn]; exact h3 i hi, ?_⟩
  intro i j hi hj e ne
  rw [hp, hp] at e
  rw [hp] at ne
  exact h4 i j hi hj e ne

theorem proc_inv_clear (s s1 : Procs) (i : Nat)
    (hp : ∀ j, (s1.procs j).pid = if j = i then -1 else (s.procs j).pid)
    (hn : s1.next_pid = s.next_pid) (hc : s1.current_pid = s.current_pid) (h : ProcInv s) :
    ProcInv s1 := by
  obtain ⟨h1, h2, h3, h4⟩ := h
  refine ⟨by rw [hc]; exact h1, by rw [hn]; exact h2, ?_, ?_⟩
  · intro j hj
    rw [hp, hn]
    by_cases e : j = i
    · rw [if_pos e]; omega
    · rw [if_neg e]; exact h3 j hj
  · intro a b ha hb e ne
    rw [hp] at ne
    rw [hp, hp] at e
    by_cases ea : a = i
    · rw [if_pos ea] at ne; exact absurd rfl ne
    · rw [if_neg ea] at ne e
      by_cases eb : b = i
      · rw [if_pos eb] at e; exact absurd e ne
      · rw [if_neg eb] at e; exact h4 a b ha hb e ne

theorem proc_inv_fill (s s1 : Procs) (i : Nat)
    (hp : ∀ j, (s1.procs j).pid = if j = i then s.next_pid else (s.procs j).pid)
    (hn : s1.next_pid = s.next_pid + 1) (hc : s1.current_pid = s.current_pid) (h : ProcInv s) :
    ProcInv s1 := by
  obtain ⟨h1, h2, h3, h4⟩ := h
  refine ⟨by rw [hc]; exact h1, by rw [hn]; omega, ?_, ?_⟩
  · intro j hj
    rw [hp, hn]
    by_cases e : j = i
    · rw [if_pos e]; omega
    · rw [if_neg e]; have := h3 j hj; omega
  · intro a b ha hb e ne
    rw [hp] at ne
    rw [hp, hp] at e
    by_cases ea : a = i
    · by_cases eb : b = i
      · rw [ea, eb]
      · rw [if_pos ea, if_neg eb] at e
        have := h3 b hb
        omega
    · rw [if_neg ea] at ne e
      by_cases eb : b = i
      · rw [if_pos eb] at e
        have := h3 a ha
        omega
      · rw [if_neg eb] at e; exact h4 a b ha hb e ne

theorem proc_init_inv (s : Procs) (h : 1 ≤ s.next_pid) : ProcInv (proc_init s) := by
  have hp : ∀ j, j < MAX_PROCESSES →
      ((proc_init s).procs j).pid = if j = 0 then 0 else -1 := by
    intro j hj
    unfold proc_init
    by_cases e : j = 0
    · simp [e]
    · simp [e, hj]
  have hn : (proc_init s).next_pid = s.next_pid := rfl
  refine ⟨(by decide : 0 < MAX_PROCESSES), h, ?_, ?_⟩
  · intro j hj
    rw [hp j hj, hn]
    by_cases e : j = 0
    · rw [if_pos e]; omega
    · rw [if_neg e]; omega
  · intro a b ha hb e ne
    rw [hp a ha] at ne e
    rw [hp b hb] at e
    by_cases ea : a = 0
    · by_cases eb : b = 0
      · rw [ea, eb]
      · rw [if_pos ea, if_neg eb] at e; exact absurd e (by decide)
    · rw [if_neg ea] at ne; exact absurd rfl ne

theorem create_register_fields (s : Procs) (ppid pid : Int) (j : Nat) :
    ((create_register s ppid pid).procs j).pid = (s.procs j).pid ∧
    ((create_register s ppid pid).procs j).ppid = (s.procs j).ppid ∧
    ((create_register s ppid pid).procs j).state = (s.procs j).state ∧
    ((create_register s ppid pid).procs j).exit_code = (s.procs j).exit_code ∧
    ((create_register s ppid pid).procs j).signal_handlers = (s.procs j).signal_handlers := by
  rw [create_register_procs]
  split_ifs <;> exact ⟨rfl, rfl, rfl, rfl, rfl⟩

theorem proc_create_pid (fuel : Nat) (s : Procs) (ppid : Int) (r : Int) (s1 : Procs)
    (h : proc_create fuel s ppid = some (r, s1)) :
    s1 = s ∨
    (s1.next_pid = s.next_pid + 1 ∧ s1.current_pid = s.current_pid ∧
      ∀ j, (s1.procs j).pid
        = if j = proc_find_free s MAX_PROCESSES 1 then s.next_pid else (s.procs j).pid) := by
  rcases proc_create_cases fuel s ppid r s1 h with ⟨_, _, e⟩ | ⟨_, stk, h1, _, ⟨_, _, e⟩ | ⟨_, _, e⟩⟩
  · exact Or.inl e
  · right
    rw [e]
    refine ⟨rfl, rfl, fun j => ?_⟩
    rw [create_stack_procs]
    by_cases hj : j = proc_find_free s MAX_PROCESSES 1 <;> simp [hj]
  · right
    rw [e]
    obtain ⟨g1, g2, _, _⟩ := create_register_globals
      (create_esp (create_stack (create_fill s (proc_find_free s MAX_PROCESSES 1) ppid)
        (proc_find_free s MAX_PROCESSES 1) stk h1) (proc_find_free s MAX_PROCESSES 1) stk)
      ppid s.next_pid
    refine ⟨g1, g2, fun j => ?_⟩
    rw [(create_register_fields _ _ _ j).1, create_esp_procs]
    by_cases hj : j = proc_find_free s MAX_PROCESSES 1 <;> simp [hj]

theorem proc_apply_create (fuel : Nat) (s : Procs) (ppid : Int) (s1 : Procs)
    (e : proc_apply s (proc_op.create fuel ppid) = some s1) :
    ∃ r, proc_create fuel s ppid = some (r, s1) := by
  change Option.map (fun r => r.2) (proc_create fuel s ppid) = some s1 at e
  cases hc : proc_create fuel s ppid with
  | none => rw [hc] at e; exact absurd e (by simp)
  | some p =>
    rw [hc] at e
    simp only [Option.map_some', Option.some.injEq] at e
    exact ⟨p.1, by rw [← e]⟩

theorem proc_apply_inv (s s1 : Procs) (op : proc_op) (h : ProcInv s)
    (e : proc_apply s op = some s1) : ProcInv s1 := by
  cases op with
  | create fuel ppid =>
    obtain ⟨r, e1⟩ := proc_apply_create fuel s ppid s1 e
    rcases proc_create_pid fuel s ppid r s1 e1 with e3 | ⟨e3, e4, e5⟩
    · rw [e3]; exact h
    · exact proc_inv_fill s s1 _ e5 e3 e4 h
  | exit code =>
    simp only [proc_apply, Option.some.injEq] at e
    subst e
    obtain ⟨g1, g2, _⟩ := proc_exit_globals s code
    refine proc_inv_same s _ (fun j => ?_) g1 (by rw [g2]; exact h.1) h
    rw [proc_exit_procs]
    by_cases hj : j = s.current_pid <;> simp [hj]
  | wait pid =>
    simp only [proc_apply, Option.some.injEq] at e
    subst e
    rw [proc_wait_eq]
    split_ifs
    · exact h
    · refine proc_inv_clear s _ (proc_find_pid s pid MAX_PROCESSES 0) (fun j => ?_) rfl rfl h
      by_cases hj : j = proc_find_pid s pid MAX_PROCESSES 0 <;> simp [hj]
    · exact h
  | register sig handler =>
    simp only [proc_apply, Option.some.injEq] at e
    subst e
    have g := proc_signal_register_procs s sig handler
    exact proc_inv_same s _ (fun j => (g j).1) (g 0).2.2.2.2.2.1
      (by rw [(g 0).2.2.2.2.2.2]; exact h.1) h
  | send pid sig =>
    simp only [proc_apply, Option.some.injEq] at e
    subst e
    obtain ⟨g1, g2, g3⟩ := proc_signal_send_procs s pid sig
    exact proc_inv_same s _ (fun j => by rw [g1]) g2 (by rw [g3]; exact h.1) h
  | switch k =>
    simp only [proc_apply] at e
    split_ifs at e with hk
    injection e with e
    subst e
    exact proc_inv_same s _ (fun _ => rfl) rfl hk.1 h

theorem proc_run_inv (ops : List proc_op) (s s1 : Procs) (h : ProcInv s)
    (e : proc_run s ops = some s1) : ProcInv s1 := by
  induction ops generalizing s with
  | nil =>
    simp only [proc_run, Option.some.injEq] at e
    rw [← e]; exact h
  | cons op ops ih =>
    unfold proc_run at e
    cases ha : proc_apply s op with
    | none => rw [ha] at e; exact absurd e (by simp)
    | some s2 =>
      rw [ha] at e
      exact ih s2 (proc_apply_inv s s2 op h ha) e

/-- Every process-table state reachable from `proc_init` satisfies the invariant. -/
theorem proc_reachable_inv (s : Procs) (h : ProcReachable s) : ProcInv s := by
  obtain ⟨hp, ops, e⟩ := h
  exact proc_run_inv ops _ s (proc_init_inv _ (le_refl _)) e

theorem forest_same (s s1 : Procs)
    (hp : ∀ j, (s1.procs j).pid = (s.procs j).pid ∧ (s1.procs j).ppid = (s.procs j).ppid ∧
      (s1.procs j).child_count = (s.procs j).child_count ∧
      (s1.procs j).children = (s.procs j).children)
    (h : ProcForest s) : ProcForest s1 := by
  refine ⟨fun i hi ne => ?_, fun i hi ne k hk => ?_⟩
  · rw [(hp i).1] at ne ⊢
    rw [(hp i).2.1]
    exact h.1 i hi ne
  · rw [(hp i).1] at ne ⊢
    rw [(hp i).2.2.1] at hk
    rw [(hp i).2.2.2]
    exact h.2 i hi ne k hk

theorem forest_clear (s : Procs) (i : Nat) (h : ProcForest s) :
    ProcForest (set_proc s i { s.procs i with state := PROC_FREE, pid := -1 }) := by
  refine ⟨fun j hj ne => ?_, fun j hj ne k hk => ?_⟩
  · by_cases e : j = i
    · simp [e] at ne
    · simp only [set_proc_procs, if_neg e] at ne ⊢
      exact h.1 j hj ne
  · by_cases e : j = i
    · simp [e] at ne
    · simp only [set_proc_procs, if_neg e] at ne hk ⊢
      exact h.2 j hj ne k hk

theorem forest_fill (s s1 : Procs) (i : Nat) (ppid : Int) (F : process_t)
    (hs : ∀ j, s1.procs j = if j = i then F else s.procs j)
    (h1 : F.pid = s.next_pid) (h2 : F.ppid = ppid) (h3 : F.child_count = 0)
    (hk : ppid < s.next_pid) (h : ProcForest s) : ProcForest s1 := by
  refine ⟨fun j hj ne => ?_, fun j hj ne k hk => ?_⟩
  · rw [hs] at ne ⊢
    by_cases e : j = i
    · rw [if_pos e, h1, h2]; exact hk
    · rw [if_neg e] at ne ⊢; exact h.1 j hj ne
  · rw [hs] at ne hk ⊢
    by_cases e : j = i
    · rw [if_pos e, h3] at hk; exact absurd hk (by omega)
    · rw [if_neg e] at ne hk ⊢; exact h.2 j hj ne k hk

theorem forest_register (s : Procs) (ppid pid : Int) (hk : ppid < pid) (h : ProcForest s) :
    ProcForest (create_register s ppid pid) := by
  refine ⟨fun j hj ne => ?_, fun j hj ne k hk1 => ?_⟩
  · obtain ⟨g1, g2, _⟩ := create_register_fields s ppid pid j
    rw [g1] at ne ⊢
    rw [g2]
    exact h.1 j hj ne
  · rw [(create_register_fields s ppid pid j).1] at ne ⊢
    rw [create_register_procs] at hk1 ⊢
    by_cases c : (ppid ≥ 0 ∧ ppid < MAX_PROCESSES ∧ (s.procs ppid.toNat).pid = ppid) ∧
          (s.procs ppid.toNat).child_count < MAX_CHILDREN ∧ j = ppid.toNat
    · rw [if_pos c] at hk1 ⊢
      simp only at hk1 ⊢
      by_cases ek : k = (s.procs j).child_count
      · rw [if_pos ek]
        have : (s.procs j).pid = ppid := by rw [c.2.2]; exact c.1.2.2
        rw [this]; exact hk
      · rw [if_neg ek]
        exact h.2 j hj ne k (by omega)
    · rw [if_neg c] at hk1 ⊢
      exact h.2 j hj ne k hk1

theorem proc_init_forest (s : Procs) : ProcForest (proc_init s) := by
  have hp : ∀ j, j < MAX_PROCESSES →
      ((proc_init s).procs j).pid = (if j = 0 then 0 else -1) ∧
      ((proc_init s).procs j).ppid = -1 ∧ ((proc_init s).procs j).child_count = 0 := by
    intro j hj
    unfold proc_init
    by_cases e : j = 0
    · simp [e]
      rw [if_pos (by decide : 0 < MAX_PROCESSES)]
    · simp [e, hj]
  refine ⟨fun j hj ne => ?_, fun j hj ne k hk => ?_⟩
  · obtain ⟨g1, g2, _⟩ := hp j hj
    rw [g1] at ne ⊢
    rw [g2]
    by_cases e : j = 0
    · rw [if_pos e]; decide
    · rw [if_neg e] at ne; exact absurd rfl ne
  · rw [(hp j hj).2.2] at hk
    exact absurd hk (by omega)

theorem proc_create_forest (fuel : Nat) (s : Procs) (ppid : Int) (r : Int) (s1 : Procs)
    (h : proc_create fuel s ppid = some (r, s1)) (hk : ppid < s.next_pid)
    (hf : ProcForest s) : ProcForest s1 := by
  rcases proc_create_cases fuel s ppid r s1 h with ⟨_, _, e⟩ | ⟨_, stk, h1, _, ⟨_, _, e⟩ | ⟨_, _, e⟩⟩
  · rw [e]; exact hf
  · rw [e]
    exact forest_fill s _ _ ppid _ (create_stack_procs s _ ppid stk h1) rfl rfl rfl hk hf
  · rw [e]
    exact forest_register _ ppid s.next_pid hk
      (forest_fill s _ _ ppid _ (create_esp_procs s _ ppid stk h1) rfl rfl rfl hk hf)

theorem proc_apply_forest (s s1 : Procs) (op : proc_op) (h : ProcForest s)
    (hk : parent_known s op) (e : proc_apply s op = some s1) : ProcForest s1 := by
  cases op with
  | create fuel ppid =>
    obtain ⟨r, e1⟩ := proc_apply_create fuel s ppid s1 e
    exact proc_create_forest fuel s ppid r s1 e1 hk h
  | exit code =>
    simp only [proc_apply, Option.some.injEq] at e
    subst e
    refine forest_same s _ (fun j => ?_) h
    rw [proc_exit_procs]
    by_cases hj : j = s.current_pid <;> simp [hj]
  | wait pid =>
    simp only [proc_apply, Option.some.injEq] at e
    subst e
    rw [proc_wait_eq]
    split_ifs
    · exact h
    · exact forest_clear s _ h
    · exact h
  | register sig handler =>
    simp only [proc_apply, Option.some.injEq] at e
    subst e
    have g := proc_signal_register_procs s sig handler
    exact forest_same s _ (fun j => ⟨(g j).1, (g j).2.1, (g j).2.2.2.1, (g j).2.2.2.2.1⟩) h
  | send pid sig =>
    simp only [proc_apply, Option.some.injEq] at e
    subst e
    obtain ⟨g1, _, _⟩ := proc_signal_send_procs s pid sig
    exact forest_same s _ (fun j => by rw [g1]; exact ⟨rfl, rfl, rfl, rfl⟩) h
  | switch k =>
    simp only [proc_apply] at e
    split_ifs at e with hk
    injection e with e
    subst e
    exact forest_same s _ (fun _ => ⟨rfl, rfl, rfl, rfl⟩) h

theorem proc_run_forest (ops : List proc_op) (s s1 : Procs) (h : ProcForest s)
    (hk : proc_run_known s ops) (e : proc_run s ops = some s1) : ProcForest s1 := by
  induction ops generalizing s with
  | nil =>
    simp only [proc_run, Option.some.injEq] at e
    rw [← e]; exact h
  | cons op ops ih =>
    unfold proc_run at e
    unfold proc_run_known at hk
    cases ha : proc_apply s op with
    | none => rw [ha] at e; exact absurd e (by simp)
    | some s2 =>
      rw [ha] at e hk
      exact ih s2 (proc_apply_forest s s2 op h hk.1 ha) hk.2 e

/-- Along the parent relation of a table with the forest ordering the pid
decreases strictly. -/
theorem parent_chain_decreases (s : Procs) (h : ProcForest s) (a b : Int)
    (hc : Relation.TransGen (parent_of s) a b) : b < a := by
  induction hc with
  | single hab =>
    obtain ⟨i, hl, e1, e2⟩ := hab
    rw [← e1, ← e2]
    exact h.1 i hl.1 hl.2.2
  | tail _ hbc ih =>
    obtain ⟨i, hl, e1, e2⟩ := hbc
    have := h.1 i hl.1 hl.2.2
    rw [e1, e2] at this
    omega

/-- After `proc_exit(c)` the first `proc_wait` on the pid of the current
process reaps its slot and yields `c`. -/
theorem exit_wait_eq (s : Procs) (c : Int) (hi : ProcInv s) (hl : Live s s.current_pid) :
    proc_wait (proc_exit s c) (s.procs s.current_pid).pid =
      (0, some c, set_proc (proc_exit s c) s.current_pid
        { (proc_exit s c).procs s.current_pid with state := PROC_FREE, pid := -1 }) := by
  have hpid : ∀ j, ((proc_exit s c).procs j).pid = (s.procs j).pid := by
    intro j
    rw [proc_exit_procs]
    by_cases hj : j = s.current_pid <;> simp [hj]
  have hcur : (proc_exit s c).procs s.current_pid =
      { s.procs s.current_pid with exit_code := c, state := PROC_ZOMBIE, stack := 0 } := by
    rw [proc_exit_procs, if_pos rfl]
  have hfind : proc_find_pid (proc_exit s c) (s.procs s.current_pid).pid MAX_PROCESSES 0
      = s.current_pid := by
    rcases proc_find_pid_cases (proc_exit s c) (s.procs s.current_pid).pid with ⟨_, h2⟩ | ⟨h1, h2, _⟩
    · exact absurd (hpid s.current_pid) (h2 s.current_pid hl.1)
    · rw [hpid] at h2
      exact hi.2.2.2 _ _ h1 hl.1 h2 (by rw [h2]; exact hl.2.2)
  rw [proc_wait_eq, hfind, if_neg (Nat.ne_of_lt hl.1), hcur]
  simp

/-- A second `proc_wait` on the same pid finds no slot. -/
theorem exit_wait_wait_eq (s : Procs) (c : Int) (hi : ProcInv s) (hl : Live s s.current_pid) :
    proc_wait (set_proc (proc_exit s c) s.current_pid
        { (proc_exit s c).procs s.current_pid with state := PROC_FREE, pid := -1 })
        (s.procs s.current_pid).pid =
      (-1, none, set_proc (proc_exit s c) s.current_pid
        { (proc_exit s c).procs s.current_pid with state := PROC_FREE, pid := -1 }) := by
  have hpid : ∀ j, ((proc_exit s c).procs j).pid = (s.procs j).pid := by
    intro j
    rw [proc_exit_procs]
    by_cases hj : j = s.current_pid <;> simp [hj]
  generalize hs2 : set_proc (proc_exit s c) s.current_pid
        { (proc_exit s c).procs s.current_pid with state := PROC_FREE, pid := -1 } = s2
  have hp2 : ∀ j, (s2.procs j).pid = if j = s.current_pid then -1 else (s.procs j).pid := by
    intro j
    rw [← hs2]
    by_cases hj : j = s.current_pid
    · simp [hj]
    · simp [hj, hpid]
  rcases proc_find_pid_cases s2 (s.procs s.current_pid).pid with ⟨h1, _⟩ | ⟨h1, h2, _⟩
  · rw [proc_wait_eq, if_pos h1]
  · exfalso
    rw [hp2] at h2
    by_cases hj : proc_find_pid s2 (s.procs s.current_pid).pid MAX_PROCESSES 0 = s.current_pid
    · rw [if_pos hj] at h2
      exact hl.2.2 h2.symm
    · rw [if_neg hj] at h2
      exact hj (hi.2.2.2 _ _ h1 hl.1 h2 (by rw [h2]; exact hl.2.2))

/-- A run that returns is `some` of its default-stripped value. -/
theorem eq_some_getD (x : Option Procs) (d : Procs) (h : x.isSome = true) :
    x = some (x.getD d) := by
  cases x with
  | none => exact absurd h (by simp)
  | some v => rfl

theorem blocks_append (m : Mem) (l1 l2 : List Nat) :
    blocks m (l1 ++ l2) = blocks m l1 ++ blocks m l2 := by
  unfold blocks
  exact List.map_append _ _ _

theorem first_fit_split_none (m : Mem) (r : Nat) (l : List Nat)
    (h : ∀ a ∈ l, fits m r a = false) : first_fit_split r (blocks m l) = none := by
  induction l with
  | nil => rfl
  | cons a rest ih =>
    have ha := h a (List.mem_cons_self _ _)
    simp only [fits, decide_eq_false_iff_not] at ha
    have : ¬ (decide ((m a).free ≠ 0) = true ∧ (m a).size ≥ r) := by
      simpa using ha
    show first_fit_split r (⟨a, (m a).size, decide ((m a).free ≠ 0)⟩ :: blocks m rest) = none
    unfold first_fit_split
    rw [if_neg this, ih (fun x hx => h x (List.mem_cons_of_mem _ hx))]
    rfl

theorem first_fit_split_some (m : Mem) (r : Nat) (pre post : List Nat) (b : Nat)
    (h : ∀ a ∈ pre, fits m r a = false) (hb : fits m r b = true) :
    first_fit_split r (blocks m (pre ++ b :: post)) =
      some (b + 16, blocks m pre ++ taken m b r ++ blocks m post) := by
  induction pre with
  | nil =>
    simp only [fits, decide_eq_true_eq] at hb
    have : decide ((m b).free ≠ 0) = true ∧ (m b).size ≥ r := by
      simpa using hb
    show first_fit_split r (⟨b, (m b).size, decide ((m b).free ≠ 0)⟩ :: blocks m post) = _
    unfold first_fit_split taken
    rw [if_pos this]
    by_cases hs : (m b).size > r + 16
    · simp only [if_pos hs]; rfl
    · simp only [if_neg hs]; rfl
  | cons a rest ih =>
    have ha := h a (List.mem_cons_self _ _)
    simp only [fits, decide_eq_false_iff_not] at ha
    have : ¬ (decide ((m a).free ≠ 0) = true ∧ (m a).size ≥ r) := by
      simpa using ha
    show first_fit_split r
      (⟨a, (m a).size, decide ((m a).free ≠ 0)⟩ :: blocks m (rest ++ b :: post)) = _
    unfold first_fit_split
    rw [if_neg this, ih (fun x hx => h x (List.mem_cons_of_mem _ hx))]
    rfl

/-- Without overflow the required size of the code is that of the
specification. -/
theorem req_of_eq_ref (n : Nat) (hn : n + 24 ≤ U32) : req_of n = ref_req n := by
  have hU : U32 = 4294967296 := rfl
  have h1 : add32 HDR n = 16 + n := add32_eq (by unfold HDR; omega)
  unfold req_of ref_req
  simp only [h1, MIN_ALLOC]
  rw [align_up_eq _ (by omega)]
  have := Nat.div_add_mod (16 + n + 7) 8
  split_ifs with h
  · omega
  · omega

/-! ### `malloc` against the first-fit reference -/

theorem take_block_split (m : Mem) (b r x : Nat) (hs : (m b).size > add32 r MIN_ALLOC) :
    (take_block m b r x).size =
      (if x = b then r else if x = add32 b r then sub32 (m b).size r else (m x).size) ∧
    (take_block m b r x).free =
      (if x = b then 0 else if x = add32 b r then 1 else (m x).free) ∧
    (take_block m b r x).next =
      (if x = b then add32 b r else if x = add32 b r then (m b).next else (m x).next) := by
  unfold take_block
  rw [if_pos hs]
  refine ⟨?_, ?_, ?_⟩
  · rw [set_free_size, split_block_size]
  · rw [set_free_free, split_block_free]
  · rw [set_free_next, split_block_next]

theorem take_block_whole (m : Mem) (b r x : Nat) (hs : ¬ (m b).size > add32 r MIN_ALLOC) :
    (take_block m b r x).size = (m x).size ∧
    (take_block m b r x).free = (if x = b then 0 else (m x).free) ∧
    (take_block m b r x).next = (m x).next := by
  unfold take_block
  rw [if_neg hs]
  exact ⟨set_free_size _ _ _ _, set_free_free _ _ _ _, set_free_next _ _ _ _⟩

/-- A traversal only reads the `next` links of the blocks it meets. -/
theorem block_list_congr (m m1 : Mem) : ∀ (fuel x : Nat) (l : List Nat),
    block_list m fuel x = some l → (∀ y ∈ l, (m1 y).next = (m y).next) →
    block_list m1 fuel x = some l := by
  intro fuel
  induction fuel with
  | zero => intro x l h; simp [block_list] at h
  | succ f ih =>
    intro x l h hn
    unfold block_list at h ⊢
    by_cases hx : x = 0
    · rw [if_pos hx] at h ⊢; exact h
    · rw [if_neg hx] at h ⊢
      cases hr : block_list m f (m x).next with
      | none => rw [hr] at h; simp at h
      | some l0 =>
        rw [hr] at h
        simp only [Option.map_some', Option.some.injEq] at h
        subst h
        rw [hn x (List.mem_cons_self _ _), ih _ _ hr (fun y hy => hn y (List.mem_cons_of_mem _ hy))]
        rfl

theorem blocks_congr (m m1 : Mem) (l : List Nat)
    (h : ∀ y ∈ l, (m1 y).size = (m y).size ∧ (m1 y).free = (m y).free) :
    blocks m1 l = blocks m l := by
  unfold blocks
  apply List.map_congr_left
  intro a ha
  rw [(h a ha).1, (h a ha).2]

/-- Outside the chosen block, `malloc` changes neither size nor free flag nor
`next` link of a header (for a request that does not overflow). -/
theorem take_block_frame (m : Mem) (b r x : Nat)
    (hend : b + (m b).size ≤ U32) (hov : r + 16 < U32)
    (hx : x < b ∨ b + (m b).size ≤ x) (hpos : 0 < (m b).size) :
    (take_block m b r x).size = (m x).size ∧ (take_block m b r x).free = (m x).free ∧
    (take_block m b r x).next = (m x).next := by
  have hadd : add32 r MIN_ALLOC = r + 16 := add32_eq hov
  have hxb : x ≠ b := by omega
  by_cases hs : (m b).size > add32 r MIN_ALLOC
  · have hbr : add32 b r = b + r := add32_eq (by rw [hadd] at hs; omega)
    have hxn : x ≠ add32 b r := by rw [hbr]; rw [hadd] at hs; omega
    obtain ⟨h1, h2, h3⟩ := take_block_split m b r x hs
    rw [if_neg hxb, if_neg hxn] at h1 h2 h3
    exact ⟨h1, h2, h3⟩
  · obtain ⟨h1, h2, h3⟩ := take_block_whole m b r x hs
    rw [if_neg hxb] at h2
    exact ⟨h1, h2, h3⟩

theorem Seg_ge_end {m : Mem} {stop prev a : Nat} {rest : List Nat}
    (h : Seg m stop prev (a :: rest)) : ∀ x ∈ rest, a + (m a).size ≤ x := by
  intro x hx
  cases rest with
  | nil => simp at hx
  | cons c r =>
    have h5 : a + (m a).size = c := h.2.2.2.2.1
    have h9 : Seg m stop a (c :: r) := h.2.2.2.2.2.2.2.2
    rcases List.mem_cons.mp hx with e | e
    · omega
    · have := Seg_lt r c h9.2.2.2.2.2.2.2.2 x e
      omega

/-- The chosen block and the blocks after it, as a traversal of the memory
after `malloc` finds them. -/
theorem take_tail (m : Mem) (stop prev b r : Nat) (post : List Nat)
    (h : Seg m stop prev (b :: post)) (hstop : stop ≤ U32)
    (hr : r ≤ (m b).size) (h16 : 16 ≤ r) (hov : r + 16 < U32) (fuel : Nat)
    (hfuel : post.length + 2 < fuel) :
    block_list (take_block m b r) fuel b
      = some (b :: (if (m b).size > r + 16 then (b + r) :: post else post)) ∧
    blocks (take_block m b r) (b :: (if (m b).size > r + 16 then (b + r) :: post else post))
      = taken m b r ++ blocks m post := by
  have hend := Seg_end_le _ _ h b (List.mem_cons_self _ _)
  have hge := Seg_ge_end h
  obtain ⟨g1, g2, g3, g4, g5, g6, g7, g8, g9⟩ := h
  have hb0 : b ≠ 0 := by omega
  have hadd : add32 r MIN_ALLOC = r + 16 := add32_eq hov
  have hframe : ∀ x ∈ post, (take_block m b r x).size = (m x).size ∧
      (take_block m b r x).free = (m x).free ∧ (take_block m b r x).next = (m x).next :=
    fun x hx => take_block_frame m b r x (by omega) hov (Or.inr (hge x hx)) (by omega)
  have hpost : ∀ f, post.length < f →
      block_list (take_block m b r) f (post.headD 0) = some post := by
    intro f hf1
    exact block_list_congr m _ f _ post (block_list_of_seg post b f g9 hf1)
      (fun y hy => (hframe y hy).2.2)
  have hbl : blocks (take_block m b r) post = blocks m post :=
    blocks_congr m _ post (fun y hy => ⟨(hframe y hy).1, (hframe y hy).2.1⟩)
  obtain ⟨f, rfl⟩ : ∃ f, fuel = f + 2 := ⟨fuel - 2, by omega⟩
  by_cases hs : (m b).size > r + 16
  · have hs1 : (m b).size > add32 r MIN_ALLOC := by rw [hadd]; exact hs
    have hbr : add32 b r = b + r := add32_eq (by omega)
    have hsub : sub32 (m b).size r = (m b).size - r := sub32_eq (by omega) hr
    have hne : b + r ≠ b := by omega
    have hn0 : b + r ≠ 0 := by omega
    obtain ⟨a1, a2, a3⟩ := take_block_split m b r b hs1
    obtain ⟨c1, c2, c3⟩ := take_block_split m b r (b + r) hs1
    rw [if_pos rfl] at a1 a2 a3
    rw [hbr] at a3 c1 c2 c3
    rw [if_neg hne, if_pos rfl] at c1 c2 c3
    rw [hsub] at c1
    rw [g4] at c3
    rw [if_pos hs]
    constructor
    · unfold block_list
      rw [if_neg hb0, a3]
      unfold block_list
      rw [if_neg hn0, c3, hpost f (by omega)]
      rfl
    · unfold taken
      rw [if_pos hs]
      show (⟨b, _, _⟩ : Block) :: ⟨b + r, _, _⟩ :: blocks (take_block m b r) post = _
      rw [a1, a2, c1, c2, hbl]
      rfl
  · have hs1 : ¬ (m b).size > add32 r MIN_ALLOC := by rw [hadd]; exact hs
    obtain ⟨a1, a2, a3⟩ := take_block_whole m b r b hs1
    rw [if_pos rfl] at a2
    rw [g4] at a3
    rw [if_neg hs]
    constructor
    · unfold block_list
      rw [if_neg hb0, a3, hpost (f + 1) (by omega)]
      rfl
    · unfold taken
      rw [if_neg hs]
      show (⟨b, _, _⟩ : Block) :: blocks (take_block m b r) post = _
      rw [a1, a2, hbl]
      rfl

/-- The whole list after `malloc` has taken block `b`: the blocks before `b`
are untouched, `b` is replaced by the blocks of `taken`, the blocks after it
are untouched. -/
theorem take_walk (m : Mem) (stop b r : Nat) (post : List Nat) (hstop : stop ≤ U32)
    (hr : r ≤ (m b).size) (h16 : 16 ≤ r) (hov : r + 16 < U32)
    (hend : b + (m b).size ≤ U32) :
    ∀ (pre : List Nat) (prev fuel : Nat), Seg m stop prev (pre ++ b :: post) →
      (pre ++ b :: post).length + 2 < fuel →
      block_list (take_block m b r) fuel ((pre ++ b :: post).headD 0)
        = some (pre ++ b :: (if (m b).size > r + 16 then (b + r) :: post else post)) ∧
      blocks (take_block m b r)
          (pre ++ b :: (if (m b).size > r + 16 then (b + r) :: post else post))
        = blocks m pre ++ taken m b r ++ blocks m post := by
  intro pre
  induction pre with
  | nil =>
    intro prev fuel h hfuel
    simp only [List.nil_append, List.headD_cons]
    have := take_tail m stop prev b r post h hstop hr h16 hov fuel
      (by simp at hfuel; omega)
    refine ⟨this.1, ?_⟩
    rw [this.2]
    rfl
  | cons a pre ih =>
    intro prev fuel h hfuel
    rw [List.cons_append] at h hfuel
    have hab : a < b := Seg_lt _ a h.2.2.2.2.2.2.2.2 b (by simp)
    have ha0 : a ≠ 0 := by have := h.1; omega
    obtain ⟨f1, f2, f3⟩ := take_block_frame m b r a hend hov (Or.inl hab) (by omega)
    obtain ⟨f, rfl⟩ : ∃ f, fuel = f + 1 := ⟨fuel - 1, by omega⟩
    have hrec := ih a f h.2.2.2.2.2.2.2.2 (by simp at hfuel ⊢; omega)
    have hnext : (m a).next = (pre ++ b :: post).headD 0 := h.2.2.2.1
    constructor
    · simp only [List.cons_append, List.headD_cons]
      unfold block_list
      rw [if_neg ha0, f3, hnext, hrec.1]
      rfl
    · simp only [List.cons_append]
      show (⟨a, _, _⟩ : Block) :: blocks (take_block m b r) _ = _
      rw [hrec.2, f1, f2]
      rfl

/-- The counterpart of claim C21 that the code satisfies: in a reachable state,
for a request `0 < n ≤ 2^32 - 40` (so that neither the required size nor the
split test overflows), `malloc(n)` returns what the first-fit reference with
the split policy returns, on the list of blocks, and a null result leaves the
state unchanged. -/
theorem malloc_refines_first_fit (start size : Nat) (hv : ValidRegion start size) (s : Heap)
    (h : Reachable start size s) (fuel n p : Nat) (s1 : Heap) (hn0 : 0 < n)
    (hn : n + 40 ≤ U32) (hm : malloc fuel s n = some (p, s1)) :
    ∃ l l1 f f1, block_list s.mem f s.free_list = some l ∧
      block_list s1.mem f1 s1.free_list = some l1 ∧
      malloc_ref n (blocks s.mem l) = (p, blocks s1.mem l1) ∧
      (p = 0 → s1 = s) := by
  have hU : U32 = 4294967296 := rfl
  obtain ⟨e1, e2, e3, l, hh, hl⟩ := reachable_inv hv h
  have hreq : req_of n = ref_req n := req_of_eq_ref n (by omega)
  have hge : n + 16 ≤ req_of n := req_of_ge_request n (by omega)
  have hle : ref_req n ≤ n + 23 := by
    unfold ref_req
    have := Nat.div_mul_le_self (16 + n + 7) 8
    omega
  have hbl : block_list s.mem (l.length + 1) s.free_list = some l := by
    rw [← Inv_head e3 hh]
    exact block_list_of_seg l 0 _ hl (by omega)
  rcases malloc_first_fit e3 hh hl hm with ⟨hp, hs1, hc⟩ | ⟨b, pre, post, hdec, hpre, hfit, hp, hs1⟩
  · refine ⟨l, l, _, _, hbl, by rw [hs1]; exact hbl, ?_, fun _ => hs1⟩
    rcases hc with hc | hc | hc
    · omega
    · have := hv.1; omega
    · rw [hs1, hp]
      unfold malloc_ref
      rw [← hreq, first_fit_split_none s.mem _ l hc]
  · have hfit1 := hfit
    simp only [fits, decide_eq_true_eq] at hfit1
    have hmem : b ∈ l := by rw [hdec]; simp
    have hend := Seg_end_le _ _ hl b hmem
    have hstop : start + size ≤ U32 := hv.2.2
    have hb0 := Seg_lt _ _ hl b hmem
    have hpb : add32 b HDR = b + 16 := add32_eq (by unfold HDR; omega)
    rw [hdec] at hl
    obtain ⟨w1, w2⟩ := take_walk s.mem (start + size) b (req_of n) post hstop hfit1.2
      (by omega) (by omega) (by omega) pre 0 ((pre ++ b :: post).length + 3) hl (by omega)
    have hhead : (pre ++ b :: post).headD 0 = s.free_list := by
      rw [← hdec]; exact Inv_head e3 hh
    rw [hhead] at w1
    refine ⟨l, _, _, _, hbl, by rw [hs1]; exact w1, ?_, ?_⟩
    · rw [hs1, hp, hpb, hdec]
      show _ = (b + 16, blocks (take_block s.mem b (req_of n)) _)
      rw [w2]
      unfold malloc_ref
      rw [← hreq, first_fit_split_some s.mem _ pre post b hpre hfit]
    · intro h0
      rw [hp, hpb] at h0
      omega

/-! ### The process table along runs of the functions of process.c -/

/-- C1 (evaluation at the failing input): after `mem_init(4096, 1024)` and
`malloc(1000)` the only block, of 1024 bytes, is taken whole, yet `heap_used`
is 1016: `heap_used` plus the free bytes is 1016, not the heap size 1024. -/
theorem C1_used_plus_free_is_not_heap_size :
    ∃ s st, Reachable 4096 1024 s ∧ mem_stats 2 s = some st ∧
      st.used = 1016 ∧ st.free_total = 0 ∧ st.total = 1024 ∧
      st.used + st.free_total ≠ st.total :=
  ⟨malloc_state 2 heap0 1000, ⟨1024, 1016, 0, 0, 1⟩,
    Reachable.malloc heap0 _ 2 1000 4112 heap0_reachable (by decide) rfl,
    rfl, rfl, rfl, rfl, by decide⟩

/-- C2 (evaluation at the failing input): `p = malloc(1000)` on the fresh
1024-byte heap followed by `free(p)` leaves `heap_used` at `2^32 - 8` instead
of 0; the other statistics are restored. -/
theorem C2_free_after_malloc_changes_used :
    mem_stats 2 heap0 = some ⟨1024, 0, 1024, 1, 0⟩ ∧
    malloc_ptr 2 heap0 1000 = 4112 ∧
    mem_stats 2 (free (malloc_state 2 heap0 1000) 4112) =
      some ⟨1024, 4294967288, 1024, 1, 0⟩ :=
  ⟨rfl, rfl, rfl⟩

/-- C3 (evaluation at the failing input): the request `n = 2^32 - 16` wraps
`sizeof(mem_block_t) + n` to 0, so `malloc` returns the non-null pointer 4112
into a block of 16 bytes, whose payload capacity is 0. -/
theorem C3_overflowing_request_gets_empty_block :
    req_of 4294967280 = 16 ∧
    malloc_ptr 2 heap0 4294967280 = 4112 ∧
    ((malloc_state 2 heap0 4294967280).mem 4096).size = 16 ∧
    ((malloc_state 2 heap0 4294967280).mem 4096).free = 0 :=
  ⟨rfl, rfl, rfl, rfl⟩

/-- C4: in every state reachable from `mem_init(start, size)` on a valid region
the block list can be traversed, and the sizes of the blocks of any complete
traversal sum to `heap_size`, which is still `size`. -/
theorem C4_block_sizes_sum_to_heap_size (start size : Nat) (hv : ValidRegion start size)
    (s : Heap) (h : Reachable start size s) :
    s.heap_size = size ∧
    (∃ fuel l, block_list s.mem fuel s.free_list = some l) ∧
    (∀ fuel l, block_list s.mem fuel s.free_list = some l →
      sizes_sum s.mem l = s.heap_size) := by
  obtain ⟨e1, e2, e3, l, hh, hl⟩ := reachable_inv hv h
  have hhd := Inv_head e3 hh
  refine ⟨e2, ⟨l.length + 1, l, ?_⟩, ?_⟩
  · rw [← hhd]; exact block_list_of_seg l 0 _ hl (by omega)
  · intro fuel l1 h1
    rw [← hhd] at h1
    rw [block_list_unique hl h1]
    have hsum := Seg_sum l 0 hl
    have : l.headD (start + size) = start := by
      rw [List.headD_eq_head?_getD, hh]; rfl
    rw [this] at hsum
    omega

/-- C4 at a concrete input: the 1024-byte heap after `malloc(100)`. -/
theorem C4_witness :
    ValidRegion 4096 1024 ∧ Reachable 4096 1024 heap1 ∧
    (heap1.heap_size = 1024 ∧
      (∃ fuel l, block_list heap1.mem fuel heap1.free_list = some l) ∧
      (∀ fuel l, block_list heap1.mem fuel heap1.free_list = some l →
        sizes_sum heap1.mem l = heap1.heap_size)) :=
  ⟨valid_4096_1024, heap1_reachable,
    C4_block_sizes_sum_to_heap_size 4096 1024 valid_4096_1024 heap1 heap1_reachable⟩

/-- C5: after `free(p)` on a pointer to a currently allocated block of a
reachable state, no free block of the list is followed by a free block. -/
theorem C5_no_adjacent_free_blocks_after_free (start size : Nat)
    (hv : ValidRegion start size) (s : Heap) (h : Reachable start size s)
    (p : Nat) (hp : AllocatedPtr s p) : NoAdjacentFree (free s p) := by
  obtain ⟨e1, e2, e3, l, hh, hl⟩ := reachable_inv hv (Reachable.free s p h hp)
  intro a ha hf hn
  exact Seg_no_adjacent l 0 hl a ((InList_iff e3 hh hl a).mp ha) hf hn

/-- C5 at a concrete input: freeing the block at 4216 of `heap3b`, whose two
neighbours are both free. -/
theorem C5_witness :
    ValidRegion 4096 1024 ∧ Reachable 4096 1024 heap3b ∧ AllocatedPtr heap3b 4232 ∧
    NoAdjacentFree (free heap3b 4232) :=
  ⟨valid_4096_1024, heap3b_reachable, heap3b_allocated,
    C5_no_adjacent_free_blocks_after_free 4096 1024 valid_4096_1024 heap3b heap3b_reachable
      4232 heap3b_allocated⟩

/-- C6: in every reachable state every allocated block `a` of the list has
`heap_start ≤ a` and `a + 16 ≤ a + size ≤ heap_start + heap_size`, so its payload
range `[a + 16, a + size)` lies inside the heap region; two distinct allocated
blocks do not overlap, hence neither do their payload ranges; and the payload
`[p, blk + size)` of a block that `malloc` returns does not overlap the payload
of any block that was allocated when `malloc` was called. -/
theorem C6_payloads_disjoint_and_inside_heap (start size : Nat)
    (hv : ValidRegion start size) (s : Heap) (h : Reachable start size s) :
    (∀ a, InList s a → (s.mem a).free = 0 →
      s.heap_start ≤ a ∧ a + HDR ≤ a + (s.mem a).size ∧
      a + (s.mem a).size ≤ s.heap_start + s.heap_size) ∧
    (∀ a b, InList s a → InList s b → (s.mem a).free = 0 → (s.mem b).free = 0 → a ≠ b →
      a + (s.mem a).size ≤ b ∨ b + (s.mem b).size ≤ a) ∧
    (∀ fuel n p s1, malloc fuel s n = some (p, s1) → p ≠ 0 →
      ∀ a, InList s a → (s.mem a).free = 0 →
        sub32 p HDR + (s1.mem (sub32 p HDR)).size ≤ a + HDR ∨ a + (s.mem a).size ≤ p) := by
  obtain ⟨e1, e2, e3, l, hh, hl⟩ := reachable_inv hv h
  have hHDR : HDR = 16 := rfl
  refine ⟨?_, ?_, ?_⟩
  · intro a ha hf
    have hal := (InList_iff e3 hh hl a).mp ha
    have h1 := Seg_alloc_size l 0 hl a hal hf
    have h2 := Seg_end_le l 0 hl a hal
    have h3 := Seg_ge_head hl hh a hal
    rw [e1, e2]
    omega
  · intro a b ha hb _ _ hab
    exact Seg_disjoint l 0 hl a ((InList_iff e3 hh hl a).mp ha) b
      ((InList_iff e3 hh hl b).mp hb) hab
  · intro fuel n p s1 hm hp0 a ha hf
    have hal := (InList_iff e3 hh hl a).mp ha
    rcases malloc_spec e3 hh hl hm with ⟨h0, _⟩ | ⟨b, hbl, hfit, hpb, hs1⟩
    · exact absurd h0 hp0
    · simp [fits] at hfit
      have hbU := Seg_lt_U32 l 0 hl b hbl
      have hblk : sub32 p HDR = b := by rw [hpb]; exact sub32_add32 hbU (by decide)
      have hab : a ≠ b := by
        intro e; rw [e] at hf; exact hfit.1 hf
      have hsz : (s1.mem b).size ≤ (s.mem b).size := by
        rw [hs1]; exact take_block_size_le s.mem b (req_of n) hfit.2
      have hpv : p = b + 16 := by
        rw [hpb]
        by_cases hw : b + HDR < U32
        · rw [add32_eq hw, hHDR]
        · exfalso
          apply hp0
          rw [hpb]
          have : b + HDR = U32 := by
            have := Seg_end_le l 0 hl b hbl
            have := req_of_ge n
            have := hv.2.2
            omega
          unfold add32; rw [this]; exact Nat.mod_self _
      rw [hblk]
      rcases Seg_disjoint l 0 hl a hal b hbl hab with hd | hd
      · right; omega
      · left; omega

/-- C6 at a concrete input: the 1024-byte heap after `malloc(100)`. -/
theorem C6_witness :
    ValidRegion 4096 1024 ∧ Reachable 4096 1024 heap1 ∧
    ((∀ a, InList heap1 a → (heap1.mem a).free = 0 →
      heap1.heap_start ≤ a ∧ a + HDR ≤ a + (heap1.mem a).size ∧
      a + (heap1.mem a).size ≤ heap1.heap_start + heap1.heap_size) ∧
    (∀ a b, InList heap1 a → InList heap1 b → (heap1.mem a).free = 0 →
      (heap1.mem b).free = 0 → a ≠ b →
      a + (heap1.mem a).size ≤ b ∨ b + (heap1.mem b).size ≤ a) ∧
    (∀ fuel n p s1, malloc fuel heap1 n = some (p, s1) → p ≠ 0 →
      ∀ a, InList heap1 a → (heap1.mem a).free = 0 →
        sub32 p HDR + (s1.mem (sub32 p HDR)).size ≤ a + HDR ∨
          a + (heap1.mem a).size ≤ p)) :=
  ⟨valid_4096_1024, heap1_reachable,
    C6_payloads_disjoint_and_inside_heap 4096 1024 valid_4096_1024 heap1 heap1_reachable⟩

/-- C7: after `free(p)` on a pointer to a currently allocated block of a
reachable state, the header of that block is marked free, and a second
`free(p)` returns the state of the first unchanged. -/
theorem C7_double_free_is_ignored (start size : Nat) (hv : ValidRegion start size)
    (s : Heap) (h : Reachable start size s) (p : Nat) (hp : AllocatedPtr s p) :
    free (free s p) p = free s p ∧
    (p ≠ 0 → ((free s p).mem (sub32 p HDR)).free ≠ 0) := by
  refine ⟨free_free s p, ?_⟩
  intro hp0
  obtain ⟨e1, _, _, _, _, _⟩ := reachable_inv hv h
  obtain ⟨b, _, hbf, hpb⟩ := hp
  have h1 : ¬ (p = 0 ∨ s.heap_start = 0) := by
    rw [e1]; intro hc
    rcases hc with hc | hc
    · exact hp0 hc
    · have := hv.1; omega
  rw [free_eq, if_neg h1]
  split_ifs with h2
  · exact h2
  · simp only []
    rw [coalesce_free, set_free_free, if_pos rfl]; decide

/-- C7 at a concrete input: the pointer 4112 returned by `malloc(100)`. -/
theorem C7_witness :
    ValidRegion 4096 1024 ∧ Reachable 4096 1024 heap1 ∧ AllocatedPtr heap1 4112 ∧
    (free (free heap1 4112) 4112 = free heap1 4112 ∧
      ((4112 : Nat) ≠ 0 → ((free heap1 4112).mem (sub32 4112 HDR)).free ≠ 0)) :=
  ⟨valid_4096_1024, heap1_reachable, heap1_allocated,
    C7_double_free_is_ignored 4096 1024 valid_4096_1024 heap1 heap1_reachable
      4112 heap1_allocated⟩

/-- C8: for a non-null pointer `p` whose block header holds a 32-bit size, and
every `n` with `0 < n` and `n ≤ size - 16`, `realloc(p, n)` returns `p` and the
unchanged state, whatever the fuel. -/
theorem C8_realloc_within_capacity_is_identity (s : Heap) (p n fuel : Nat) (hp : p ≠ 0)
    (hsz : (s.mem (sub32 p HDR)).size < U32) (hn : 0 < n)
    (hcap : n + HDR ≤ (s.mem (sub32 p HDR)).size) :
    realloc fuel s p n = some (p, s) := by
  have hold : sub32 (s.mem (sub32 p HDR)).size HDR = (s.mem (sub32 p HDR)).size - HDR :=
    sub32_eq hsz (by omega)
  unfold realloc
  rw [if_neg hp, if_neg (by omega)]
  simp only []
  rw [hold, if_pos (by omega)]

/-- C8 at a concrete input: `realloc(4112, 50)` on a block of capacity 104. -/
theorem C8_witness :
    (4112 : Nat) ≠ 0 ∧ (heap1.mem (sub32 4112 HDR)).size < U32 ∧ 0 < 50 ∧
    50 + HDR ≤ (heap1.mem (sub32 4112 HDR)).size ∧
    realloc 0 heap1 4112 50 = some (4112, heap1) :=
  ⟨by decide, by decide, by decide, by decide,
    C8_realloc_within_capacity_is_identity heap1 4112 50 0 (by decide) (by decide)
      (by decide) (by decide)⟩

/-- C9: when `pick_next` returns a non-negative index, that index is the slot
visited at some position `i` of the rotated scan, the slot is eligible, no
eligible slot of the table has a greater priority, and every eligible slot
of the same priority is visited at position `i` or later. -/
theorem C9_pick_next_picks_first_of_highest_priority (s : Sched) (h0 : 0 ≤ pick_next s) :
    ∃ i, i < MAX_TASKS ∧ pick_next s = ((rot s i : Nat) : Int) ∧ eligible s (rot s i) ∧
      (∀ x, x < MAX_TASKS → eligible s x →
        (s.pcbs x).priority ≤ (s.pcbs (rot s i)).priority) ∧
      (∀ j, j < MAX_TASKS → eligible s (rot s j) →
        (s.pcbs (rot s j)).priority = (s.pcbs (rot s i)).priority → i ≤ j) := by
  unfold pick_next at h0 ⊢
  rcases pick_next_loop_inv s MAX_TASKS with ⟨h1, _, _⟩ | ⟨i, h1, h2, h3, h4, h5, h6, h7⟩
  · rw [h1] at h0; exact absurd h0 (by decide)
  · refine ⟨i, h1, h2, h3, ?_, ?_⟩
    · intro x hx hex
      obtain ⟨j, hj, rfl⟩ := rot_surj s x hx
      rw [← h4]; exact h6 j hj hex
    · intro j hj hej hpe
      by_contra hlt
      have := h7 j (not_le.mp hlt) hej
      rw [hpe, ← h4] at this
      exact lt_irrefl _ this

/-- C9 at a concrete input: tasks of priority 1 and 5 in slots 1 and 2. -/
theorem C9_witness :
    0 ≤ pick_next sched2 ∧
    ∃ i, i < MAX_TASKS ∧ pick_next sched2 = ((rot sched2 i : Nat) : Int) ∧
      eligible sched2 (rot sched2 i) ∧
      (∀ x, x < MAX_TASKS → eligible sched2 x →
        (sched2.pcbs x).priority ≤ (sched2.pcbs (rot sched2 i)).priority) ∧
      (∀ j, j < MAX_TASKS → eligible sched2 (rot sched2 j) →
        (sched2.pcbs (rot sched2 j)).priority = (sched2.pcbs (rot sched2 i)).priority →
        i ≤ j) :=
  ⟨by decide, C9_pick_next_picks_first_of_highest_priority sched2 (by decide)⟩

/-- C10 (evaluation at the failing input): after `sched_init` and
`create_task(fn, -1000000)` slot 1 is eligible, yet `pick_next` returns -1,
because the priority is not greater than the initial `best_prio`. -/
theorem C10_eligible_slot_not_picked :
    (create_task (sched_init sched_boot) (-1000000)).1 = 1 ∧
    eligible sched_low 1 ∧ (sched_low.pcbs 1).priority = -1000000 ∧
    pick_next sched_low = -1 := by
  decide

/-- C11: in every scheduler state reachable from `sched_init` by calls of
`create_task`, `yield`, `sleep_ticks` and `exit_task`, at most one slot is
`TASK_RUNNING`: two different slots are never both `TASK_RUNNING`. -/
theorem C11_at_most_one_running (s : Sched) (h : SchedReachable s) (i j : Nat) (hne : i ≠ j) :
    ¬ ((s.pcbs i).state = TASK_RUNNING ∧ (s.pcbs j).state = TASK_RUNNING) := by
  intro hr
  have inv := sched_reachable_inv s h
  exact hne ((inv.2.2.1 i hr.1).trans (inv.2.2.1 j hr.2).symm)

theorem C11_witness :
    SchedReachable sched_one ∧ (sched_one.pcbs 1).state = TASK_RUNNING ∧
      ¬ ((sched_one.pcbs 0).state = TASK_RUNNING ∧ (sched_one.pcbs 1).state = TASK_RUNNING) :=
  ⟨⟨_, rfl⟩, by decide, C11_at_most_one_running sched_one ⟨_, rfl⟩ 0 1 (by decide)⟩

/-- C12, counterexample: slot 0 calls `sleep_ticks(100)` right after `sched_init`
at tick 0; no task is ready, `sleep_ticks` falls back to slot 0, which is the
current `TASK_RUNNING` slot again while `sched_get_ticks()` is still 0. -/
theorem C12_slot_zero_runs_before_wake :
    SchedReachable (sched_init sched_boot) ∧
    (sleep_ticks (sched_init sched_boot) 100).current = (sched_init sched_boot).current ∧
    ((sleep_ticks (sched_init sched_boot) 100).pcbs (sched_init sched_boot).current).state
      = TASK_RUNNING ∧
    sched_get_ticks (sleep_ticks (sched_init sched_boot) 100)
      < sched_get_ticks (sched_init sched_boot) + 100 :=
  ⟨⟨[], rfl⟩, by decide, by decide, by decide⟩

/-- C12, amended: when the current task of a reachable state runs in a slot
other than slot 0 and calls `sleep_ticks(t)`, then after every further sequence
of calls its slot is still `TASK_BLOCKED` and is not the current slot; in
particular it is not the current running slot while `sched_get_ticks()` is
below the wake-up tick. -/
theorem C12_sleeping_task_does_not_run (s : Sched) (t : Nat) (ops : List sched_op)
    (hs : SchedReachable s) (h0 : s.current ≠ 0) :
    ((sched_run (sleep_ticks s t) ops).pcbs s.current).state = TASK_BLOCKED ∧
    (sched_run (sleep_ticks s t) ops).current ≠ s.current := by
  have inv := sched_reachable_inv s hs
  have h := sched_run_parked ops (sleep_ticks s t) s.current (sleep_ticks_inv s t inv)
    (sleep_ticks_parks s t h0)
  exact ⟨h.2.1, h.2.2⟩

theorem C12_witness :
    SchedReachable sched_one ∧ sched_one.current ≠ 0 ∧
    ((sched_run (sleep_ticks sched_one 1) [sched_op.yield, sched_op.yield]).pcbs
        sched_one.current).state = TASK_BLOCKED ∧
    (sched_run (sleep_ticks sched_one 1) [sched_op.yield, sched_op.yield]).current
      ≠ sched_one.current :=
  ⟨⟨_, rfl⟩, by decide,
    C12_sleeping_task_does_not_run sched_one 1 [sched_op.yield, sched_op.yield] ⟨_, rfl⟩
      (by decide)⟩

/-- C13, evaluation: in `sched_sleeper` slot 1 is `TASK_BLOCKED` with
`wake_tick = 2 = ticks + 1`, the current slot is 0 and no slot is `TASK_READY`;
`yield` raises `ticks` to 2 and returns with slot 0 still current and slot 1
still `TASK_BLOCKED`. -/
theorem C13_blocked_task_is_not_woken :
    SchedReachable sched_sleeper ∧
    sched_sleeper.current = 0 ∧
    (sched_sleeper.pcbs 1).state = TASK_BLOCKED ∧
    (sched_sleeper.pcbs 1).wake_tick ≤ sched_sleeper.ticks + 1 ∧
    (∀ i, i < MAX_TASKS → (sched_sleeper.pcbs i).state ≠ TASK_READY) ∧
    (yield sched_sleeper).ticks = 2 ∧
    (yield sched_sleeper).current = 0 ∧
    ((yield sched_sleeper).pcbs 0).state = TASK_RUNNING ∧
    ((yield sched_sleeper).pcbs 1).state = TASK_BLOCKED :=
  ⟨⟨_, rfl⟩, by decide, by decide, by decide, by decide, by decide, by decide, by decide,
    by decide⟩

/-- C14, counterexample: after 4294967295 calls of `yield` from `sched_init`
the counter is 4294967295, and the next `yield` takes it to 0. -/
theorem C14_ticks_wrap_to_zero :
    SchedReachable
      (sched_run (sched_init sched_boot) (List.replicate 4294967295 sched_op.yield)) ∧
    sched_get_ticks
      (sched_run (sched_init sched_boot) (List.replicate 4294967295 sched_op.yield))
      = 4294967295 ∧
    sched_get_ticks
      (yield (sched_run (sched_init sched_boot) (List.replicate 4294967295 sched_op.yield)))
      = 0 :=
  yields_wrap 4294967295 (by decide)

/-- C14, amended: in a reachable state `yield` sets `sched_get_ticks()` to its
successor modulo 2^32, which is an increase by exactly one unless the counter
is 4294967295; `create_task`, `sleep_ticks` and `exit_task` leave it unchanged;
over a sequence of calls the counter is the initial value plus the number of
`yield` calls modulo 2^32, so it does not decrease as long as that sum stays
below 2^32. -/
theorem C14_ticks_count_yields_mod_2_32 (s : Sched) (hs : SchedReachable s) :
    sched_get_ticks (yield s) = (sched_get_ticks s + 1) % 4294967296 ∧
    (sched_get_ticks s < 4294967295 → sched_get_ticks (yield s) = sched_get_ticks s + 1) ∧
    (∀ priority, sched_get_ticks (create_task s priority).2 = sched_get_ticks s) ∧
    (∀ t, sched_get_ticks (sleep_ticks s t) = sched_get_ticks s) ∧
    sched_get_ticks (exit_task s) = sched_get_ticks s ∧
    ∀ ops, sched_get_ticks (sched_run s ops) = (sched_get_ticks s + yield_count ops) % 4294967296 ∧
      (sched_get_ticks s + yield_count ops < 4294967296 →
        sched_get_ticks s ≤ sched_get_ticks (sched_run s ops)) := by
  have inv := sched_reachable_inv s hs
  have ht : s.ticks < 4294967296 := inv.2.2.2.2.2.2
  unfold sched_get_ticks
  refine ⟨yield_ticks s, ?_, fun p => create_task_ticks s p, fun _ => rfl, rfl, ?_⟩
  · intro h
    rw [yield_ticks]
    show (s.ticks + 1) % 4294967296 = s.ticks + 1
    exact Nat.mod_eq_of_lt (by omega)
  · intro ops
    have e := sched_run_ticks ops s ht
    refine ⟨e, fun h => ?_⟩
    rw [e]
    show s.ticks ≤ (s.ticks + yield_count ops) % 4294967296
    rw [Nat.mod_eq_of_lt h]
    omega

theorem C14_witness :
    SchedReachable sched_sleeper ∧
    sched_get_ticks (yield sched_sleeper) = (sched_get_ticks sched_sleeper + 1) % 4294967296 ∧
    (sched_get_ticks sched_sleeper < 4294967295 →
      sched_get_ticks (yield sched_sleeper) = sched_get_ticks sched_sleeper + 1) ∧
    (∀ priority, sched_get_ticks (create_task sched_sleeper priority).2
      = sched_get_ticks sched_sleeper) ∧
    (∀ t, sched_get_ticks (sleep_ticks sched_sleeper t) = sched_get_ticks sched_sleeper) ∧
    sched_get_ticks (exit_task sched_sleeper) = sched_get_ticks sched_sleeper ∧
    ∀ ops, sched_get_ticks (sched_run sched_sleeper ops)
        = (sched_get_ticks sched_sleeper + yield_count ops) % 4294967296 ∧
      (sched_get_ticks sched_sleeper + yield_count ops < 4294967296 →
        sched_get_ticks sched_sleeper ≤ sched_get_ticks (sched_run sched_sleeper ops)) :=
  ⟨⟨_, rfl⟩, C14_ticks_count_yields_mod_2_32 sched_sleeper ⟨_, rfl⟩⟩

/-- C15: in a reachable state `create_task(fn, prio)` returns -1 exactly when
none of the slots `1 .. MAX_TASKS-1` is free, and then the whole state (table
and id counter) is unchanged; otherwise the lowest free slot among them gets
the returned id, state `TASK_READY`, the given priority and `wake_tick` 0, every
other slot and `current` and `ticks` are unchanged, the returned id is
positive, and a later successful call, after any sequence of calls, returns a
strictly greater id. -/
theorem C15_create_task_fills_lowest_free_slot (s : Sched) (prio : Int)
    (hs : SchedReachable s) :
    ((create_task s prio).1 = -1 ↔
      ∀ i, 1 ≤ i → i < MAX_TASKS → (s.pcbs i).state ≠ TASK_FREE) ∧
    ((create_task s prio).1 = -1 → (create_task s prio).2 = s) ∧
    ((create_task s prio).1 ≠ -1 →
      ∃ i, 1 ≤ i ∧ i < MAX_TASKS ∧ (s.pcbs i).state = TASK_FREE ∧
        (∀ j, 1 ≤ j → j < i → (s.pcbs j).state ≠ TASK_FREE) ∧
        (create_task s prio).2.pcbs i = ⟨(create_task s prio).1, TASK_READY, prio, 0⟩ ∧
        (∀ j, j ≠ i → (create_task s prio).2.pcbs j = s.pcbs j) ∧
        (create_task s prio).2.current = s.current ∧
        (create_task s prio).2.ticks = s.ticks ∧
        0 < (create_task s prio).1 ∧
        ∀ ops q, (create_task (sched_run (create_task s prio).2 ops) q).1 ≠ -1 →
          (create_task s prio).1 < (create_task (sched_run (create_task s prio).2 ops) q).1) := by
  have inv := sched_reachable_inv s hs
  have hp : 1 ≤ s.next_pid := inv.2.2.2.1.1
  rcases find_free_one s with ⟨e, hfull⟩ | ⟨f1, f2, f3, f4⟩
  · rw [create_task_full s prio e]
    exact ⟨⟨fun _ => hfull, fun _ => rfl⟩, fun _ => rfl, fun h => absurd rfl h⟩
  · have hne : find_free s MAX_TASKS 1 ≠ MAX_TASKS := by omega
    have hlater : ∀ ops q,
        (create_task (sched_run (create_task s prio).2 ops) q).1 ≠ -1 →
        s.next_pid < (create_task (sched_run (create_task s prio).2 ops) q).1 := by
      intro ops q hq
      have hmono := sched_run_next_pid ops (create_task s prio).2
      rcases create_task_ret s prio with ⟨_, _, e⟩ | ⟨_, e1, _⟩
      · exact absurd e hne
      · rcases create_task_ret (sched_run (create_task s prio).2 ops) q with ⟨e2, _, _⟩ | ⟨e2, _, _⟩
        · exact absurd e2 hq
        · rw [e2]; omega
    rw [create_task_found s prio hne] at hlater ⊢
    refine ⟨⟨fun h => ?_, fun h => absurd f3 (h _ f1 f2)⟩, fun h => ?_, fun _ => ?_⟩
    · simp only at h; omega
    · simp only at h; omega
    · refine ⟨find_free s MAX_TASKS 1, f1, f2, f3, f4, by simp, ?_, rfl, rfl, ?_, hlater⟩
      · intro j hj
        simp only [if_neg hj]
      · show 0 < s.next_pid
        omega

theorem C15_witness :
    SchedReachable (sched_init sched_boot) ∧
    (create_task (sched_init sched_boot) 5).1 = 1 ∧
    ((create_task (sched_init sched_boot) 5).1 ≠ -1 →
      ∃ i, 1 ≤ i ∧ i < MAX_TASKS ∧ ((sched_init sched_boot).pcbs i).state = TASK_FREE ∧
        (∀ j, 1 ≤ j → j < i → ((sched_init sched_boot).pcbs j).state ≠ TASK_FREE) ∧
        (create_task (sched_init sched_boot) 5).2.pcbs i
          = ⟨(create_task (sched_init sched_boot) 5).1, TASK_READY, 5, 0⟩ ∧
        (∀ j, j ≠ i → (create_task (sched_init sched_boot) 5).2.pcbs j
          = (sched_init sched_boot).pcbs j) ∧
        (create_task (sched_init sched_boot) 5).2.current = (sched_init sched_boot).current ∧
        (create_task (sched_init sched_boot) 5).2.ticks = (sched_init sched_boot).ticks ∧
        0 < (create_task (sched_init sched_boot) 5).1 ∧
        ∀ ops q,
          (create_task (sched_run (create_task (sched_init sched_boot) 5).2 ops) q).1 ≠ -1 →
          (create_task (sched_init sched_boot) 5).1
            < (create_task (sched_run (create_task (sched_init sched_boot) 5).2 ops) q).1) :=
  ⟨⟨[], rfl⟩, by decide,
    (C15_create_task_fills_lowest_free_slot (sched_init sched_boot) 5 ⟨[], rfl⟩).2.2⟩

/-- C16, evaluation: on a heap of 1024 bytes `proc_create(0)` chooses slot 1,
which is `PROC_FREE` with pid -1; `malloc(2048)` returns null and `proc_create`
returns -1, but slot 1 is then `PROC_CREATED` with pid 1, and `next_pid` is 2. -/
theorem C16_failed_create_keeps_the_slot :
    (procs_small.procs 1).state = PROC_FREE ∧ (procs_small.procs 1).pid = -1 ∧
    proc_find_free procs_small MAX_PROCESSES 1 = 1 ∧
    (malloc 4 procs_small.heap PROC_STACK_SIZE).map (fun r => r.1) = some 0 ∧
    (proc_create 4 procs_small 0).map (fun r => r.1) = some (-1) ∧
    (proc_create 4 procs_small 0).map (fun r => (r.2.procs 1).state) = some PROC_CREATED ∧
    (proc_create 4 procs_small 0).map (fun r => (r.2.procs 1).pid) = some 1 ∧
    (proc_create 4 procs_small 0).map (fun r => r.2.next_pid) = some 2 :=
  ⟨by decide, by decide, by decide, by decide, by decide, by decide, by decide, by decide⟩

/-- C18, evaluation: after `proc_init(); proc_create(1)` the live process with
pid 1 has parent pid 1, so it is its own ancestor, and its children array
holds its own pid: the test `procs[ppid].pid == ppid` for an existing parent
is met by the slot that the call itself has just filled. -/
theorem C18_process_is_its_own_parent :
    proc_run procs0 [proc_op.create 4 1] = some procs_self_parent ∧
    Live procs_self_parent 1 ∧
    Relation.TransGen (parent_of procs_self_parent) 1 1 ∧
    0 < (procs_self_parent.procs 1).child_count ∧
    (procs_self_parent.procs 1).children 0 = (procs_self_parent.procs 1).pid :=
  ⟨eq_some_getD _ procs0 (by decide), ⟨by decide, by decide, by decide⟩,
    Relation.TransGen.single ⟨1, ⟨by decide, by decide, by decide⟩, by decide, by decide⟩,
    by decide, by decide⟩

/-- The counterpart of claim C18 that the code satisfies: in every state
reached from `proc_init` by a sequence of calls in which each `proc_create` is
given a parent argument below the pid it assigns, the parent relation on live
processes has no cycle (no pid is its own ancestor) and no live process has
its own pid in its children array. -/
theorem forest_of_known_parents (h : Heap) (ops : List proc_op) (s : Procs)
    (hr : proc_run (proc_init (proc_boot h)) ops = some s)
    (hk : proc_run_known (proc_init (proc_boot h)) ops) :
    (∀ a, ¬ Relation.TransGen (parent_of s) a a) ∧
    (∀ i, Live s i → ∀ k, k < (s.procs i).child_count →
      (s.procs i).children k ≠ (s.procs i).pid) := by
  have hf := proc_run_forest ops _ s (proc_init_forest _) hk hr
  refine ⟨fun a hc => ?_, fun i hl k hk1 e => ?_⟩
  · have := parent_chain_decreases s hf a a hc
    omega
  · have := hf.2 i hl.1 hl.2.2 k hk1
    omega

/-- The forest property at a concrete run with known parents. -/
theorem forest_of_known_parents_example :
    proc_run (proc_init (proc_boot kheap))
      [proc_op.create 4 0, proc_op.create 4 1, proc_op.exit 7, proc_op.wait 0]
      = some procs_family ∧
    proc_run_known (proc_init (proc_boot kheap))
      [proc_op.create 4 0, proc_op.create 4 1, proc_op.exit 7, proc_op.wait 0] ∧
    (∀ a, ¬ Relation.TransGen (parent_of procs_family) a a) ∧
    (∀ i, Live procs_family i → ∀ k, k < (procs_family.procs i).child_count →
      (procs_family.procs i).children k ≠ (procs_family.procs i).pid) :=
  ⟨eq_some_getD _ procs0 (by decide),
    ⟨(by decide : (0 : Int) < 1), (by decide : (1 : Int) < 2), trivial, trivial, trivial⟩,
    forest_of_known_parents kheap
      [proc_op.create 4 0, proc_op.create 4 1, proc_op.exit 7, proc_op.wait 0] procs_family
      (eq_some_getD _ procs0 (by decide))
      ⟨(by decide : (0 : Int) < 1), (by decide : (1 : Int) < 2), trivial, trivial, trivial⟩⟩

/-- C19: in a reachable state whose current process is live with pid `p`,
after `proc_exit(c)` the call `proc_wait(p, &code)` returns 0, writes `c`, and
leaves the slot `PROC_FREE` with pid -1; a second `proc_wait(p, ...)` returns
-1, writes nothing and leaves the state unchanged. -/
theorem C19_exit_then_wait_reaps_once (s : Procs) (c : Int) (hs : ProcReachable s)
    (hl : Live s s.current_pid) :
    (proc_wait (proc_exit s c) (proc_getpid s)).1 = 0 ∧
    (proc_wait (proc_exit s c) (proc_getpid s)).2.1 = some c ∧
    ((proc_wait (proc_exit s c) (proc_getpid s)).2.2.procs s.current_pid).state = PROC_FREE ∧
    ((proc_wait (proc_exit s c) (proc_getpid s)).2.2.procs s.current_pid).pid = -1 ∧
    proc_wait (proc_wait (proc_exit s c) (proc_getpid s)).2.2 (proc_getpid s)
      = (-1, none, (proc_wait (proc_exit s c) (proc_getpid s)).2.2) := by
  have hi := proc_reachable_inv s hs
  unfold proc_getpid
  rw [exit_wait_eq s c hi hl]
  refine ⟨rfl, rfl, by simp, by simp, ?_⟩
  exact exit_wait_wait_eq s c hi hl

theorem C19_witness :
    ProcReachable procs_child ∧ Live procs_child procs_child.current_pid ∧
    proc_getpid procs_child = 1 ∧
    (proc_wait (proc_exit procs_child 42) (proc_getpid procs_child)).1 = 0 ∧
    (proc_wait (proc_exit procs_child 42) (proc_getpid procs_child)).2.1 = some 42 ∧
    ((proc_wait (proc_exit procs_child 42) (proc_getpid procs_child)).2.2.procs
      procs_child.current_pid).state = PROC_FREE ∧
    ((proc_wait (proc_exit procs_child 42) (proc_getpid procs_child)).2.2.procs
      procs_child.current_pid).pid = -1 ∧
    proc_wait (proc_wait (proc_exit procs_child 42) (proc_getpid procs_child)).2.2
        (proc_getpid procs_child)
      = (-1, none, (proc_wait (proc_exit procs_child 42) (proc_getpid procs_child)).2.2) :=
  ⟨⟨kheap, _, eq_some_getD _ procs0 (by decide)⟩, ⟨by decide, by decide, by decide⟩, by decide,
    C19_exit_then_wait_reaps_once procs_child 42
      ⟨kheap, _, eq_some_getD _ procs0 (by decide)⟩ ⟨by decide, by decide, by decide⟩⟩

/-- C20, evaluation: in `procs_stale`, a reachable state, no slot in use
holds pid -1 (slot 0 is `PROC_FREE` with pid -1 and still carries the handler
registered before it exited); `proc_signal_send(-1, 3)` returns 0 and calls
that handler with argument 3. -/
theorem C20_signal_reaches_a_reaped_slot :
    ProcReachable procs_stale ∧
    (∀ i, i < MAX_PROCESSES → (procs_stale.procs i).pid = -1 →
      (procs_stale.procs i).state = PROC_FREE) ∧
    procs_stale.calls = [] ∧
    (proc_signal_send procs_stale (-1) 3).1 = 0 ∧
    (proc_signal_send procs_stale (-1) 3).2.calls = [(7777, 3)] :=
  ⟨⟨kheap, _, eq_some_getD _ procs0 (by decide)⟩, by decide, by decide, by decide, by decide⟩

/-- C21, evaluation: on the heap of 1024 bytes at 4096, whose list is the one
free block of size 1024, the reference for `malloc(4294967280)` needs
`r = 4294967296` bytes, finds no block and returns null with the list unchanged;
`malloc` computes `req = 16` in 32-bit arithmetic, returns 4112, shrinks the
block to 16 bytes, marks it allocated and puts a free block of 1008 bytes
after it. -/
theorem C21_overflowing_request_is_served :
    block_list heap0.mem 2 heap0.free_list = some [4096] ∧
    ref_req 4294967280 = 4294967296 ∧
    malloc_ref 4294967280 (blocks heap0.mem [4096]) = (0, [⟨4096, 1024, true⟩]) ∧
    (malloc 2 heap0 4294967280).map (fun q => q.1) = some 4112 ∧
    (malloc 2 heap0 4294967280).map (fun q => block_list q.2.mem 3 q.2.free_list)
      = some (some [4096, 4112]) ∧
    (malloc 2 heap0 4294967280).map (fun q => blocks q.2.mem [4096, 4112])
      = some [⟨4096, 16, false⟩, ⟨4112, 1008, true⟩] :=
  ⟨by decide, by decide, by decide, by decide, by decide, by decide⟩

end Kacchi
